import Mathlib

/-!
# Weighted graphs and minimum spanning trees (`wgraph/wgraph.h`)

A shallow embedding of the class `wgraph<Vertex>` and of its three minimum
spanning tree methods.  Only `wgraph.h` belongs to the sources; the headers it
includes (`graph.h`, `wedge.h`, `ds.h`, `dary_heap.h`) do not, so the classes
they declare are modelled from the specification and marked as such.

Conventions of the embedding:

* `Vertex` is any linearly ordered type (the template parameter);
* costs (`double` in the source) live in any linearly ordered additive
  commutative monoid `K` with a top element `⊤` playing the role of
  `std::numeric_limits<double>::infinity()`; arithmetic is exact and there is
  no NaN;
* a call that ends in a failed `assert`, an uncaught exception or undefined
  behaviour returns `Except.error` with the corresponding `Fault`;
* the two `while` loops take a bound `fuel` on the number of their rounds and
  return `Fault.no_fuel` when it is exhausted; the theorems say how much fuel is
  enough;
* a state of `wgraph` is any pair of a substrate state and a cost table; the
  states that the public mutators can produce are well formed (`graph.WF`) and
  satisfy the cost-table invariant (`wgraph.Inv`), and the theorems on the
  spanning tree methods assume these two properties of their input;
* the states in which a while loop evaluates its test are described by the
  predicates `PrimReach` and `BoruvkaReach`, whose constructors follow one round
  of the loop as the embedding of the method runs it.

The definitions come first, the theorems follow from `# Theorems` on.
-/

namespace Csci164

/-- Fatal ways in which a call can end instead of returning a value. -/
inductive Fault where
  | assertion
  | out_of_range
  | division_by_zero
  | heap_misuse
  | no_fuel
deriving DecidableEq

/-! ## Containers of the standard library -/

section Containers

variable {κ α : Type}

/-- Finite maps (`std::map`, `std::unordered_map`) as association lists kept in
ascending key order with one entry per key. -/
abbrev Map (κ α : Type) := List (κ × α)

/-- Look a key up: `some` of the stored value, `none` when the key is absent. -/
def Map.find [DecidableEq κ] (m : Map κ α) (k : κ) : Option α :=
  match m with
  | [] => none
  | (k1, x) :: rest => if k1 = k then some x else Map.find rest k

/-- Member function `count`: 1 when the key is present, 0 otherwise. -/
def Map.count [DecidableEq κ] (m : Map κ α) (k : κ) : Nat :=
  if (Map.find m k).isSome then 1 else 0

/-- Insert or overwrite, `m[k] = x`. -/
def Map.set [LinearOrder κ] (m : Map κ α) (k : κ) (x : α) : Map κ α :=
  match m with
  | [] => [(k, x)]
  | (k1, x1) :: rest =>
    if k < k1 then (k, x) :: (k1, x1) :: rest
    else if k1 < k then (k1, x1) :: Map.set rest k x
    else (k, x) :: rest

/-- Member function `erase`: drop the entry of a key, if there is one. -/
def Map.erase [DecidableEq κ] (m : Map κ α) (k : κ) : Map κ α :=
  m.filter (fun p => !decide (p.1 = k))

/-- Member function `size`. -/
def Map.size (m : Map κ α) : Nat := m.length

/-- Insertion into a `std::set`, kept as a strictly ascending list: an element
equivalent under `<` to one already there (neither is less than the other) is not
inserted. -/
def set_insert [LT α] [DecidableRel (fun a b : α => a < b)] (x : α) : List α → List α
  | [] => [x]
  | y :: ys =>
    if x < y then x :: y :: ys
    else if y < x then y :: set_insert x ys
    else y :: ys

end Containers

/-! ## Edges and weighted edges (`wedge.h`) -/

/-- Modelled from the spec: the class `Edge<Vertex>` of `wedge.h`, which is not
among the sources.  An edge is the pair of endpoints it was built from; as a key
of the cost table the two directions `(v,w)` and `(w,v)` are distinct entries. -/
structure Edge (Vertex : Type) where
  v : Vertex
  w : Vertex
deriving DecidableEq

/-- Modelled from the spec: `Edge::reverse` of `wedge.h`, the same edge with its
endpoints exchanged. -/
def Edge.reverse {Vertex : Type} (e : Edge Vertex) : Edge Vertex := ⟨e.w, e.v⟩

/-- Modelled from the spec: the class `WEdge<Vertex>` of `wedge.h`, an edge
annotated with a cost. -/
structure WEdge (Vertex K : Type) where
  v : Vertex
  w : Vertex
  c : K
deriving DecidableEq

section Orders

variable {Vertex K : Type}

/-- Modelled from the spec: the key by which `operator<` of `Edge` (`wedge.h`)
compares edges: first endpoint, then second endpoint. -/
def Edge.key (e : Edge Vertex) : Lex (Vertex × Vertex) := toLex (e.v, e.w)

/-- Modelled from the spec: the key by which `operator<` of `WEdge` (`wedge.h`)
compares weighted edges: cost first, ties broken by the endpoints, taken as an
unordered pair (the smaller endpoint, then the larger).  The two directions
`(v, w, c)` and `(w, v, c)` of one undirected edge have the same key, so a
`std::set` of weighted edges represents each undirected edge once. -/
def WEdge.key [LinearOrder Vertex] (e : WEdge Vertex K) : Lex (K × Lex (Vertex × Vertex)) :=
  toLex (e.c, toLex (min e.v e.w, max e.v e.w))

/-- Modelled from the spec: `operator<` of `Edge` (in `wedge.h`), the order under
which the cost table is keyed. -/
instance [LinearOrder Vertex] : LinearOrder (Edge Vertex) :=
  LinearOrder.lift' Edge.key (by
    intro a b h
    cases a; cases b
    simp only [Edge.key, EmbeddingLike.apply_eq_iff_eq, Prod.mk.injEq] at h
    simp [h.1, h.2])

/-- Modelled from the spec: `operator<` of `WEdge` (in `wedge.h`): ordering is
primarily by cost, ties are broken by the unordered pair of endpoints.  Two
weighted edges with the same key are equivalent without being equal, so this is
a preorder. -/
instance [LinearOrder Vertex] [LinearOrder K] : Preorder (WEdge Vertex K) :=
  Preorder.lift WEdge.key

/-- Modelled from the spec: the test `a < b` of `operator<` of `WEdge`. -/
instance [LinearOrder Vertex] [LinearOrder K] (a b : WEdge Vertex K) : Decidable (a < b) :=
  inferInstanceAs (Decidable (WEdge.key a < WEdge.key b))

/-- Modelled from the spec: the test `!(b < a)` of `operator<` of `WEdge`. -/
instance [LinearOrder Vertex] [LinearOrder K] (a b : WEdge Vertex K) : Decidable (a ≤ b) :=
  inferInstanceAs (Decidable (WEdge.key a ≤ WEdge.key b))

end Orders

/-! ## Disjoint sets (`ds.h`) -/

/-- Modelled from the spec: the class `ds<Vertex>` of `ds.h`, which is not among
the sources.  The state is the map from a vertex to the representative vertex of
its component, which is also the identifier `find_set` returns. -/
structure ds (Vertex : Type) where
  rep : Vertex → Vertex

namespace ds

variable {Vertex : Type} [DecidableEq Vertex]

/-- Modelled from the spec: the default constructor of `ds` (`ds.h`), no set yet. -/
def empty : ds Vertex := ⟨fun x => x⟩

/-- Modelled from the spec: `make_set(v)` of `ds.h` registers `v` as a singleton
component. -/
def make_set (d : ds Vertex) (v : Vertex) : ds Vertex :=
  ⟨fun x => if x = v then v else d.rep x⟩

/-- Modelled from the spec: `find_set(v)` of `ds.h` returns an identifier that two
vertices share exactly when they are in the same component. -/
def find_set (d : ds Vertex) (v : Vertex) : Vertex := d.rep v

/-- Modelled from the spec: `root_key(v)` of `ds.h` returns the vertex chosen as
representative of the component of `v`. -/
def root_key (d : ds Vertex) (v : Vertex) : Vertex := d.rep v

/-- Modelled from the spec: `join_sets(v, w)` of `ds.h` merges the components of
`v` and `w` and returns true when they differ; otherwise it returns false and has
no effect. -/
def join_sets (d : ds Vertex) (v w : Vertex) : Bool × ds Vertex :=
  if d.rep v = d.rep w then (false, d)
  else (true, ⟨fun x => if d.rep x = d.rep w then d.rep v else d.rep x⟩)

end ds

/-! ## The unweighted graph substrate (`graph.h`) -/

/-- Modelled from the spec: the class `graph<Vertex>` of `graph.h`, which is not
among the sources.  It stores the vertices in enumeration order and the adjacency
as the list of pairs `(v, w)` with `w` a neighbour of `v`. -/
structure graph (Vertex : Type) where
  vs : List Vertex
  adj : List (Vertex × Vertex)

namespace graph

variable {Vertex : Type} [LinearOrder Vertex]

/-- Modelled from the spec: the default constructor of `graph` (`graph.h`), the
graph without vertices. -/
def empty : graph Vertex := ⟨[], []⟩

/-- Modelled from the spec: `isVertex` of `graph.h`, the vertex existence test. -/
def isVertex (g : graph Vertex) (v : Vertex) : Bool := decide (v ∈ g.vs)

/-- Modelled from the spec: `isEdge` of `graph.h`, the edge existence test. -/
def isEdge (g : graph Vertex) (v w : Vertex) : Bool := decide ((v, w) ∈ g.adj)

/-- Modelled from the spec: `V()` of `graph.h`, the vertex set enumeration. -/
def V (g : graph Vertex) : List Vertex := g.vs

/-- Modelled from the spec: `Adj(v)` of `graph.h`, the neighbour enumeration for a
vertex. -/
def Adj (g : graph Vertex) (v : Vertex) : List Vertex :=
  (g.adj.filter (fun p => decide (p.1 = v))).map Prod.snd

/-- Modelled from the spec: `n()` of `graph.h`, the vertex count. -/
def n (g : graph Vertex) : Nat := g.vs.length

/-- Modelled from the spec: `m()` of `graph.h`, the edge count, one per undirected
edge. -/
def m (g : graph Vertex) : Nat := (g.adj.filter (fun p => decide (p.1 ≤ p.2))).length

/-- Modelled from the spec: `addVertex` of `graph.h`, which adds a vertex that is
not yet there. -/
def addVertex (g : graph Vertex) (v : Vertex) : graph Vertex :=
  if v ∈ g.vs then g else { g with vs := g.vs ++ [v] }

/-- Modelled from the spec: insertion into a neighbour set of `graph.h`, which
records one adjacency pair unless it is already recorded. -/
def link (p : Vertex × Vertex) (l : List (Vertex × Vertex)) : List (Vertex × Vertex) :=
  if p ∈ l then l else l ++ [p]

/-- Modelled from the spec: the unweighted `addEdge` of `graph.h`, which makes `v`
and `w` neighbours of each other. -/
def addEdge (g : graph Vertex) (v w : Vertex) : graph Vertex :=
  { g with adj := link (w, v) (link (v, w) g.adj) }

/-- Modelled from the spec: the unweighted `removeEdge` of `graph.h`, which removes
the edge if present and does nothing otherwise. -/
def removeEdge (g : graph Vertex) (v w : Vertex) : graph Vertex :=
  { g with adj := g.adj.filter (fun p => !(decide (p = (v, w)) || decide (p = (w, v)))) }

/-- Modelled from the spec: the component labelling behind `ncc()` of `graph.h`:
every vertex is made a singleton and the endpoints of every adjacency pair are
joined. -/
def components (g : graph Vertex) : ds Vertex :=
  g.adj.foldl (fun d p => (d.join_sets p.1 p.2).2) (g.vs.foldl ds.make_set ds.empty)

/-- Modelled from the spec: the connected-component count `ncc()` of `graph.h`, the
number of distinct component identifiers among the vertices. -/
def ncc (g : graph Vertex) : Nat := ((g.vs.map g.components.rep).dedup).length

/-- Modelled from the spec: the connectivity test `isConnected()` of `graph.h`,
true when the graph has exactly one connected component. -/
def isConnected (g : graph Vertex) : Bool := g.ncc == 1

end graph

/-! ## The weighted graph (`wgraph.h`) -/

/-- The class `wgraph<Vertex>`: a `graph<Vertex>` together with the private
cost table `_c`, a `std::map<Edge<Vertex>, double>`. -/
structure wgraph (Vertex K : Type) extends graph Vertex where
  _c : Map (Edge Vertex) K

namespace wgraph

variable {Vertex K : Type} [LinearOrder Vertex]

/-- The default constructor `wgraph()`. -/
def empty : wgraph Vertex K := ⟨graph.empty, []⟩

/-- The inherited `addVertex`: it acts on the base class only. -/
def addVertex (g : wgraph Vertex K) (v : Vertex) : wgraph Vertex K :=
  { g with tograph := g.tograph.addVertex v }

/-- The method `bool addEdge(const Vertex &v, const Vertex &w, double c)`: the
returned flag and the graph after the call. -/
def addEdge (g : wgraph Vertex K) (v w : Vertex) (c : K) : Bool × wgraph Vertex K :=
  if !g.isVertex v || !g.isVertex w then (false, g)
  else if g.isEdge v w then (false, g)
  else (true, { tograph := g.tograph.addEdge v w,
                _c := Map.set (Map.set g._c ⟨v, w⟩ c) ⟨w, v⟩ c })

/-- The overload `bool addEdge(const Edge<Vertex> &e, double c)`. -/
def addEdge_e (g : wgraph Vertex K) (e : Edge Vertex) (c : K) : Bool × wgraph Vertex K :=
  g.addEdge e.v e.w c

/-- The overload `bool addEdge(const WEdge<Vertex> &e)`. -/
def addEdge_we (g : wgraph Vertex K) (e : WEdge Vertex K) : Bool × wgraph Vertex K :=
  g.addEdge e.v e.w e.c

/-- The method `void removeEdge(const Vertex &v, const Vertex &w)`. -/
def removeEdge (g : wgraph Vertex K) (v w : Vertex) : wgraph Vertex K :=
  { tograph := g.tograph.removeEdge v w,
    _c := Map.erase (Map.erase g._c ⟨v, w⟩) ⟨w, v⟩ }

/-- The overload `void removeEdge(const Edge<Vertex> &e)`. -/
def removeEdge_e (g : wgraph Vertex K) (e : Edge Vertex) : wgraph Vertex K :=
  { tograph := g.tograph.removeEdge e.v e.w,
    _c := Map.erase (Map.erase g._c e) e.reverse }

/-- The method `double cost(const Vertex &v, const Vertex &w) const`: the
assertion on the endpoints, then `_c.at`, which throws on a missing key. -/
def cost (g : wgraph Vertex K) (v w : Vertex) : Except Fault K :=
  if g.isVertex v && g.isVertex w then
    match Map.find g._c ⟨v, w⟩ with
    | some c => .ok c
    | none => .error .out_of_range
  else .error .assertion

/-- Inner loop of `E()`: the neighbours `w` of one vertex `v`. -/
def E_row [LinearOrder K] (g : wgraph Vertex K) (v : Vertex) :
    List Vertex → List (WEdge Vertex K) → Except Fault (List (WEdge Vertex K))
  | [], ans => .ok ans
  | w :: ws, ans =>
    match g.cost v w with
    | .error f => .error f
    | .ok c => E_row g v ws (set_insert ⟨v, w, c⟩ ans)

/-- Outer loop of `E()`: the vertices `v`. -/
def E_loop [LinearOrder K] (g : wgraph Vertex K) :
    List Vertex → List (WEdge Vertex K) → Except Fault (List (WEdge Vertex K))
  | [], ans => .ok ans
  | v :: vs, ans =>
    match E_row g v (g.Adj v) ans with
    | .error f => .error f
    | .ok ans1 => E_loop g vs ans1

/-- The method `std::set< WEdge<Vertex> > E() const`, its elements listed in the
ascending order of the set. -/
def E [LinearOrder K] (g : wgraph Vertex K) : Except Fault (List (WEdge Vertex K)) :=
  E_loop g g.V []

/-- The cost-table invariant at one pair of vertices: the edge exists exactly
when both directed keys are present, and two present entries hold one cost. -/
def InvAt (g : wgraph Vertex K) (v w : Vertex) : Prop :=
  (g.isEdge v w = true ↔
    (Map.count g._c ⟨v, w⟩ ≠ 0 ∧ Map.count g._c ⟨w, v⟩ ≠ 0)) ∧
  (∀ c1 c2, Map.find g._c ⟨v, w⟩ = some c1 → Map.find g._c ⟨w, v⟩ = some c2 → c1 = c2)

/-- The cost-table invariant of the data model. -/
def Inv (g : wgraph Vertex K) : Prop := ∀ v w, InvAt g v w

/-- States reachable from the empty graph through the public mutators
`addVertex`, `addEdge` and `removeEdge`. -/
inductive Reachable : wgraph Vertex K → Prop
  | empty : Reachable wgraph.empty
  | addVertex (g : wgraph Vertex K) (v : Vertex) : Reachable g → Reachable (g.addVertex v)
  | addEdge (g : wgraph Vertex K) (v w : Vertex) (c : K) :
      Reachable g → Reachable (g.addEdge v w c).2
  | removeEdge (g : wgraph Vertex K) (v w : Vertex) :
      Reachable g → Reachable (g.removeEdge v w)

end wgraph

/-! ## The indexed d-ary heap (`dary_heap.h`) -/

/-- Modelled from the spec: the class `dary_heap< WEdge<Vertex> >` of
`dary_heap.h`, which is not among the sources.  Only what the operations return
is modelled: the branching factor and the live items, listed in ascending
order of `operator<`. -/
structure dary_heap (Vertex K : Type) where
  d : Nat
  items : List (WEdge Vertex K)

namespace dary_heap

variable {Vertex K : Type} [LinearOrder Vertex] [LinearOrder K]

/-- Modelled from the spec: the constructor of `dary_heap.h` taking the branching
factor. -/
def new (d : Nat) : dary_heap Vertex K := ⟨d, []⟩

/-- Modelled from the spec: `empty()` of `dary_heap.h`. -/
def empty (h : dary_heap Vertex K) : Bool := h.items.isEmpty

/-- Modelled from the spec: `push(item)` of `dary_heap.h`. -/
def push (h : dary_heap Vertex K) (x : WEdge Vertex K) : dary_heap Vertex K :=
  { h with items := h.items.orderedInsert (fun a b => a ≤ b) x }

/-- Modelled from the spec: `min()` of `dary_heap.h`, the minimum item; undefined
on an empty heap. -/
def min (h : dary_heap Vertex K) : Except Fault (WEdge Vertex K) :=
  match h.items with
  | [] => .error .heap_misuse
  | x :: _ => .ok x

/-- Modelled from the spec: `pop_min()` of `dary_heap.h` removes the minimum item. -/
def pop_min (h : dary_heap Vertex K) : dary_heap Vertex K :=
  { h with items := h.items.tail }

/-- Modelled from the spec: `decrease_key(oldItem, newItem)` of `dary_heap.h`.  The entry is
located through the identity index, keyed by the destination vertex `w`; it is
replaced by `newItem`, whose cost must not exceed the cost of the entry.  A
missing entry or a higher cost is undefined behaviour. -/
def decrease_key (h : dary_heap Vertex K) (oldItem newItem : WEdge Vertex K) :
    Except Fault (dary_heap Vertex K) :=
  match h.items.find? (fun x => decide (x.w = oldItem.w)) with
  | none => .error .heap_misuse
  | some x =>
    if newItem.c ≤ x.c then
      .ok { h with items := (h.items.filter (fun y => !decide (y.w = oldItem.w))).orderedInsert
                              (fun a b => a ≤ b) newItem }
    else .error .heap_misuse

end dary_heap

/-! ## The three minimum spanning tree methods (`wgraph.h`) -/

namespace wgraph

variable {Vertex K : Type} [LinearOrder Vertex] [LinearOrderedAddCommMonoidWithTop K]

/-- The loop `for (auto &v : V()) { ans.addVertex(v); d.make_set(v); }` shared by
`Kruskal_MST` and `Boruvka_MST`. -/
def MST_init : List Vertex → wgraph Vertex K × ds Vertex → wgraph Vertex K × ds Vertex
  | [], s => s
  | v :: vs, (ans, d) => MST_init vs (ans.addVertex v, d.make_set v)

/-- The loop `for (auto &e : E())` of `Kruskal_MST`. -/
def Kruskal_loop :
    List (WEdge Vertex K) → wgraph Vertex K × ds Vertex → wgraph Vertex K × ds Vertex
  | [], s => s
  | e :: es, (ans, d) =>
    if (d.join_sets e.v e.w).1 then
      Kruskal_loop es ((ans.addEdge_we e).2, (d.join_sets e.v e.w).2)
    else Kruskal_loop es (ans, (d.join_sets e.v e.w).2)

/-- The method `wgraph<Vertex> Kruskal_MST() const`. -/
def Kruskal_MST (g : wgraph Vertex K) : Except Fault (wgraph Vertex K) :=
  if g.isConnected then
    match g.E with
    | .error f => .error f
    | .ok es => .ok (Kruskal_loop es (MST_init g.V (wgraph.empty, ds.empty))).1
  else .error .assertion

/-- One of the two updates of `lightest` in `Boruvka_MST`:
`if (lightest.count(r) == 0 || lightest.at(r).c > e.c) lightest[r] = e;`. -/
def lightest_update (lightest : Map Vertex (WEdge Vertex K)) (r : Vertex)
    (e : WEdge Vertex K) : Map Vertex (WEdge Vertex K) :=
  match Map.find lightest r with
  | none => Map.set lightest r e
  | some x => if x.c > e.c then Map.set lightest r e else lightest

/-- The scan `for (auto &e : E())` of one round of `Boruvka_MST`. -/
def lightest_scan (d : ds Vertex) :
    List (WEdge Vertex K) → Map Vertex (WEdge Vertex K) → Map Vertex (WEdge Vertex K)
  | [], lightest => lightest
  | e :: es, lightest =>
    if d.find_set e.v ≠ d.find_set e.w then
      lightest_scan d es
        (lightest_update (lightest_update lightest (d.root_key e.v) e) (d.root_key e.w) e)
    else lightest_scan d es lightest

/-- The loop `for (auto &p : lightest)` of one round of `Boruvka_MST`. -/
def Boruvka_merge :
    List (Vertex × WEdge Vertex K) → wgraph Vertex K × ds Vertex → wgraph Vertex K × ds Vertex
  | [], s => s
  | p :: ps, (ans, d) =>
    Boruvka_merge ps ((ans.addEdge_we p.2).2, (d.join_sets p.2.v p.2.w).2)

/-- The loop `while (ans.ncc() > 1)` of `Boruvka_MST`, cut after `fuel` rounds. -/
def Boruvka_while (g : wgraph Vertex K) :
    Nat → wgraph Vertex K × ds Vertex → Except Fault (wgraph Vertex K)
  | fuel, (ans, d) =>
    if ans.ncc > 1 then
      match fuel with
      | 0 => .error .no_fuel
      | fuel1 + 1 =>
        match g.E with
        | .error f => .error f
        | .ok es => Boruvka_while g fuel1 (Boruvka_merge (lightest_scan d es []) (ans, d))
    else .ok ans

/-- The method `wgraph<Vertex> Boruvka_MST() const`; `fuel` bounds the number of
rounds of its while loop. -/
def Boruvka_MST (fuel : Nat) (g : wgraph Vertex K) : Except Fault (wgraph Vertex K) :=
  if g.isConnected then
    Boruvka_while g fuel (MST_init g.V (wgraph.empty, ds.empty))
  else .error .assertion

/-- Reading `d[y]` from a `std::unordered_map<Vertex, double>`: the stored value,
or the value-initialised `0.0` when the key is absent. -/
def rd (d : Map Vertex K) (y : Vertex) : K := (Map.find d y).getD 0

/-- The first loop of `Prim_MST` (lines 141 to 147): the tentative distances `d`
and the start vertex `s`. -/
def Prim_init : List Vertex → Map Vertex K × Vertex → Map Vertex K × Vertex
  | [], st => st
  | v :: vs, (d, s) =>
    if Map.size (Map.set d v ⊤) == 0 then Prim_init vs (Map.set (Map.set d v ⊤) v 0, v)
    else Prim_init vs (Map.set d v ⊤, s)

/-- The second loop of `Prim_MST` (lines 151 to 154): the heap and the parents. -/
def Prim_seed (d : Map Vertex K) :
    List Vertex → dary_heap Vertex K × Map Vertex Vertex →
      dary_heap Vertex K × Map Vertex Vertex
  | [], st => st
  | v :: vs, (H, parent) => Prim_seed d vs (H.push ⟨v, v, rd d v⟩, Map.set parent v v)

/-- Local state of the while loop of `Prim_MST`. -/
structure PrimState (Vertex K : Type) where
  d : Map Vertex K
  parent : Map Vertex Vertex
  H : dary_heap Vertex K
  ans : wgraph Vertex K

/-- The loop `for (auto &y : graph<Vertex>::Adj(x.w))` of `Prim_MST`. -/
def Prim_relax (g : wgraph Vertex K) (xw : Vertex) :
    List Vertex → PrimState Vertex K → Except Fault (PrimState Vertex K)
  | [], st => .ok st
  | y :: ys, st =>
    match g.cost xw y with
    | .error f => .error f
    | .ok newcost =>
      if !st.ans.isVertex y && decide (newcost < rd st.d y) then
        match Map.find st.parent y with
        | none => .error .out_of_range
        | some p =>
          match st.H.decrease_key ⟨p, y, rd st.d y⟩ ⟨xw, y, newcost⟩ with
          | .error f => .error f
          | .ok H1 =>
            Prim_relax g xw ys
              { st with H := H1, d := Map.set st.d y newcost, parent := Map.set st.parent y xw }
      else Prim_relax g xw ys st

/-- Lines 138 to 154 of `Prim_MST`: the local state in which the while loop is
entered.  The heap is constructed with the branching factor
`std::max((size_t)2, m()/n())`, the first loop fills `d`, the second loop pushes
one entry per vertex and fills `parent`, and `ans` is empty.  The local
`Vertex s;` is not assigned before the first loop runs, so its value `s0` is an
input of the model. -/
def Prim_start (s0 : Vertex) (g : wgraph Vertex K) : PrimState Vertex K :=
  ⟨(Prim_init g.V (([] : Map Vertex K), s0)).1,
   (Prim_seed (Prim_init g.V (([] : Map Vertex K), s0)).1 g.V
      (dary_heap.new (max 2 (g.m / g.n)), [])).2,
   (Prim_seed (Prim_init g.V (([] : Map Vertex K), s0)).1 g.V
      (dary_heap.new (max 2 (g.m / g.n)), [])).1,
   wgraph.empty⟩

/-- Lines 158 to 162 of `Prim_MST`, in a round whose `H.min()` is `x`:
`H.pop_min()`, `ans.addVertex(x.w)` and, if `x.w != s`, `ans.addEdge(x.v, x.w, x.c)`. -/
def Prim_extract (s : Vertex) (st : PrimState Vertex K) (x : WEdge Vertex K) :
    PrimState Vertex K :=
  { st with
    H := st.H.pop_min,
    ans := if x.w ≠ s then ((st.ans.addVertex x.w).addEdge x.v x.w x.c).2
           else st.ans.addVertex x.w }

/-- The loop `while (!H.empty())` of `Prim_MST`, cut after `fuel` rounds. -/
def Prim_while (g : wgraph Vertex K) (s : Vertex) :
    Nat → PrimState Vertex K → Except Fault (wgraph Vertex K)
  | fuel, st =>
    if st.H.empty then .ok st.ans
    else
      match fuel with
      | 0 => .error .no_fuel
      | fuel1 + 1 =>
        match st.H.min with
        | .error f => .error f
        | .ok x =>
          match Prim_relax g x.w (g.Adj x.w) (Prim_extract s st x) with
          | .error f => .error f
          | .ok st1 => Prim_while g s fuel1 st1

/-- The method `wgraph<Vertex> Prim_MST() const`: the loops of lines 141 to 154
leave the state `Prim_start` and the value of `s`, from which the while loop
runs; `fuel` bounds the number of its rounds.  The branching factor divides by
`n()`, which is undefined for the graph without vertices. -/
def Prim_MST (s0 : Vertex) (fuel : Nat) (g : wgraph Vertex K) :
    Except Fault (wgraph Vertex K) :=
  if g.n = 0 then .error .division_by_zero
  else Prim_while g (Prim_init g.V (([] : Map Vertex K), s0)).2 fuel (Prim_start s0 g)

end wgraph

/-! ## Specification-level notions -/

namespace wgraph

variable {Vertex K : Type} [LinearOrder Vertex]

/-- A cost-table key is present only for an existing edge: there are no stray
entries. -/
def NoStray (g : wgraph Vertex K) : Prop :=
  ∀ v w, Map.count g._c ⟨v, w⟩ ≠ 0 → g.isEdge v w = true

end wgraph

/-! ## Concrete graphs -/

namespace Examples

/-- Two vertices and no edge. -/
def twoVertices : wgraph ℕ (WithTop ℕ) := (wgraph.empty.addVertex 1).addVertex 2

/-- Two vertices joined by one edge of cost 5. -/
def oneEdge : wgraph ℕ (WithTop ℕ) := (twoVertices.addEdge 1 2 5).2

end Examples

namespace wgraph

variable {Vertex K : Type} [LinearOrder Vertex]

/-- Total edge cost of a weighted graph: the stored costs summed over the
undirected edges, each taken once, in the direction with `v ≤ w`. -/
def totalCost [AddMonoid K] (g : wgraph Vertex K) : K :=
  ((g.adj.filter (fun p => decide (p.1 ≤ p.2))).map
    (fun p => (Map.find g._c ⟨p.1, p.2⟩).getD 0)).sum

/-- What a call returned, for comparison with expected values: the vertices, the
adjacency pairs and the entries of the cost table as triples. -/
def observe (r : Except Fault (wgraph Vertex K)) :
    Option (List Vertex × List (Vertex × Vertex) × List (Vertex × Vertex × K)) :=
  match r with
  | .ok t => some (t.vs, t.adj, t._c.map (fun p => (p.1.v, p.1.w, p.2)))
  | .error _ => none

end wgraph

namespace Examples

/-- A single vertex and no edge. -/
def single : wgraph ℕ (WithTop ℕ) := wgraph.empty.addVertex 1

/-- Two vertices joined by one edge of cost 1. -/
def pair : wgraph ℕ (WithTop ℕ) := (twoVertices.addEdge 1 2 1).2

/-- The scenario of the specification, with `A, B, C, D` written `1, 2, 3, 4`:
edges `(A,B,1)`, `(B,C,2)`, `(C,D,1)`, `(A,D,4)`, `(A,C,3)`. -/
def scenario : wgraph ℕ (WithTop ℕ) :=
  (((((((((wgraph.empty.addVertex 1).addVertex 2).addVertex 3).addVertex 4).addEdge
    1 2 1).2.addEdge 2 3 2).2.addEdge 3 4 1).2.addEdge 1 4 4).2.addEdge 1 3 3).2

/-- A triangle whose three edges all cost 1. -/
def triangle : wgraph ℕ (WithTop ℕ) :=
  ((((((wgraph.empty.addVertex 1).addVertex 2).addVertex 3).addEdge
    1 2 1).2.addEdge 2 3 1).2.addEdge 1 3 1).2

end Examples

/-! ## Notions used to state and prove the spanning tree claims -/

section Notions

variable {Vertex K : Type}

/-- Two vertices are connected through a list of adjacency pairs when a chain of
pairs, each walked in either direction, leads from one to the other. -/
def Conn (L : List (Vertex × Vertex)) (a b : Vertex) : Prop :=
  Relation.EqvGen (fun x y => (x, y) ∈ L) a b

/-- A list of pairs is a forest when it has no repetition and no pair joins two
vertices that the remaining pairs already connect: every edge is a bridge, so
there is no cycle (a self-loop and a pair listed in both directions are cycles). -/
def IsForest [DecidableEq Vertex] (L : List (Vertex × Vertex)) : Prop :=
  L.Nodup ∧ ∀ p ∈ L, ¬ Conn (L.erase p) p.1 p.2

/-- The endpoints of a weighted edge. -/
def WEdge.ends (e : WEdge Vertex K) : Vertex × Vertex := (e.v, e.w)

/-- A component labelling agrees with a list of pairs when two vertices carry the
same identifier exactly when the pairs connect them. -/
def Agree (d : ds Vertex) (L : List (Vertex × Vertex)) : Prop :=
  ∀ a b, d.rep a = d.rep b ↔ Conn L a b

/-- Number of distinct labels that `f` gives to the members of `X`. -/
def nlabels [DecidableEq Vertex] (X : List Vertex) (f : Vertex → Vertex) : Nat :=
  ((X.map f).dedup).length

/-- The disjoint sets after joining the endpoints of every element of a list. -/
def runDs [DecidableEq Vertex] {β : Type} (ends : β → Vertex × Vertex) (d : ds Vertex) :
    List β → ds Vertex
  | [] => d
  | x :: xs => runDs ends (d.join_sets (ends x).1 (ends x).2).2 xs

/-- The elements of a list whose endpoints were in different sets when their turn
came, the sets being joined along the way: what the loop of `Kruskal_MST` adds. -/
def accepted [DecidableEq Vertex] {β : Type} (ends : β → Vertex × Vertex) (d : ds Vertex) :
    List β → List β
  | [] => []
  | x :: xs =>
    if d.rep (ends x).1 = d.rep (ends x).2 then accepted ends d xs
    else x :: accepted ends (d.join_sets (ends x).1 (ends x).2).2 xs

end Notions

namespace graph

variable {Vertex : Type} [LinearOrder Vertex]

/-- Well-formed states of the substrate: no vertex and no adjacency pair is
listed twice, neighbours are vertices, and adjacency is symmetric. -/
structure WF (g : graph Vertex) : Prop where
  nodup_vs : g.vs.Nodup
  nodup_adj : g.adj.Nodup
  mem_vs : ∀ p ∈ g.adj, p.1 ∈ g.vs ∧ p.2 ∈ g.vs
  symm : ∀ p ∈ g.adj, (p.2, p.1) ∈ g.adj

end graph

namespace wgraph

variable {Vertex K : Type} [LinearOrder Vertex]

/-- The graph `t` is a spanning tree of the graph `g`: a well-formed weighted graph
on the vertices of `g`, whose edges are edges of `g` with the cost they have in
`g`, which connects all its vertices and has no cycle (removing any edge
disconnects its endpoints). -/
structure SpanningTreeOf (g t : wgraph Vertex K) : Prop where
  wf : t.WF
  inv : t.Inv
  verts : ∀ v, t.isVertex v = g.isVertex v
  edges : ∀ v w, t.isEdge v w = true →
    g.isEdge v w = true ∧ Map.find t._c ⟨v, w⟩ = Map.find g._c ⟨v, w⟩
  connected : ∀ a b, a ∈ t.vs → b ∈ t.vs → Conn t.adj a b
  acyclic : ∀ v w, t.isEdge v w = true → ¬ Conn (t.removeEdge v w).adj v w

/-- Adding the edges of a list in turn, as the result graph of `Kruskal_MST` and
`Boruvka_MST` is built. -/
def addAll (L : List (WEdge Vertex K)) (t : wgraph Vertex K) : wgraph Vertex K :=
  L.foldl (fun a e => (a.addEdge_we e).2) t

/-- The undirected edges of a weighted graph as weighted edges, each once, in
the direction with `v ≤ w`, with the stored cost. -/
def records [Zero K] (g : wgraph Vertex K) : List (WEdge Vertex K) :=
  (g.adj.filter (fun p => decide (p.1 ≤ p.2))).map
    (fun p => ⟨p.1, p.2, (Map.find g._c ⟨p.1, p.2⟩).getD 0⟩)

end wgraph

namespace wgraph

variable {Vertex K : Type} [LinearOrder Vertex]

/-- The result graph `t` holds the vertices `X` and exactly the edges of the list
`L`, each with a cost that some entry of `L` gives it. -/
structure Built (X : List Vertex) (L : List (WEdge Vertex K)) (t : wgraph Vertex K) :
    Prop where
  vs_eq : t.vs = X
  wf : t.WF
  inv : t.Inv
  adj_iff : ∀ a b, (a, b) ∈ t.adj ↔ ∃ e ∈ L, (e.v = a ∧ e.w = b) ∨ (e.v = b ∧ e.w = a)
  cost_of : ∀ a b c, Map.find t._c ⟨a, b⟩ = some c →
    ∃ e ∈ L, ((e.v = a ∧ e.w = b) ∨ (e.v = b ∧ e.w = a)) ∧ e.c = c

end wgraph

namespace wgraph

variable {Vertex K : Type} [LinearOrder Vertex]

/-- The list `es` is what `E()` returns on the well-formed graph `g`: strictly
ascending, every record an adjacency pair with its stored cost, and every
adjacency pair represented by a record in one of its two directions. -/
structure EdgesOf [LinearOrder K] (g : wgraph Vertex K) (es : List (WEdge Vertex K)) :
    Prop where
  wf : g.WF
  inv : g.Inv
  sorted : es.Pairwise (fun a b => a < b)
  sound : ∀ r ∈ es, (r.v, r.w) ∈ g.adj ∧ Map.find g._c ⟨r.v, r.w⟩ = some r.c
  complete : ∀ v w, (v, w) ∈ g.adj → ∃ r ∈ es, (r.v = v ∧ r.w = w) ∨ (r.v = w ∧ r.w = v)

/-- The edges that the loop of `Kruskal_MST` accepts from the ascending edge list
`es`, starting from singleton components. -/
def kruskalEdges (es : List (WEdge Vertex K)) : List (WEdge Vertex K) :=
  accepted WEdge.ends ds.empty es

end wgraph

namespace wgraph

variable {Vertex K : Type} [LinearOrder Vertex]

/-- An edge crosses when its endpoints lie in different components. -/
def Crosses (d : ds Vertex) (e : WEdge Vertex K) : Prop := d.rep e.v ≠ d.rep e.w

/-- An edge touches the component represented by `r` when one of its endpoints
lies in it. -/
def Touches (d : ds Vertex) (r : Vertex) (e : WEdge Vertex K) : Prop :=
  d.rep e.v = r ∨ d.rep e.w = r

/-- The map `lightest` is right for the scanned edges `S`: each entry `(r, e)`
holds a crossing edge `e` of `S` touching the component of `r` that comes first,
in the order of `E()`, among such edges; and every component touched by a
crossing edge of `S` has an entry. -/
structure LightestOf [LinearOrder K] (d : ds Vertex) (S : List (WEdge Vertex K))
    (lightest : Map Vertex (WEdge Vertex K)) : Prop where
  sound : ∀ p ∈ lightest, p.2 ∈ S ∧ Crosses d p.2 ∧ Touches d p.1 p.2 ∧
    ∀ f ∈ S, Crosses d f → Touches d p.1 f → p.2 ≤ f
  complete : ∀ f ∈ S, Crosses d f → ∀ r, Touches d r f → Map.find lightest r ≠ none

end wgraph

namespace wgraph

variable {Vertex K : Type}

/-- The simple graph that a weighted graph stands for: its vertices, two distinct
vertices being adjacent when the adjacency lists record them as neighbours. -/
def toSimpleGraph (t : wgraph Vertex K) : SimpleGraph {v : Vertex // v ∈ t.vs} where
  Adj a b := a ≠ b ∧ ((a.1, b.1) ∈ t.adj ∨ (b.1, a.1) ∈ t.adj)
  symm := fun _ _ h => ⟨h.1.symm, h.2.symm⟩
  loopless := fun _ h => h.1 rfl

end wgraph

/-! ## Notions used to state the claims on the loops of `Prim_MST` and `Boruvka_MST` -/

namespace wgraph

variable {Vertex K : Type} [LinearOrder Vertex] [LinearOrderedAddCommMonoidWithTop K]

/-- The states in which an execution of `Prim_MST` on `g` evaluates the test of
its while loop: the state after the two initial loops, and the state after each
completed round. -/
inductive PrimReach (s0 : Vertex) (g : wgraph Vertex K) : PrimState Vertex K → Prop
  | start : PrimReach s0 g (Prim_start s0 g)
  | round (st : PrimState Vertex K) (x : WEdge Vertex K) (st1 : PrimState Vertex K) :
      PrimReach s0 g st → st.H.empty = false → st.H.min = .ok x →
      Prim_relax g x.w (g.Adj x.w)
        (Prim_extract (Prim_init g.V (([] : Map Vertex K), s0)).2 st x) = .ok st1 →
      PrimReach s0 g st1

/-- What the loops of `Prim_MST` maintain: the vertices still in the heap (by
their field `w`) together with the vertices of the result are the vertices of the
input, each once; the heap entry of `y` is `(parent[y], y, d[y])`; and the
branching factor is the one the heap was built with. -/
structure PrimInv (g : wgraph Vertex K) (st : PrimState Vertex K) : Prop where
  perm : (st.H.items.map (fun z => z.w) ++ st.ans.vs).Perm g.vs
  entry : ∀ z ∈ st.H.items, Map.find st.parent z.w = some z.v ∧ rd st.d z.w = z.c
  arity : st.H.d = max 2 (g.m / g.n)

end wgraph

/-! # Theorems -/

/-! ## Containers -/

section ContainerLemmas

variable {κ α : Type}

theorem Map.find_set_eq [LinearOrder κ] [DecidableEq κ] (m : Map κ α) (k k1 : κ) (x : α) :
    Map.find (Map.set m k x) k1 = if k = k1 then some x else Map.find m k1 := by
  induction m with
  | nil => simp [Map.set, Map.find]
  | cons p rest ih =>
    obtain ⟨k0, x0⟩ := p
    unfold Map.set
    by_cases h1 : k < k0
    · simp [h1, Map.find]
    · by_cases h2 : k0 < k
      · simp only [h1, h2, if_false, if_true, Map.find, ih]
        by_cases h3 : k0 = k1
        · have : k ≠ k1 := by rintro rfl; exact (lt_irrefl _ (h3 ▸ h2))
          simp [h3, this]
        · simp [h3]
      · have h3 : k = k0 := le_antisymm (not_lt.mp h2) (not_lt.mp h1)
        subst h3
        simp only [h1, if_false, Map.find]
        by_cases h4 : k = k1
        · simp [h4]
        · simp [h4]

theorem Map.find_erase_eq [DecidableEq κ] (m : Map κ α) (k k1 : κ) :
    Map.find (Map.erase m k) k1 = if k = k1 then none else Map.find m k1 := by
  induction m with
  | nil => simp [Map.erase, Map.find]
  | cons p rest ih =>
    obtain ⟨k0, x0⟩ := p
    have ih1 : Map.find (List.filter (fun p => !decide (p.1 = k)) rest) k1 =
        if k = k1 then none else Map.find rest k1 := ih
    by_cases h1 : k0 = k
    · subst h1
      by_cases h2 : k0 = k1
      · subst h2
        simpa [Map.erase, List.filter, Map.find] using ih1
      · simp [Map.erase, List.filter, Map.find, ih1, h2]
    · by_cases h2 : k0 = k1
      · subst h2
        have : ¬ k = k0 := fun h => h1 h.symm
        simp [Map.erase, List.filter, Map.find, h1, this]
      · simp [Map.erase, List.filter, Map.find, ih1, h1, h2]

theorem Map.erase_absent [DecidableEq κ] (m : Map κ α) (k : κ)
    (h : Map.find m k = none) : Map.erase m k = m := by
  induction m with
  | nil => rfl
  | cons p rest ih =>
    obtain ⟨k0, x0⟩ := p
    by_cases h1 : k0 = k
    · simp [Map.find, h1] at h
    · simp only [Map.find, h1, if_false] at h
      have ih1 : List.filter (fun p => !decide (p.1 = k)) rest = rest := ih h
      simp [Map.erase, List.filter, h1, ih1]

theorem Map.count_ne_zero [DecidableEq κ] (m : Map κ α) (k : κ) :
    Map.count m k ≠ 0 ↔ ∃ x, Map.find m k = some x := by
  unfold Map.count
  cases h : Map.find m k <;> simp

end ContainerLemmas

/-! ## The substrate -/

namespace graph

variable {Vertex : Type} [LinearOrder Vertex]

theorem mem_link (p q : Vertex × Vertex) (l : List (Vertex × Vertex)) :
    q ∈ link p l ↔ q ∈ l ∨ q = p := by
  unfold link
  by_cases h : p ∈ l
  · simp only [h, if_true]
    constructor
    · exact Or.inl
    · rintro (h1 | rfl)
      · exact h1
      · exact h
  · simp [h]

theorem isEdge_addEdge (g : graph Vertex) (v w a b : Vertex) :
    (g.addEdge v w).isEdge a b = true ↔
      (g.isEdge a b = true ∨ (a = v ∧ b = w) ∨ (a = w ∧ b = v)) := by
  simp [isEdge, addEdge, mem_link, or_assoc]

theorem isEdge_removeEdge (g : graph Vertex) (v w a b : Vertex) :
    (g.removeEdge v w).isEdge a b = true ↔
      (g.isEdge a b = true ∧ ¬ (a = v ∧ b = w) ∧ ¬ (a = w ∧ b = v)) := by
  simp only [isEdge, removeEdge, List.mem_filter, decide_eq_true_eq, Bool.not_eq_true',
    Bool.or_eq_false_iff, decide_eq_false_iff_not, Prod.mk.injEq]

theorem removeEdge_absent (g : graph Vertex) (v w : Vertex)
    (h1 : g.isEdge v w = false) (h2 : g.isEdge w v = false) : g.removeEdge v w = g := by
  have key : g.adj.filter (fun p => !(decide (p = (v, w)) || decide (p = (w, v)))) = g.adj := by
    rw [List.filter_eq_self]
    intro p hp
    simp only [isEdge, decide_eq_false_iff_not] at h1 h2
    have a1 : p ≠ (v, w) := by rintro rfl; exact h1 hp
    have a2 : p ≠ (w, v) := by rintro rfl; exact h2 hp
    simp [a1, a2]
  cases g
  simp only [removeEdge] at key ⊢
  rw [key]

end graph

/-! ## Edge and cost operations of `wgraph` -/

namespace wgraph

variable {Vertex K : Type} [LinearOrder Vertex]

theorem addEdge_rejected (g : wgraph Vertex K) (v w : Vertex) (c : K)
    (h : g.isVertex v = false ∨ g.isVertex w = false ∨ g.isEdge v w = true) :
    g.addEdge v w c = (false, g) := by
  unfold addEdge
  rcases h with h | h | h
  · simp [h]
  · simp [h]
  · by_cases h1 : (!g.isVertex v || !g.isVertex w) = true
    · simp [h1]
    · simp [h1, h]

theorem addEdge_accepted (g : wgraph Vertex K) (v w : Vertex) (c : K)
    (hv : g.isVertex v = true) (hw : g.isVertex w = true) (he : g.isEdge v w = false) :
    g.addEdge v w c =
      (true, { tograph := g.tograph.addEdge v w,
               _c := Map.set (Map.set g._c ⟨v, w⟩ c) ⟨w, v⟩ c }) := by
  unfold addEdge
  simp [hv, hw, he]

theorem addEdge_cases (g : wgraph Vertex K) (v w : Vertex) (c : K) :
    (g.addEdge v w c = (false, g) ∧
      (g.isVertex v = false ∨ g.isVertex w = false ∨ g.isEdge v w = true)) ∨
    (g.addEdge v w c =
      (true, { tograph := g.tograph.addEdge v w,
               _c := Map.set (Map.set g._c ⟨v, w⟩ c) ⟨w, v⟩ c }) ∧
      g.isVertex v = true ∧ g.isVertex w = true ∧ g.isEdge v w = false) := by
  by_cases hv : g.isVertex v = true
  · by_cases hw : g.isVertex w = true
    · by_cases he : g.isEdge v w = true
      · exact Or.inl ⟨addEdge_rejected g v w c (Or.inr (Or.inr he)), Or.inr (Or.inr he)⟩
      · have he1 : g.isEdge v w = false := by simpa using he
        exact Or.inr ⟨addEdge_accepted g v w c hv hw he1, hv, hw, he1⟩
    · have hw1 : g.isVertex w = false := by simpa using hw
      exact Or.inl ⟨addEdge_rejected g v w c (Or.inr (Or.inl hw1)), Or.inr (Or.inl hw1)⟩
  · have hv1 : g.isVertex v = false := by simpa using hv
    exact Or.inl ⟨addEdge_rejected g v w c (Or.inl hv1), Or.inl hv1⟩

omit [LinearOrder Vertex] in
theorem edge_eq_iff (a b v w : Vertex) : (⟨v, w⟩ : Edge Vertex) = ⟨a, b⟩ ↔ (a = v ∧ b = w) := by
  constructor
  · intro h
    injection h with h1 h2
    exact ⟨h1.symm, h2.symm⟩
  · rintro ⟨rfl, rfl⟩
    rfl

theorem find_addEdge (g : wgraph Vertex K) (v w a b : Vertex) (c : K) :
    Map.find (Map.set (Map.set g._c ⟨v, w⟩ c) ⟨w, v⟩ c) ⟨a, b⟩ =
      if (a = v ∧ b = w) ∨ (a = w ∧ b = v) then some c else Map.find g._c ⟨a, b⟩ := by
  rw [Map.find_set_eq, Map.find_set_eq]
  simp only [edge_eq_iff]
  by_cases h1 : a = w ∧ b = v
  · simp [h1]
  · by_cases h2 : a = v ∧ b = w
    · simp [h1, h2]
    · simp [h1, h2]

theorem find_removeEdge (g : wgraph Vertex K) (v w a b : Vertex) :
    Map.find (g.removeEdge v w)._c ⟨a, b⟩ =
      if (a = v ∧ b = w) ∨ (a = w ∧ b = v) then none else Map.find g._c ⟨a, b⟩ := by
  simp only [removeEdge]
  rw [Map.find_erase_eq, Map.find_erase_eq]
  simp only [edge_eq_iff]
  by_cases h1 : a = w ∧ b = v
  · simp [h1]
  · by_cases h2 : a = v ∧ b = w
    · simp [h1, h2]
    · simp [h1, h2]

theorem removeEdge_e_eq (g : wgraph Vertex K) (e : Edge Vertex) :
    g.removeEdge_e e = g.removeEdge e.v e.w := by
  cases e
  rfl

theorem Inv_empty : Inv (wgraph.empty : wgraph Vertex K) := by
  intro v w
  constructor
  · simp [wgraph.empty, graph.empty, graph.isEdge, Map.count, Map.find]
  · intro c1 c2 h
    simp [wgraph.empty, Map.find] at h

theorem Inv_addVertex (g : wgraph Vertex K) (x : Vertex) (h : Inv g) : Inv (g.addVertex x) := by
  intro v w
  have hadj : (g.addVertex x).adj = g.adj := by
    simp only [addVertex, graph.addVertex]
    split <;> rfl
  have hc : (g.addVertex x)._c = g._c := rfl
  have := h v w
  simpa [InvAt, graph.isEdge, hadj, hc] using this

theorem InvAt_swap (g : wgraph Vertex K) (v w : Vertex) (h : InvAt g v w) (h1 : InvAt g w v) :
    g.isEdge w v = g.isEdge v w := by
  have a := h.1
  have b := h1.1
  rw [Bool.eq_iff_iff, b, a, and_comm]

theorem Inv_addEdge (g : wgraph Vertex K) (v w : Vertex) (c : K) (h : Inv g) :
    Inv (g.addEdge v w c).2 := by
  rcases addEdge_cases g v w c with ⟨e, _⟩ | ⟨e, _, _, _⟩
  · rw [e]; exact h
  · rw [e]
    intro a b
    have hab := h a b
    have he : (g.tograph.addEdge v w).isEdge a b = true ↔
        (g.isEdge a b = true ∨ (a = v ∧ b = w) ∨ (a = w ∧ b = v)) :=
      graph.isEdge_addEdge g.tograph v w a b
    unfold InvAt
    simp only [Map.count_ne_zero, find_addEdge]
    rw [he]
    by_cases h1 : (a = v ∧ b = w) ∨ (a = w ∧ b = v)
    · have h2 : (b = v ∧ a = w) ∨ (b = w ∧ a = v) := by
        rcases h1 with ⟨x, y⟩ | ⟨x, y⟩
        · exact Or.inr ⟨y, x⟩
        · exact Or.inl ⟨y, x⟩
      rw [if_pos h1, if_pos h2]
      refine ⟨⟨fun _ => ⟨⟨c, rfl⟩, ⟨c, rfl⟩⟩, fun _ => Or.inr h1⟩, ?_⟩
      intro c1 c2 e1 e2
      rw [← Option.some.inj e1, ← Option.some.inj e2]
    · have h2 : ¬ ((b = v ∧ a = w) ∨ (b = w ∧ a = v)) := by
        rintro (⟨x, y⟩ | ⟨x, y⟩)
        · exact h1 (Or.inr ⟨y, x⟩)
        · exact h1 (Or.inl ⟨y, x⟩)
      rw [if_neg h1, if_neg h2]
      have hab1 := hab.1
      simp only [Map.count_ne_zero] at hab1
      refine ⟨?_, hab.2⟩
      rw [← hab1]
      constructor
      · rintro (x | x)
        · exact x
        · exact absurd x h1
      · exact Or.inl

theorem Inv_removeEdge (g : wgraph Vertex K) (v w : Vertex) (h : Inv g) :
    Inv (g.removeEdge v w) := by
  intro a b
  have hab := h a b
  have he : (g.removeEdge v w).isEdge a b = true ↔
      (g.isEdge a b = true ∧ ¬ (a = v ∧ b = w) ∧ ¬ (a = w ∧ b = v)) :=
    graph.isEdge_removeEdge g.tograph v w a b
  unfold InvAt
  simp only [Map.count_ne_zero, find_removeEdge]
  rw [he]
  by_cases h1 : (a = v ∧ b = w) ∨ (a = w ∧ b = v)
  · have h2 : (b = v ∧ a = w) ∨ (b = w ∧ a = v) := by
      rcases h1 with ⟨x, y⟩ | ⟨x, y⟩
      · exact Or.inr ⟨y, x⟩
      · exact Or.inl ⟨y, x⟩
    rw [if_pos h1, if_pos h2]
    refine ⟨⟨fun hh => ?_, fun hh => ?_⟩, ?_⟩
    · rcases h1 with x | x
      · exact absurd x hh.2.1
      · exact absurd x hh.2.2
    · obtain ⟨⟨x, hx⟩, _⟩ := hh
      cases hx
    · intro c1 c2 e1
      cases e1
  · have h2 : ¬ ((b = v ∧ a = w) ∨ (b = w ∧ a = v)) := by
      rintro (⟨x, y⟩ | ⟨x, y⟩)
      · exact h1 (Or.inr ⟨y, x⟩)
      · exact h1 (Or.inl ⟨y, x⟩)
    rw [if_neg h1, if_neg h2]
    have hab1 := hab.1
    simp only [Map.count_ne_zero] at hab1
    refine ⟨?_, hab.2⟩
    rw [← hab1]
    constructor
    · exact fun x => x.1
    · exact fun x => ⟨x, fun y => h1 (Or.inl y), fun y => h1 (Or.inr y)⟩

theorem Inv_of_reachable (g : wgraph Vertex K) (h : Reachable g) : Inv g := by
  induction h with
  | empty => exact Inv_empty
  | addVertex g v _ ih => exact Inv_addVertex g v ih
  | addEdge g v w c _ ih => exact Inv_addEdge g v w c ih
  | removeEdge g v w _ ih => exact Inv_removeEdge g v w ih

theorem NoStray_of_reachable (g : wgraph Vertex K) (h : Reachable g) : NoStray g := by
  induction h with
  | empty =>
    intro v w hc
    simp [wgraph.empty, Map.count, Map.find] at hc
  | addVertex g x _ ih =>
    intro v w hc
    have hadj : (g.addVertex x).adj = g.adj := by
      simp only [addVertex, graph.addVertex]
      split <;> rfl
    have := ih v w hc
    simpa [graph.isEdge, hadj] using this
  | addEdge g v w c _ ih =>
    rcases addEdge_cases g v w c with ⟨e, _⟩ | ⟨e, _, _, _⟩
    · rw [e]; exact ih
    · rw [e]
      intro a b hc
      simp only [Map.count_ne_zero, find_addEdge] at hc
      simp only [graph.isEdge_addEdge]
      by_cases h1 : (a = v ∧ b = w) ∨ (a = w ∧ b = v)
      · exact Or.inr h1
      · simp only [h1, if_false] at hc
        exact Or.inl (ih a b ((Map.count_ne_zero _ _).2 hc))
  | removeEdge g v w _ ih =>
    intro a b hc
    simp only [Map.count_ne_zero, find_removeEdge] at hc
    have he : (g.removeEdge v w).isEdge a b = true ↔
        (g.isEdge a b = true ∧ ¬ (a = v ∧ b = w) ∧ ¬ (a = w ∧ b = v)) :=
      graph.isEdge_removeEdge g.tograph v w a b
    rw [he]
    by_cases h1 : (a = v ∧ b = w) ∨ (a = w ∧ b = v)
    · simp only [h1, if_true] at hc
      obtain ⟨x, hx⟩ := hc
      cases hx
    · simp only [h1, if_false] at hc
      exact ⟨ih a b ((Map.count_ne_zero _ _).2 hc), by tauto, by tauto⟩

theorem removeEdge_noop (g : wgraph Vertex K) (v w : Vertex)
    (h1 : g.isEdge v w = false) (h2 : g.isEdge w v = false)
    (h3 : Map.count g._c ⟨v, w⟩ = 0) (h4 : Map.count g._c ⟨w, v⟩ = 0) :
    g.removeEdge v w = g := by
  have f1 : Map.find g._c ⟨v, w⟩ = none := by
    by_contra hne
    obtain ⟨x, hx⟩ := Option.ne_none_iff_exists'.mp hne
    exact (Map.count_ne_zero _ _).2 ⟨x, hx⟩ h3
  have f2 : Map.find g._c ⟨w, v⟩ = none := by
    by_contra hne
    obtain ⟨x, hx⟩ := Option.ne_none_iff_exists'.mp hne
    exact (Map.count_ne_zero _ _).2 ⟨x, hx⟩ h4
  have e1 : Map.erase g._c ⟨v, w⟩ = g._c := Map.erase_absent _ _ f1
  have e2 : Map.erase g._c ⟨w, v⟩ = g._c := Map.erase_absent _ _ f2
  have e3 : g.tograph.removeEdge v w = g.tograph := graph.removeEdge_absent _ v w h1 h2
  unfold removeEdge
  rw [e1, e2, e3]

end wgraph

/-! ## Claims on the edge and cost operations -/

namespace wgraph

variable {Vertex K : Type} [LinearOrder Vertex]

/-- C7: `addEdge(v, w, c)` returns false exactly when `v` is not a vertex, or `w`
is not a vertex, or the edge `(v,w)` already exists; and whenever it returns false
the graph after the call is the graph before it (vertices, adjacency and cost
table). -/
theorem addEdge_false_iff_and_unchanged (g : wgraph Vertex K) (v w : Vertex) (c : K) :
    ((g.addEdge v w c).1 = false ↔
      (g.isVertex v = false ∨ g.isVertex w = false ∨ g.isEdge v w = true)) ∧
    ((g.addEdge v w c).1 = false → (g.addEdge v w c).2 = g) := by
  rcases addEdge_cases g v w c with ⟨e, h⟩ | ⟨e, hv, hw, he⟩
  · rw [e]
    exact ⟨⟨fun _ => h, fun _ => rfl⟩, fun _ => rfl⟩
  · rw [e]
    simp [hv, hw, he]

/-- C8: when `v` and `w` are vertices and the edge `(v,w)` is absent,
`addEdge(v, w, c)` returns true, afterwards the edge exists in both directions,
`cost(v,w) = cost(w,v) = c`, and `cost(a,b)` is what it was for every other pair. -/
theorem addEdge_true_records_cost (g : wgraph Vertex K) (v w : Vertex) (c : K)
    (hv : g.isVertex v = true) (hw : g.isVertex w = true) (he : g.isEdge v w = false) :
    (g.addEdge v w c).1 = true ∧
    (g.addEdge v w c).2.isEdge v w = true ∧
    (g.addEdge v w c).2.isEdge w v = true ∧
    (g.addEdge v w c).2.cost v w = .ok c ∧
    (g.addEdge v w c).2.cost w v = .ok c ∧
    ∀ a b, ¬ (a = v ∧ b = w) → ¬ (a = w ∧ b = v) →
      (g.addEdge v w c).2.cost a b = g.cost a b := by
  rw [addEdge_accepted g v w c hv hw he]
  have hvs : ∀ x, graph.isVertex (g.tograph.addEdge v w) x = g.isVertex x := fun _ => rfl
  refine ⟨rfl, ?_, ?_, ?_, ?_, ?_⟩
  · exact (graph.isEdge_addEdge g.tograph v w v w).2 (Or.inr (Or.inl ⟨rfl, rfl⟩))
  · exact (graph.isEdge_addEdge g.tograph v w w v).2 (Or.inr (Or.inr ⟨rfl, rfl⟩))
  · simp only [cost, hvs, hv, hw, find_addEdge]
    simp
  · simp only [cost, hvs, hv, hw, find_addEdge]
    simp
  · intro a b h1 h2
    have h3 : ¬ ((a = v ∧ b = w) ∨ (a = w ∧ b = v)) := fun h => h.elim h1 h2
    simp only [cost, hvs, find_addEdge, if_neg h3]

/-- Witness of C8 on two vertices without an edge. -/
theorem addEdge_true_records_cost_witness :
    (Examples.twoVertices.addEdge 1 2 5).1 = true ∧
    (Examples.twoVertices.addEdge 1 2 5).2.isEdge 1 2 = true ∧
    (Examples.twoVertices.addEdge 1 2 5).2.isEdge 2 1 = true ∧
    (Examples.twoVertices.addEdge 1 2 5).2.cost 1 2 = .ok 5 ∧
    (Examples.twoVertices.addEdge 1 2 5).2.cost 2 1 = .ok 5 ∧
    ∀ a b, ¬ (a = 1 ∧ b = 2) → ¬ (a = 2 ∧ b = 1) →
      (Examples.twoVertices.addEdge 1 2 5).2.cost a b = Examples.twoVertices.cost a b :=
  addEdge_true_records_cost Examples.twoVertices 1 2 5 (by decide) (by decide) (by decide)

/-- C9: the cost-table invariant holds for the empty graph, is preserved by every
call of `addEdge` and of both overloads of `removeEdge` (whatever the arguments,
`v = w` and rejected calls included) and by `addVertex`, and therefore holds in
every state reachable through `addVertex`, `addEdge` and `removeEdge`. -/
theorem Inv_holds_in_every_reachable_state :
    Inv (wgraph.empty : wgraph Vertex K) ∧
    (∀ (g : wgraph Vertex K) (v w : Vertex) (c : K), Inv g → Inv (g.addEdge v w c).2) ∧
    (∀ (g : wgraph Vertex K) (v w : Vertex), Inv g → Inv (g.removeEdge v w)) ∧
    (∀ (g : wgraph Vertex K) (e : Edge Vertex), Inv g → Inv (g.removeEdge_e e)) ∧
    (∀ (g : wgraph Vertex K) (v : Vertex), Inv g → Inv (g.addVertex v)) ∧
    (∀ g : wgraph Vertex K, Reachable g → Inv g) := by
  refine ⟨Inv_empty, Inv_addEdge, Inv_removeEdge, ?_, Inv_addVertex, Inv_of_reachable⟩
  intro g e h
  rw [removeEdge_e_eq]
  exact Inv_removeEdge g e.v e.w h

/-- What `removeEdge(v,w)` does in a graph satisfying the cost-table invariant: it
keeps the vertices, removes the edge `(v,w)` in both directions together with the
cost entries `(v,w)` and `(w,v)`, and leaves every other edge and cost entry as it
was. -/
theorem removeEdge_effect (g : wgraph Vertex K) (v w : Vertex) (hinv : Inv g) :
    (g.removeEdge v w).vs = g.vs ∧
    (g.removeEdge v w).isEdge v w = false ∧
    (g.removeEdge v w).isEdge w v = false ∧
    Map.count (g.removeEdge v w)._c ⟨v, w⟩ = 0 ∧
    Map.count (g.removeEdge v w)._c ⟨w, v⟩ = 0 ∧
    (∀ a b, ¬ (a = v ∧ b = w) → ¬ (a = w ∧ b = v) →
      (g.removeEdge v w).isEdge a b = g.isEdge a b ∧
      Map.find (g.removeEdge v w)._c ⟨a, b⟩ = Map.find g._c ⟨a, b⟩) ∧
    (g.isEdge v w = false → Map.count g._c ⟨v, w⟩ = 0 → Map.count g._c ⟨w, v⟩ = 0 →
      g.removeEdge v w = g) ∧
    (Reachable g → g.isEdge v w = false → g.removeEdge v w = g) := by
  have he : ∀ a b, (g.removeEdge v w).isEdge a b = true ↔
      (g.isEdge a b = true ∧ ¬ (a = v ∧ b = w) ∧ ¬ (a = w ∧ b = v)) :=
    fun a b => graph.isEdge_removeEdge g.tograph v w a b
  have hsym : g.isEdge w v = g.isEdge v w := InvAt_swap g v w (hinv v w) (hinv w v)
  refine ⟨rfl, ?_, ?_, ?_, ?_, ?_, ?_, ?_⟩
  · rw [Bool.eq_false_iff]
    intro h
    exact ((he v w).1 h).2.1 ⟨rfl, rfl⟩
  · rw [Bool.eq_false_iff]
    intro h
    exact ((he w v).1 h).2.2 ⟨rfl, rfl⟩
  · by_contra h
    obtain ⟨x, hx⟩ := (Map.count_ne_zero _ _).1 h
    rw [find_removeEdge, if_pos (Or.inl ⟨rfl, rfl⟩)] at hx
    cases hx
  · by_contra h
    obtain ⟨x, hx⟩ := (Map.count_ne_zero _ _).1 h
    rw [find_removeEdge, if_pos (Or.inr ⟨rfl, rfl⟩)] at hx
    cases hx
  · intro a b h1 h2
    constructor
    · rw [Bool.eq_iff_iff, he a b]
      exact ⟨fun x => x.1, fun x => ⟨x, h1, h2⟩⟩
    · rw [find_removeEdge, if_neg (fun h => h.elim h1 h2)]
  · intro h1 h3 h4
    exact removeEdge_noop g v w h1 (hsym.trans h1) h3 h4
  · intro hr h1
    have hns := NoStray_of_reachable g hr
    have h2 : g.isEdge w v = false := hsym.trans h1
    refine removeEdge_noop g v w h1 h2 ?_ ?_
    · by_contra h
      have := hns v w h
      rw [h1] at this
      cases this
    · by_contra h
      have := hns w v h
      rw [h2] at this
      cases this

/-- C10: in every state of the graph, that is every state reachable through
`addVertex`, `addEdge` and `removeEdge` (such a state satisfies the cost-table
invariant), `removeEdge(v,w)`, in either overload, keeps the vertices, leaves the
edge `(v,w)` absent in both directions with neither of its two cost entries, and
leaves every other edge and every other cost entry unchanged; and if the edge
`(v,w)` was absent it leaves the whole graph (vertices, adjacency, cost table)
unchanged. -/
theorem removeEdge_frame (g : wgraph Vertex K) (v w : Vertex) (hr : Reachable g) :
    Inv g ∧
    g.removeEdge_e ⟨v, w⟩ = g.removeEdge v w ∧
    (g.removeEdge v w).vs = g.vs ∧
    (g.removeEdge v w).isEdge v w = false ∧
    (g.removeEdge v w).isEdge w v = false ∧
    Map.count (g.removeEdge v w)._c ⟨v, w⟩ = 0 ∧
    Map.count (g.removeEdge v w)._c ⟨w, v⟩ = 0 ∧
    (∀ a b, ¬ (a = v ∧ b = w) → ¬ (a = w ∧ b = v) →
      (g.removeEdge v w).isEdge a b = g.isEdge a b ∧
      Map.find (g.removeEdge v w)._c ⟨a, b⟩ = Map.find g._c ⟨a, b⟩) ∧
    (g.isEdge v w = false → g.removeEdge v w = g) := by
  have hinv := Inv_of_reachable g hr
  obtain ⟨h1, h2, h3, h4, h5, h6, -, h8⟩ := removeEdge_effect g v w hinv
  exact ⟨hinv, removeEdge_e_eq g ⟨v, w⟩, h1, h2, h3, h4, h5, h6, h8 hr⟩

/-- Witness of C10 on the graph with the single edge `(1,2)`: removing the edge
gives the graph with the two vertices and no edge, and removing it once more
changes nothing. -/
theorem removeEdge_frame_witness :
    (Examples.oneEdge.isEdge 1 2 = true ∧
      Examples.oneEdge.removeEdge 1 2 = Examples.twoVertices ∧
      Examples.twoVertices.removeEdge 1 2 = Examples.twoVertices) ∧
    Inv Examples.oneEdge ∧
    Examples.oneEdge.removeEdge_e ⟨1, 2⟩ = Examples.oneEdge.removeEdge 1 2 ∧
    (Examples.oneEdge.removeEdge 1 2).vs = Examples.oneEdge.vs ∧
    (Examples.oneEdge.removeEdge 1 2).isEdge 1 2 = false ∧
    (Examples.oneEdge.removeEdge 1 2).isEdge 2 1 = false ∧
    Map.count (Examples.oneEdge.removeEdge 1 2)._c ⟨1, 2⟩ = 0 ∧
    Map.count (Examples.oneEdge.removeEdge 1 2)._c ⟨2, 1⟩ = 0 ∧
    (∀ a b, ¬ (a = 1 ∧ b = 2) → ¬ (a = 2 ∧ b = 1) →
      (Examples.oneEdge.removeEdge 1 2).isEdge a b = Examples.oneEdge.isEdge a b ∧
      Map.find (Examples.oneEdge.removeEdge 1 2)._c ⟨a, b⟩ =
        Map.find Examples.oneEdge._c ⟨a, b⟩) ∧
    (Examples.oneEdge.isEdge 1 2 = false →
      Examples.oneEdge.removeEdge 1 2 = Examples.oneEdge) :=
  ⟨⟨by decide, rfl, rfl⟩,
    removeEdge_frame Examples.oneEdge 1 2 (Reachable.addEdge _ 1 2 5
      (Reachable.addVertex _ 2 (Reachable.addVertex _ 1 Reachable.empty)))⟩

end wgraph

/-! ## `Prim_MST` on concrete graphs

The first loop of `Prim_MST` tests `d.size() == 0` after `d[v]` has been written,
so the test never succeeds: no vertex gets distance 0 and `s` keeps the value it
was default-initialised with.  In the evaluations below that value is `0`, which
is not a vertex of the graph (as the empty string is not one of the vertices
`"A"`, `"B"`, ... of a graph over `std::string`). -/

namespace wgraph

set_option maxRecDepth 100000 in
set_option synthInstance.maxSize 4000 in
/-- C3, evaluated: on two vertices joined by one edge of cost 1, `Prim_MST`
returns a graph with the self-loop `(1,1)` of infinite cost besides the edge
`(1,2)`: two edges instead of one, a cycle, and an infinite total cost. -/
theorem Prim_MST_pair_outcome :
    observe (Prim_MST 0 2 Examples.pair) =
      some ([1, 2], [(1, 1), (1, 2), (2, 1)], [(1, 1, ⊤), (1, 2, 1), (2, 1, 1)]) ∧
    (Prim_MST 0 2 Examples.pair).toOption.map (fun t => t.m) = some 2 ∧
    (Prim_MST 0 2 Examples.pair).toOption.map totalCost = some ⊤ ∧
    Examples.pair.isConnected = true ∧ Examples.pair.n = 2 := by
  decide!

set_option maxRecDepth 100000 in
set_option synthInstance.maxSize 4000 in
/-- C4, evaluated: on the scenario of the specification `Kruskal_MST` and
`Boruvka_MST` return exactly the edges `(1,2,1)`, `(3,4,1)`, `(2,3,2)` with total
cost 4, while `Prim_MST` returns these edges and the self-loop `(1,1)` of
infinite cost, with infinite total cost. -/
theorem scenario_outcomes :
    observe (Kruskal_MST Examples.scenario) =
      some ([1, 2, 3, 4], [(1, 2), (2, 1), (3, 4), (4, 3), (2, 3), (3, 2)],
        [(1, 2, 1), (2, 1, 1), (2, 3, 2), (3, 2, 2), (3, 4, 1), (4, 3, 1)]) ∧
    (Kruskal_MST Examples.scenario).toOption.map totalCost = some 4 ∧
    observe (Boruvka_MST 4 Examples.scenario) =
      some ([1, 2, 3, 4], [(1, 2), (2, 1), (3, 4), (4, 3), (2, 3), (3, 2)],
        [(1, 2, 1), (2, 1, 1), (2, 3, 2), (3, 2, 2), (3, 4, 1), (4, 3, 1)]) ∧
    (Boruvka_MST 4 Examples.scenario).toOption.map totalCost = some 4 ∧
    observe (Prim_MST 0 4 Examples.scenario) =
      some ([1, 2, 3, 4], [(1, 1), (1, 2), (2, 1), (2, 3), (3, 2), (3, 4), (4, 3)],
        [(1, 1, ⊤), (1, 2, 1), (2, 1, 1), (2, 3, 2), (3, 2, 2), (3, 4, 1), (4, 3, 1)]) ∧
    (Prim_MST 0 4 Examples.scenario).toOption.map totalCost = some ⊤ := by
  decide!

set_option maxRecDepth 100000 in
set_option synthInstance.maxSize 4000 in
/-- C5, evaluated: on a single vertex `Kruskal_MST` and `Boruvka_MST` return one
vertex, no edge and no cost entry, while `Prim_MST` returns the vertex with the
self-loop `(1,1)` and the cost entry `(1,1) ↦ ∞`: one edge and an infinite total
cost. -/
theorem single_vertex_outcomes :
    observe (Kruskal_MST Examples.single) = some ([1], [], []) ∧
    observe (Boruvka_MST 1 Examples.single) = some ([1], [], []) ∧
    observe (Prim_MST 0 1 Examples.single) = some ([1], [(1, 1)], [(1, 1, ⊤)]) ∧
    (Prim_MST 0 1 Examples.single).toOption.map (fun t => t.m) = some 1 ∧
    (Prim_MST 0 1 Examples.single).toOption.map totalCost = some ⊤ := by
  decide!

set_option maxRecDepth 100000 in
set_option synthInstance.maxSize 4000 in
/-- C6, evaluated: on the triangle whose three edges cost 1, the graphs returned
by `Kruskal_MST` and `Boruvka_MST` have total cost 2 and the graph returned by
`Prim_MST` has infinite total cost. -/
theorem triangle_total_costs :
    Examples.triangle.isConnected = true ∧
    (Kruskal_MST Examples.triangle).toOption.map totalCost = some 2 ∧
    (Boruvka_MST 3 Examples.triangle).toOption.map totalCost = some 2 ∧
    (Prim_MST 0 3 Examples.triangle).toOption.map totalCost = some ⊤ := by
  decide!

end wgraph

/-! ## `Prim_MST` on a single vertex, in general -/

namespace wgraph

variable {Vertex K : Type} [LinearOrder Vertex] [LinearOrderedAddCommMonoidWithTop K]

/-- Whatever the vertex type and whatever value the unassigned local `s` holds, on
the graph with the single vertex `v`, different from that value, `Prim_MST` returns
`v` with the self-loop `(v, v)` and the cost entry `(v, v) ↦ ∞`. -/
theorem Prim_MST_single (v s0 : Vertex) (h : v ≠ s0) (fuel : Nat) :
    observe (Prim_MST s0 (fuel + 1) ((wgraph.empty : wgraph Vertex K).addVertex v)) =
      some ([v], [(v, v)], [(v, v, ⊤)]) := by
  have h1 : ∀ (g : wgraph Vertex K) (st : PrimState Vertex K), st.H.items = [] →
      Prim_while g s0 fuel st = .ok st.ans := by
    intro g st hst
    cases fuel <;> simp [Prim_while, dary_heap.empty, hst]
  simp only [Prim_MST, Prim_start, Prim_extract, wgraph.addVertex, graph.addVertex,
    wgraph.empty, graph.empty, graph.n,
    graph.V, graph.m, Prim_init, Prim_seed, Map.set, Map.size, rd, Map.find, dary_heap.new,
    dary_heap.push, Prim_while, dary_heap.empty, dary_heap.min, dary_heap.pop_min, h,
    wgraph.addEdge, graph.isVertex, graph.isEdge, graph.addEdge, graph.link, graph.Adj,
    Prim_relax]
  simp [h1, observe, h, Map.set, Map.find, graph.link]

end wgraph

/-! ## Connectivity through a list of pairs -/

section ConnLemmas

variable {Vertex : Type}

theorem Conn.rfl_ (L : List (Vertex × Vertex)) (a : Vertex) : Conn L a a :=
  Relation.EqvGen.refl a

theorem Conn.symm_ {L : List (Vertex × Vertex)} {a b : Vertex} (h : Conn L a b) : Conn L b a :=
  Relation.EqvGen.symm a b h

theorem Conn.trans_ {L : List (Vertex × Vertex)} {a b c : Vertex} (h : Conn L a b)
    (h1 : Conn L b c) : Conn L a c :=
  Relation.EqvGen.trans a b c h h1

theorem Conn.of_mem {L : List (Vertex × Vertex)} {a b : Vertex} (h : (a, b) ∈ L) : Conn L a b :=
  Relation.EqvGen.rel a b h

theorem Conn.of_eq (L : List (Vertex × Vertex)) {a b : Vertex} (h : a = b) : Conn L a b :=
  h ▸ Conn.rfl_ L a

theorem Conn.lift {L L1 : List (Vertex × Vertex)} (h : ∀ p ∈ L, Conn L1 p.1 p.2) {a b : Vertex}
    (hab : Conn L a b) : Conn L1 a b := by
  induction hab with
  | rel x y hxy => exact h (x, y) hxy
  | refl x => exact Conn.rfl_ L1 x
  | symm x y _ ih => exact ih.symm_
  | trans x y z _ _ ih1 ih2 => exact ih1.trans_ ih2

theorem Conn.mono {L L1 : List (Vertex × Vertex)} (h : ∀ p ∈ L, p ∈ L1) {a b : Vertex}
    (hab : Conn L a b) : Conn L1 a b :=
  Conn.lift (fun p hp => Conn.of_mem (h p hp)) hab

theorem Conn.cons_iff (p : Vertex × Vertex) (L : List (Vertex × Vertex)) (a b : Vertex) :
    Conn (p :: L) a b ↔
      Conn L a b ∨ (Conn L a p.1 ∧ Conn L p.2 b) ∨ (Conn L a p.2 ∧ Conn L p.1 b) := by
  constructor
  · intro h
    induction h with
    | rel x y hxy =>
      rcases List.mem_cons.1 hxy with e | e
      · subst e
        exact Or.inr (Or.inl ⟨Conn.rfl_ L _, Conn.rfl_ L _⟩)
      · exact Or.inl (Conn.of_mem e)
    | refl x => exact Or.inl (Conn.rfl_ L x)
    | symm x y _ ih =>
      rcases ih with h1 | ⟨h1, h2⟩ | ⟨h1, h2⟩
      · exact Or.inl h1.symm_
      · exact Or.inr (Or.inr ⟨h2.symm_, h1.symm_⟩)
      · exact Or.inr (Or.inl ⟨h2.symm_, h1.symm_⟩)
    | trans x y z _ _ ih1 ih2 =>
      rcases ih1 with h1 | ⟨h1, h2⟩ | ⟨h1, h2⟩
      · rcases ih2 with k1 | ⟨k1, k2⟩ | ⟨k1, k2⟩
        · exact Or.inl (h1.trans_ k1)
        · exact Or.inr (Or.inl ⟨h1.trans_ k1, k2⟩)
        · exact Or.inr (Or.inr ⟨h1.trans_ k1, k2⟩)
      · rcases ih2 with k1 | ⟨k1, k2⟩ | ⟨k1, k2⟩
        · exact Or.inr (Or.inl ⟨h1, h2.trans_ k1⟩)
        · exact Or.inr (Or.inl ⟨h1, k2⟩)
        · exact Or.inl (h1.trans_ k2)
      · rcases ih2 with k1 | ⟨k1, k2⟩ | ⟨k1, k2⟩
        · exact Or.inr (Or.inr ⟨h1, h2.trans_ k1⟩)
        · exact Or.inl (h1.trans_ k2)
        · exact Or.inr (Or.inr ⟨h1, k2⟩)
  · have hm : ∀ x y, Conn L x y → Conn (p :: L) x y :=
      fun x y h => Conn.mono (fun q hq => List.mem_cons_of_mem p hq) h
    have hp : Conn (p :: L) p.1 p.2 := Conn.of_mem (List.mem_cons_self p L)
    rintro (h | ⟨h1, h2⟩ | ⟨h1, h2⟩)
    · exact hm _ _ h
    · exact ((hm _ _ h1).trans_ hp).trans_ (hm _ _ h2)
    · exact ((hm _ _ h1).trans_ hp.symm_).trans_ (hm _ _ h2)

/-- Exchange: if a pair `f` is needed to connect `u` and `v`, then the pair
`(u, v)` connects the endpoints of `f` in its place. -/
theorem Conn.exchange (f : Vertex × Vertex) (S : List (Vertex × Vertex)) (u v : Vertex)
    (h : Conn (f :: S) u v) (hn : ¬ Conn S u v) : Conn ((u, v) :: S) f.1 f.2 := by
  rcases (Conn.cons_iff f S u v).1 h with h1 | ⟨h1, h2⟩ | ⟨h1, h2⟩
  · exact absurd h1 hn
  · exact (Conn.cons_iff (u, v) S f.1 f.2).2 (Or.inr (Or.inl ⟨h1.symm_, h2.symm_⟩))
  · exact (Conn.cons_iff (u, v) S f.1 f.2).2 (Or.inr (Or.inr ⟨h2, h1⟩))

/-- A set of vertices that no pair leaves is closed under connection. -/
theorem Conn.cut (L : List (Vertex × Vertex)) (C : Vertex → Prop)
    (h : ∀ p ∈ L, C p.1 ↔ C p.2) {a b : Vertex} (hab : Conn L a b) : C a ↔ C b := by
  induction hab with
  | rel x y hxy => exact h (x, y) hxy
  | refl x => exact Iff.rfl
  | symm x y _ ih => exact ih.symm
  | trans x y z _ _ ih1 ih2 => exact ih1.trans ih2

theorem Conn.nil_iff (a b : Vertex) : Conn ([] : List (Vertex × Vertex)) a b ↔ a = b := by
  constructor
  · intro h
    induction h with
    | rel x y hxy => cases hxy
    | refl x => rfl
    | symm x y _ ih => exact ih.symm
    | trans x y z _ _ ih1 ih2 => exact ih1.trans ih2
  · intro h
    exact Conn.of_eq _ h

end ConnLemmas

/-! ## Disjoint sets and connectivity -/

section DsLemmas

variable {Vertex : Type} [DecidableEq Vertex]

omit [DecidableEq Vertex] in
theorem Agree.empty : Agree (ds.empty : ds Vertex) [] := by
  intro a b
  rw [Conn.nil_iff]
  rfl

theorem ds.join_sets_rep (d : ds Vertex) (v w x : Vertex) :
    (d.join_sets v w).2.rep x = if d.rep x = d.rep w then d.rep v else d.rep x := by
  unfold ds.join_sets
  by_cases h : d.rep v = d.rep w
  · rw [if_pos h]
    by_cases h1 : d.rep x = d.rep w
    · rw [if_pos h1, h, h1]
    · rw [if_neg h1]
  · rw [if_neg h]

theorem ds.join_sets_fst (d : ds Vertex) (v w : Vertex) :
    (d.join_sets v w).1 = !decide (d.rep v = d.rep w) := by
  unfold ds.join_sets
  by_cases h : d.rep v = d.rep w
  · simp [h]
  · simp [h]

theorem Agree.join {d : ds Vertex} {L : List (Vertex × Vertex)} (h : Agree d L) (v w : Vertex) :
    Agree (d.join_sets v w).2 ((v, w) :: L) := by
  intro a b
  rw [Conn.cons_iff, ds.join_sets_rep, ds.join_sets_rep, ← h a b, ← h a v, ← h w b, ← h a w,
    ← h v b]
  by_cases h1 : d.rep a = d.rep w
  · by_cases h2 : d.rep b = d.rep w
    · rw [if_pos h1, if_pos h2]
      exact ⟨fun _ => Or.inl (h1.trans h2.symm), fun _ => rfl⟩
    · rw [if_pos h1, if_neg h2]
      constructor
      · intro e
        exact Or.inr (Or.inr ⟨h1, e⟩)
      · rintro (e | ⟨e1, e2⟩ | ⟨_, e2⟩)
        · exact absurd (e.symm.trans h1) h2
        · exact absurd e2.symm h2
        · exact e2
  · by_cases h2 : d.rep b = d.rep w
    · rw [if_neg h1, if_pos h2]
      constructor
      · intro e
        exact Or.inr (Or.inl ⟨e, h2.symm⟩)
      · rintro (e | ⟨e1, _⟩ | ⟨e1, _⟩)
        · exact absurd (e.trans h2) h1
        · exact e1
        · exact absurd e1 h1
    · rw [if_neg h1, if_neg h2]
      constructor
      · exact Or.inl
      · rintro (e | ⟨_, e2⟩ | ⟨e1, _⟩)
        · exact e
        · exact absurd e2.symm h2
        · exact absurd e1 h1

omit [DecidableEq Vertex] in
theorem Agree.congr {d : ds Vertex} {L L1 : List (Vertex × Vertex)} (h : Agree d L)
    (h1 : ∀ p, p ∈ L ↔ p ∈ L1) : Agree d L1 := by
  intro a b
  rw [h a b]
  exact ⟨Conn.mono (fun p hp => (h1 p).1 hp), Conn.mono (fun p hp => (h1 p).2 hp)⟩

theorem nlabels_eq_card (X : List Vertex) (f : Vertex → Vertex) :
    nlabels X f = (X.toFinset.image f).card := by
  unfold nlabels
  have e : X.toFinset.image f = (X.map f).toFinset := by
    ext y
    simp
  rw [e, List.card_toFinset]

theorem nlabels_id (X : List Vertex) (f : Vertex → Vertex) (hX : X.Nodup) (hf : ∀ x, f x = x) :
    nlabels X f = X.length := by
  have : X.map f = X := by
    conv_rhs => rw [← List.map_id X]
    exact List.map_congr_left (fun x _ => hf x)
  unfold nlabels
  rw [this, hX.dedup]

theorem nlabels_le_of_refines (X : List Vertex) (f g : Vertex → Vertex)
    (h : ∀ a ∈ X, ∀ b ∈ X, f a = f b → g a = g b) : nlabels X g ≤ nlabels X f := by
  classical
  rw [nlabels_eq_card, nlabels_eq_card]
  by_cases hX : X = []
  · subst hX
    simp
  obtain ⟨x0, hx0⟩ := List.exists_mem_of_ne_nil X hX
  let pick : Vertex → Vertex := fun y =>
    if hy : ∃ x ∈ X, f x = y then g (Classical.choose hy) else g x0
  have hsub : X.toFinset.image g ⊆ (X.toFinset.image f).image pick := by
    intro y hy
    rw [Finset.mem_image] at hy
    obtain ⟨x, hx, rfl⟩ := hy
    rw [Finset.mem_image]
    refine ⟨f x, Finset.mem_image_of_mem f hx, ?_⟩
    have hx1 : x ∈ X := List.mem_toFinset.1 hx
    have hex : ∃ x1 ∈ X, f x1 = f x := ⟨x, hx1, rfl⟩
    show (if hy : ∃ x1 ∈ X, f x1 = f x then g (Classical.choose hy) else g x0) = g x
    rw [dif_pos hex]
    have hc := Classical.choose_spec hex
    exact h _ hc.1 _ hx1 hc.2
  exact (Finset.card_le_card hsub).trans Finset.card_image_le

theorem nlabels_congr (X : List Vertex) (f g : Vertex → Vertex)
    (h : ∀ a ∈ X, ∀ b ∈ X, f a = f b ↔ g a = g b) : nlabels X g = nlabels X f :=
  le_antisymm (nlabels_le_of_refines X f g (fun a ha b hb => (h a ha b hb).1))
    (nlabels_le_of_refines X g f (fun a ha b hb => (h a ha b hb).2))

theorem nlabels_join (X : List Vertex) (d : ds Vertex) (v w : Vertex) (hv : v ∈ X) (hw : w ∈ X)
    (hne : d.rep v ≠ d.rep w) :
    nlabels X (d.join_sets v w).2.rep + 1 = nlabels X d.rep := by
  rw [nlabels_eq_card, nlabels_eq_card]
  have himg : X.toFinset.image (d.join_sets v w).2.rep =
      (X.toFinset.image d.rep).erase (d.rep w) := by
    ext y
    simp only [Finset.mem_image, List.mem_toFinset, Finset.mem_erase, ds.join_sets_rep]
    constructor
    · rintro ⟨x, hx, rfl⟩
      by_cases h1 : d.rep x = d.rep w
      · rw [if_pos h1]
        exact ⟨hne, v, hv, rfl⟩
      · rw [if_neg h1]
        exact ⟨h1, x, hx, rfl⟩
    · rintro ⟨hy, x, hx, rfl⟩
      exact ⟨x, hx, by rw [if_neg hy]⟩
  rw [himg]
  have hmem : d.rep w ∈ X.toFinset.image d.rep :=
    Finset.mem_image_of_mem _ (List.mem_toFinset.2 hw)
  rw [Finset.card_erase_of_mem hmem]
  have : 0 < (X.toFinset.image d.rep).card := Finset.card_pos.2 ⟨_, hmem⟩
  omega

theorem nlabels_eq_one_iff (X : List Vertex) (f : Vertex → Vertex) (hX : X ≠ []) :
    nlabels X f = 1 ↔ ∀ a ∈ X, ∀ b ∈ X, f a = f b := by
  rw [nlabels_eq_card]
  obtain ⟨x0, hx0⟩ := List.exists_mem_of_ne_nil X hX
  constructor
  · intro h a ha b hb
    rw [Finset.card_eq_one] at h
    obtain ⟨y, hy⟩ := h
    have h1 : f a ∈ X.toFinset.image f := Finset.mem_image_of_mem _ (List.mem_toFinset.2 ha)
    have h2 : f b ∈ X.toFinset.image f := Finset.mem_image_of_mem _ (List.mem_toFinset.2 hb)
    rw [hy, Finset.mem_singleton] at h1 h2
    rw [h1, h2]
  · intro h
    rw [Finset.card_eq_one]
    refine ⟨f x0, ?_⟩
    ext y
    simp only [Finset.mem_image, List.mem_toFinset, Finset.mem_singleton]
    constructor
    · rintro ⟨x, hx, rfl⟩
      exact h x hx x0 hx0
    · rintro rfl
      exact ⟨x0, hx0, rfl⟩

theorem nlabels_nil (f : Vertex → Vertex) : nlabels ([] : List Vertex) f = 0 := rfl

theorem nlabels_pos (X : List Vertex) (f : Vertex → Vertex) (hX : X ≠ []) : 0 < nlabels X f := by
  rw [nlabels_eq_card]
  obtain ⟨x0, hx0⟩ := List.exists_mem_of_ne_nil X hX
  exact Finset.card_pos.2 ⟨f x0, Finset.mem_image_of_mem _ (List.mem_toFinset.2 hx0)⟩

theorem nlabels_le_length (X : List Vertex) (f : Vertex → Vertex) : nlabels X f ≤ X.length := by
  unfold nlabels
  exact (List.Sublist.length_le (List.dedup_sublist _)).trans (by simp)

end DsLemmas

/-! ## Greedy forests -/

section AcceptedLemmas

variable {Vertex : Type} [DecidableEq Vertex] {β : Type} (ends : β → Vertex × Vertex)

theorem ds.join_sets_of_eq (d : ds Vertex) (v w : Vertex) (h : d.rep v = d.rep w) :
    (d.join_sets v w).2 = d := by
  unfold ds.join_sets
  rw [if_pos h]

theorem runDs_append (d : ds Vertex) (l1 l2 : List β) :
    runDs ends d (l1 ++ l2) = runDs ends (runDs ends d l1) l2 := by
  induction l1 generalizing d with
  | nil => rfl
  | cons x xs ih => exact ih _

theorem accepted_append (d : ds Vertex) (l1 l2 : List β) :
    accepted ends d (l1 ++ l2) = accepted ends d l1 ++ accepted ends (runDs ends d l1) l2 := by
  induction l1 generalizing d with
  | nil => rfl
  | cons x xs ih =>
    by_cases h : d.rep (ends x).1 = d.rep (ends x).2
    · have e := ih d
      rw [List.cons_append]
      simp only [accepted, runDs, if_pos h, ds.join_sets_of_eq d _ _ h]
      exact e
    · have e := ih (d.join_sets (ends x).1 (ends x).2).2
      rw [List.cons_append]
      simp only [accepted, runDs, if_neg h, List.cons_append]
      rw [e]

theorem accepted_sublist (d : ds Vertex) (xs : List β) : (accepted ends d xs).Sublist xs := by
  induction xs generalizing d with
  | nil => exact List.Sublist.slnil
  | cons x xs ih =>
    by_cases h : d.rep (ends x).1 = d.rep (ends x).2
    · simp only [accepted, if_pos h]
      exact (ih d).cons x
    · simp only [accepted, if_neg h]
      exact (ih _).cons₂ x

theorem runDs_agree {d : ds Vertex} {L0 : List (Vertex × Vertex)} (h : Agree d L0) (xs : List β) :
    Agree (runDs ends d xs) ((xs.map ends).reverse ++ L0) := by
  induction xs generalizing d L0 with
  | nil => exact h
  | cons x xs ih =>
    have h1 : Agree (d.join_sets (ends x).1 (ends x).2).2 (ends x :: L0) := h.join _ _
    exact (ih h1).congr (fun p => by simp [or_assoc])

theorem runDs_agree_nil (xs : List β) : Agree (runDs ends ds.empty xs) (xs.map ends) :=
  (runDs_agree ends Agree.empty xs).congr (fun p => by simp)

theorem accepted_agree {d : ds Vertex} {L0 : List (Vertex × Vertex)} (h : Agree d L0)
    (xs : List β) :
    Agree (runDs ends d xs) (((accepted ends d xs).map ends).reverse ++ L0) := by
  induction xs generalizing d L0 with
  | nil => exact h
  | cons x xs ih =>
    by_cases hx : d.rep (ends x).1 = d.rep (ends x).2
    · simp only [accepted, runDs, if_pos hx, ds.join_sets_of_eq d _ _ hx]
      exact ih h
    · simp only [accepted, runDs, if_neg hx]
      have h1 : Agree (d.join_sets (ends x).1 (ends x).2).2 (ends x :: L0) := h.join _ _
      exact (ih h1).congr (fun p => by simp [or_assoc])

theorem accepted_agree_nil (xs : List β) :
    Agree (runDs ends ds.empty xs) ((accepted ends ds.empty xs).map ends) :=
  (accepted_agree ends Agree.empty xs).congr (fun p => by simp)

theorem accepted_count (X : List Vertex) (d : ds Vertex) (xs : List β)
    (hX : ∀ x ∈ xs, (ends x).1 ∈ X ∧ (ends x).2 ∈ X) :
    (accepted ends d xs).length + nlabels X (runDs ends d xs).rep = nlabels X d.rep := by
  induction xs generalizing d with
  | nil => simp [accepted, runDs]
  | cons x xs ih =>
    have hxs : ∀ y ∈ xs, (ends y).1 ∈ X ∧ (ends y).2 ∈ X :=
      fun y hy => hX y (List.mem_cons_of_mem x hy)
    have hx := hX x (List.mem_cons_self x xs)
    by_cases h : d.rep (ends x).1 = d.rep (ends x).2
    · simp only [accepted, runDs, if_pos h, ds.join_sets_of_eq d _ _ h]
      exact ih d hxs
    · simp only [accepted, runDs, if_neg h, List.length_cons]
      have h1 := ih (d.join_sets (ends x).1 (ends x).2).2 hxs
      have h2 := nlabels_join X d _ _ hx.1 hx.2 h
      omega

theorem IsForest.nil : IsForest ([] : List (Vertex × Vertex)) :=
  ⟨List.nodup_nil, fun p hp => by cases hp⟩

theorem IsForest.snoc {A : List (Vertex × Vertex)} {p : Vertex × Vertex} (h : IsForest A)
    (hp : ¬ Conn A p.1 p.2) : IsForest (A ++ [p]) := by
  have hpA : p ∉ A := fun hm => hp (Conn.of_mem hm)
  refine ⟨List.Nodup.append h.1 (List.nodup_singleton p) ?_, ?_⟩
  · intro x hx hx1
    rw [List.mem_singleton] at hx1
    exact hpA (hx1 ▸ hx)
  · intro q hq
    rcases List.mem_append.1 hq with hqA | hqp
    · have hne : q ≠ p := fun e => hpA (e ▸ hqA)
      rw [List.erase_append_left _ hqA]
      intro hc
      have hc1 : Conn (p :: A.erase q) q.1 q.2 :=
        Conn.mono (fun x hx => by
          rcases List.mem_append.1 hx with h1 | h1
          · exact List.mem_cons_of_mem _ h1
          · rw [List.mem_singleton] at h1
            rw [h1]
            exact List.mem_cons_self _ _) hc
      have hc2 := Conn.exchange p (A.erase q) q.1 q.2 hc1 (h.2 q hqA)
      apply hp
      refine Conn.mono (fun x hx => ?_) hc2
      rcases List.mem_cons.1 hx with h1 | h1
      · rw [h1]
        exact hqA
      · exact List.mem_of_mem_erase h1
    · rw [List.mem_singleton] at hqp
      subst hqp
      rw [List.erase_append_right _ hpA]
      simpa using hp

theorem IsForest.sub {L L1 : List (Vertex × Vertex)} (h : IsForest L) (h1 : L1.Nodup)
    (hs : ∀ p ∈ L1, p ∈ L) : IsForest L1 := by
  refine ⟨h1, fun p hp hc => h.2 p (hs p hp) (Conn.mono (fun q hq => ?_) hc)⟩
  have hq1 : q ∈ L1 := List.mem_of_mem_erase hq
  have hne : q ≠ p := fun e => by
    rw [e] at hq
    exact (List.Nodup.not_mem_erase h1) hq
  exact (List.mem_erase_of_ne hne).2 (hs q hq1)

theorem accepted_forest (xs : List β) : IsForest ((accepted ends ds.empty xs).map ends) := by
  induction xs using List.reverseRecOn with
  | nil => exact IsForest.nil
  | append_singleton xs x ih =>
    rw [accepted_append]
    by_cases h : (runDs ends ds.empty xs).rep (ends x).1 = (runDs ends ds.empty xs).rep (ends x).2
    · simp only [accepted, if_pos h, List.append_nil]
      exact ih
    · simp only [accepted, if_neg h, List.map_append, List.map_cons, List.map_nil]
      exact ih.snoc (fun hc => h ((accepted_agree_nil ends xs _ _).2 hc))

theorem accepted_of_forest {d : ds Vertex} {L0 : List (Vertex × Vertex)} (h : Agree d L0)
    (xs : List β) (hnd : (xs.map ends).Nodup)
    (hf : ∀ x ∈ xs, ¬ Conn (L0 ++ (xs.map ends).erase (ends x)) (ends x).1 (ends x).2) :
    accepted ends d xs = xs := by
  induction xs generalizing d L0 with
  | nil => rfl
  | cons x xs ih =>
    have hx : ¬ d.rep (ends x).1 = d.rep (ends x).2 := by
      intro e
      apply hf x (List.mem_cons_self x xs)
      exact Conn.mono (fun p hp => List.mem_append_left _ hp) ((h _ _).1 e)
    simp only [accepted, if_neg hx]
    congr 1
    have hnd1 : (xs.map ends).Nodup := (List.nodup_cons.1 (by simpa using hnd)).2
    have hnx : ends x ∉ xs.map ends := (List.nodup_cons.1 (by simpa using hnd)).1
    refine ih (h.join _ _) hnd1 (fun y hy hc => ?_)
    apply hf y (List.mem_cons_of_mem x hy)
    refine Conn.mono (fun p hp => ?_) hc
    have hne : ends y ≠ ends x := fun e => hnx (e ▸ List.mem_map_of_mem ends hy)
    simp only [List.map_cons, List.mem_append]
    rw [List.erase_cons_tail (by simpa using hne.symm)]
    rcases List.mem_append.1 hp with h1 | h1
    · rcases List.mem_cons.1 h1 with h2 | h2
      · right
        rw [h2]
        exact List.mem_cons_self _ _
      · left
        exact h2
    · right
      exact List.mem_cons_of_mem _ h1

/-- A forest on the vertices `X` has as many edges as `X` has vertices less the
number of its components. -/
theorem IsForest.length_add (X : List Vertex) (hX : X.Nodup) (L : List (Vertex × Vertex))
    (hL : ∀ p ∈ L, p.1 ∈ X ∧ p.2 ∈ X) (hf : IsForest L) (d : ds Vertex) (hd : Agree d L) :
    L.length + nlabels X d.rep = X.length := by
  have hacc : accepted id ds.empty L = L := by
    refine accepted_of_forest id Agree.empty L (by simpa using hf.1) (fun x hx => ?_)
    simpa using hf.2 x hx
  have hcount := accepted_count id X ds.empty L hL
  rw [hacc, nlabels_id X ds.empty.rep hX (fun _ => rfl)] at hcount
  have hagree : Agree (runDs id ds.empty L) L := by
    simpa using runDs_agree_nil id L
  have : nlabels X d.rep = nlabels X (runDs id ds.empty L).rep :=
    nlabels_congr X _ _ (fun a _ b _ => by rw [hagree a b, hd a b])
  omega

/-- A forest inside a set of edges has at most as many edges as there are
vertices less the number of components of the whole set. -/
theorem IsForest.length_le (X : List Vertex) (hX : X.Nodup) (L L1 : List (Vertex × Vertex))
    (hL : ∀ p ∈ L, p.1 ∈ X ∧ p.2 ∈ X) (hf : IsForest L) (hs : ∀ p ∈ L, p ∈ L1)
    (d : ds Vertex) (hd : Agree d L1) : L.length + nlabels X d.rep ≤ X.length := by
  have hagree : Agree (runDs id ds.empty L) L := by
    simpa using runDs_agree_nil id L
  have h1 := hf.length_add X hX L hL _ hagree
  have h2 : nlabels X d.rep ≤ nlabels X (runDs id ds.empty L).rep :=
    nlabels_le_of_refines X _ _ (fun a _ b _ e =>
      (hd a b).2 (Conn.mono hs ((hagree a b).1 e)))
  omega

end AcceptedLemmas

/-! ## Comparing two selections from a list sorted by cost -/

section Majorize

variable {α K : Type} [LinearOrderedAddCommMonoid K]

theorem pending_forall₂ (cost : α → K) (p q : α → Bool) (l : List α) (pend : List K)
    (hs : l.Pairwise (fun a b => cost a ≤ cost b))
    (hp : ∀ x ∈ pend, ∀ a ∈ l, x ≤ cost a)
    (hcount : ∀ l1 l2, l = l1 ++ l2 → l1.countP q ≤ pend.length + l1.countP p)
    (htot : l.countP q = pend.length + l.countP p) :
    List.Forall₂ (fun x y => x ≤ y) (pend ++ (l.filter p).map cost) ((l.filter q).map cost) := by
  induction l generalizing pend with
  | nil =>
    simp only [List.countP_nil, add_zero] at htot
    have : pend = [] := List.length_eq_zero.1 htot.symm
    subst this
    exact List.Forall₂.nil
  | cons e rest ih =>
    have hs1 : rest.Pairwise (fun a b => cost a ≤ cost b) := (List.pairwise_cons.1 hs).2
    have he : ∀ a ∈ rest, cost e ≤ cost a := (List.pairwise_cons.1 hs).1
    -- the pending list once `e` has been offered to the first selection
    obtain ⟨P1, hP1, hlen, hmem⟩ : ∃ P1 : List K,
        pend ++ ((e :: rest).filter p).map cost = P1 ++ (rest.filter p).map cost ∧
        P1.length = pend.length + (if p e = true then 1 else 0) ∧
        (∀ x ∈ P1, x ∈ pend ∨ x = cost e) := by
      by_cases hpe : p e = true
      · refine ⟨pend ++ [cost e], ?_, ?_, ?_⟩
        · simp [List.filter_cons_of_pos hpe]
        · simp [hpe]
        · intro x hx
          rcases List.mem_append.1 hx with h1 | h1
          · exact Or.inl h1
          · exact Or.inr (List.mem_singleton.1 h1)
      · refine ⟨pend, ?_, ?_, ?_⟩
        · simp [List.filter_cons_of_neg hpe]
        · simp [hpe]
        · exact fun x hx => Or.inl hx
    rw [hP1]
    have hcp : ∀ l1 : List α, (e :: l1).countP p = l1.countP p + (if p e = true then 1 else 0) :=
      fun l1 => List.countP_cons p e l1
    have hcq : ∀ l1 : List α, (e :: l1).countP q = l1.countP q + (if q e = true then 1 else 0) :=
      fun l1 => List.countP_cons q e l1
    have hle1 : ∀ x ∈ P1, x ≤ cost e := by
      intro x hx
      rcases hmem x hx with h1 | h1
      · exact hp x h1 e (List.mem_cons_self e rest)
      · exact le_of_eq h1
    have hle2 : ∀ x ∈ P1, ∀ a ∈ rest, x ≤ cost a :=
      fun x hx a ha => (hle1 x hx).trans (he a ha)
    by_cases hqe : q e = true
    · rw [List.filter_cons_of_pos hqe, List.map_cons]
      have h0 := hcount [e] rest rfl
      rw [hcq, hcp, if_pos hqe] at h0
      simp only [List.countP_nil, zero_add] at h0
      cases P1 with
      | nil =>
        simp only [List.length_nil] at hlen
        omega
      | cons x P2 =>
        rw [List.cons_append]
        refine List.Forall₂.cons (hle1 x (List.mem_cons_self x P2)) ?_
        refine ih P2 hs1 (fun y hy => hle2 y (List.mem_cons_of_mem x hy)) ?_ ?_
        · intro l1 l2 e1
          have h1 := hcount (e :: l1) l2 (by rw [e1]; rfl)
          rw [hcq, hcp, if_pos hqe] at h1
          rw [List.length_cons] at hlen
          omega
        · rw [hcq, hcp, if_pos hqe] at htot
          rw [List.length_cons] at hlen
          omega
    · rw [List.filter_cons_of_neg hqe]
      refine ih P1 hs1 hle2 ?_ ?_
      · intro l1 l2 e1
        have h1 := hcount (e :: l1) l2 (by rw [e1]; rfl)
        rw [hcq, hcp, if_neg hqe] at h1
        omega
      · rw [hcq, hcp, if_neg hqe] at htot
        omega

/-- In a list sorted by cost, a selection that holds at least as many elements of
every initial segment as another selection of the same size costs no more. -/
theorem sum_le_of_prefix_counts (cost : α → K) (p q : α → Bool) (l : List α)
    (hs : l.Pairwise (fun a b => cost a ≤ cost b))
    (hcount : ∀ l1 l2, l = l1 ++ l2 → l1.countP q ≤ l1.countP p)
    (htot : l.countP q = l.countP p) :
    ((l.filter p).map cost).sum ≤ ((l.filter q).map cost).sum := by
  have h := pending_forall₂ cost p q l [] hs (fun x hx => by cases hx)
    (fun l1 l2 e => by simpa using hcount l1 l2 e) (by simpa using htot)
  simpa using List.Forall₂.sum_le_sum h

end Majorize

/-! ## The edge set `E()` -/

section SetLemmas

variable {α : Type} [Preorder α] [DecidableRel (fun a b : α => a < b)]

theorem mem_set_insert (x y : α) (l : List α) (h : y ∈ set_insert x l) : y = x ∨ y ∈ l := by
  induction l with
  | nil =>
    simp only [set_insert, List.mem_singleton] at h
    exact Or.inl h
  | cons z zs ih =>
    unfold set_insert at h
    by_cases h1 : x < z
    · rw [if_pos h1] at h
      rcases List.mem_cons.1 h with e | e
      · exact Or.inl e
      · exact Or.inr e
    · rw [if_neg h1] at h
      by_cases h2 : z < x
      · rw [if_pos h2] at h
        rcases List.mem_cons.1 h with e | e
        · exact Or.inr (e ▸ List.mem_cons_self _ _)
        · rcases ih e with e1 | e1
          · exact Or.inl e1
          · exact Or.inr (List.mem_cons_of_mem _ e1)
      · rw [if_neg h2] at h
        exact Or.inr h

theorem mem_set_insert_of_mem (x y : α) (l : List α) (h : y ∈ l) : y ∈ set_insert x l := by
  induction l with
  | nil => cases h
  | cons z zs ih =>
    unfold set_insert
    by_cases h1 : x < z
    · rw [if_pos h1]
      exact List.mem_cons_of_mem _ h
    · rw [if_neg h1]
      by_cases h2 : z < x
      · rw [if_pos h2]
        rcases List.mem_cons.1 h with e | e
        · exact e ▸ List.mem_cons_self _ _
        · exact List.mem_cons_of_mem _ (ih e)
      · rw [if_neg h2]
        exact h

/-- After an insertion the set holds the inserted element or an equivalent one. -/
theorem set_insert_holds (x : α) (l : List α) :
    ∃ y ∈ set_insert x l, ¬ x < y ∧ ¬ y < x := by
  induction l with
  | nil => exact ⟨x, by simp [set_insert], lt_irrefl x, lt_irrefl x⟩
  | cons z zs ih =>
    unfold set_insert
    by_cases h1 : x < z
    · rw [if_pos h1]
      exact ⟨x, List.mem_cons_self _ _, lt_irrefl x, lt_irrefl x⟩
    · rw [if_neg h1]
      by_cases h2 : z < x
      · rw [if_pos h2]
        obtain ⟨y, hy, hxy⟩ := ih
        exact ⟨y, List.mem_cons_of_mem _ hy, hxy⟩
      · rw [if_neg h2]
        exact ⟨z, List.mem_cons_self _ _, h1, h2⟩

theorem sorted_set_insert (x : α) (l : List α) (h : l.Pairwise (fun a b => a < b)) :
    (set_insert x l).Pairwise (fun a b => a < b) := by
  induction l with
  | nil => simp [set_insert]
  | cons z zs ih =>
    have hz := List.pairwise_cons.1 h
    unfold set_insert
    by_cases h1 : x < z
    · rw [if_pos h1]
      refine List.pairwise_cons.2 ⟨fun a ha => ?_, h⟩
      rcases List.mem_cons.1 ha with e | e
      · rw [e]
        exact h1
      · exact h1.trans (hz.1 a e)
    · rw [if_neg h1]
      by_cases h2 : z < x
      · rw [if_pos h2]
        refine List.pairwise_cons.2 ⟨fun a ha => ?_, ih hz.2⟩
        rcases mem_set_insert x a zs ha with e | e
        · rw [e]
          exact h2
        · exact hz.1 a e
      · rw [if_neg h2]
        exact h

omit [DecidableRel (fun a b : α => a < b)] in
/-- In a strictly ascending list two members are equal or strictly ordered. -/
theorem eq_of_sorted_of_equiv (l : List α) (h : l.Pairwise (fun a b => a < b)) (a b : α)
    (ha : a ∈ l) (hb : b ∈ l) (h1 : ¬ a < b) (h2 : ¬ b < a) : a = b := by
  have hp : l.Pairwise (fun a b => a = b ∨ a < b ∨ b < a) :=
    h.imp (fun hab => Or.inr (Or.inl hab))
  have hsym : Symmetric (fun a b : α => a = b ∨ a < b ∨ b < a) := by
    rintro x y (e | e | e)
    · exact Or.inl e.symm
    · exact Or.inr (Or.inr e)
    · exact Or.inr (Or.inl e)
  rcases List.Pairwise.forall_of_forall hsym (fun x _ => Or.inl rfl) hp ha hb with e | e | e
  · exact e
  · exact absurd e h1
  · exact absurd e h2

end SetLemmas

section WEdgeOrder

variable {Vertex K : Type} [LinearOrder Vertex] [LinearOrder K]

theorem WEdge.lt_iff (a b : WEdge Vertex K) :
    a < b ↔ a.c < b.c ∨ (a.c = b.c ∧ (min a.v a.w < min b.v b.w ∨
      (min a.v a.w = min b.v b.w ∧ max a.v a.w < max b.v b.w))) := by
  show WEdge.key a < WEdge.key b ↔ _
  simp only [WEdge.key, Prod.Lex.lt_iff]

theorem WEdge.cost_le_of_lt {a b : WEdge Vertex K} (h : a < b) : a.c ≤ b.c := by
  rcases (WEdge.lt_iff a b).1 h with h1 | ⟨h1, _⟩
  · exact le_of_lt h1
  · exact le_of_eq h1

theorem WEdge.cost_le_of_le {a b : WEdge Vertex K} (h : a ≤ b) : a.c ≤ b.c := by
  have h1 : WEdge.key a ≤ WEdge.key b := h
  rcases lt_or_eq_of_le h1 with h2 | h2
  · exact WEdge.cost_le_of_lt h2
  · have h3 := congrArg (fun k => (ofLex k).1) h2
    exact le_of_eq h3

omit [LinearOrder K] in
theorem min_max_eq_iff (a b c d : Vertex) :
    (min a b = min c d ∧ max a b = max c d) ↔ ((a = c ∧ b = d) ∨ (a = d ∧ b = c)) := by
  rcases le_total a b with h1 | h1 <;> rcases le_total c d with h2 | h2
  · rw [min_eq_left h1, min_eq_left h2, max_eq_right h1, max_eq_right h2]
    constructor
    · exact Or.inl
    · rintro (h | ⟨rfl, rfl⟩)
      · exact h
      · have := le_antisymm h1 h2
        exact ⟨this, this.symm⟩
  · rw [min_eq_left h1, min_eq_right h2, max_eq_right h1, max_eq_left h2]
    constructor
    · exact Or.inr
    · rintro (⟨rfl, rfl⟩ | h)
      · have := le_antisymm h1 h2
        exact ⟨this, this.symm⟩
      · exact h
  · rw [min_eq_right h1, min_eq_left h2, max_eq_left h1, max_eq_right h2]
    constructor
    · rintro ⟨e1, e2⟩
      exact Or.inr ⟨e2, e1⟩
    · rintro (⟨rfl, rfl⟩ | ⟨e1, e2⟩)
      · have := le_antisymm h1 h2
        exact ⟨this, this.symm⟩
      · exact ⟨e2, e1⟩
  · rw [min_eq_right h1, min_eq_right h2, max_eq_left h1, max_eq_left h2]
    constructor
    · rintro ⟨e1, e2⟩
      exact Or.inl ⟨e2, e1⟩
    · rintro (⟨e1, e2⟩ | ⟨rfl, rfl⟩)
      · exact ⟨e2, e1⟩
      · have := le_antisymm h1 h2
        exact ⟨this, this.symm⟩

/-- Two weighted edges are equivalent under `operator<` exactly when they have the
same cost and the same endpoints, in the same or in the opposite direction. -/
theorem WEdge.equiv_iff (a b : WEdge Vertex K) :
    (¬ a < b ∧ ¬ b < a) ↔
      (a.c = b.c ∧ ((a.v = b.v ∧ a.w = b.w) ∨ (a.v = b.w ∧ a.w = b.v))) := by
  have h0 : (¬ a < b ∧ ¬ b < a) ↔ WEdge.key a = WEdge.key b := by
    constructor
    · rintro ⟨h1, h2⟩
      exact le_antisymm (not_lt.1 h2) (not_lt.1 h1)
    · intro h
      have h1 : ¬ WEdge.key a < WEdge.key b := by
        rw [h]
        exact lt_irrefl _
      have h2 : ¬ WEdge.key b < WEdge.key a := by
        rw [h]
        exact lt_irrefl _
      exact ⟨h1, h2⟩
  rw [h0, ← min_max_eq_iff]
  simp only [WEdge.key, EmbeddingLike.apply_eq_iff_eq, Prod.mk.injEq]

end WEdgeOrder

namespace wgraph

variable {Vertex K : Type} [LinearOrder Vertex] [LinearOrder K]

omit [LinearOrder K] in
theorem mem_Adj (g : wgraph Vertex K) (v w : Vertex) : w ∈ g.Adj v ↔ (v, w) ∈ g.adj := by
  unfold graph.Adj
  simp only [List.mem_map, List.mem_filter, decide_eq_true_eq]
  constructor
  · rintro ⟨p, ⟨hp, e1⟩, e2⟩
    have : p = (v, w) := Prod.ext e1 e2
    rw [← this]
    exact hp
  · intro h
    exact ⟨(v, w), ⟨h, rfl⟩, rfl⟩

omit [LinearOrder K] in
theorem cost_eq_ok_iff (g : wgraph Vertex K) (v w : Vertex) (c : K) :
    g.cost v w = .ok c ↔ (v ∈ g.vs ∧ w ∈ g.vs ∧ Map.find g._c ⟨v, w⟩ = some c) := by
  unfold cost graph.isVertex
  by_cases hv : v ∈ g.vs
  · by_cases hw : w ∈ g.vs
    · cases hf : Map.find g._c ⟨v, w⟩ with
      | none => simp [hv, hw]
      | some x =>
        simp only [hv, hw, decide_True, Bool.and_self, if_true, true_and, Option.some.injEq]
        constructor
        · intro h
          injection h
        · intro h
          rw [h]
    · simp [hv, hw]
  · simp [hv]

theorem E_row_spec (g : wgraph Vertex K) (v : Vertex) (ws : List Vertex)
    (ans : List (WEdge Vertex K)) (hc : ∀ w ∈ ws, ∃ c, g.cost v w = .ok c)
    (hs : ans.Pairwise (fun a b => a < b)) :
    ∃ ans1, E_row g v ws ans = .ok ans1 ∧ ans1.Pairwise (fun a b => a < b) ∧
      (∀ r ∈ ans1, r ∈ ans ∨ (r.v = v ∧ r.w ∈ ws ∧ g.cost v r.w = .ok r.c)) ∧
      (∀ r ∈ ans, r ∈ ans1) ∧
      (∀ w ∈ ws, ∀ c, g.cost v w = .ok c →
        ∃ r ∈ ans1, ¬ (⟨v, w, c⟩ : WEdge Vertex K) < r ∧ ¬ r < ⟨v, w, c⟩) := by
  induction ws generalizing ans with
  | nil =>
    refine ⟨ans, rfl, hs, fun r hr => Or.inl hr, fun r hr => hr, fun w hw => ?_⟩
    cases hw
  | cons w ws ih =>
    obtain ⟨c, hcw⟩ := hc w (List.mem_cons_self w ws)
    obtain ⟨ans1, h1, h2, h3, h4, h5⟩ := ih (set_insert ⟨v, w, c⟩ ans)
      (fun x hx => hc x (List.mem_cons_of_mem w hx)) (sorted_set_insert _ _ hs)
    refine ⟨ans1, ?_, h2, fun r hr => ?_, fun r hr => ?_, fun w1 hw1 c1 hc1 => ?_⟩
    · simp only [E_row, hcw]
      exact h1
    · rcases h3 r hr with e | ⟨e1, e2, e3⟩
      · rcases mem_set_insert _ _ _ e with e4 | e4
        · right
          rw [e4]
          exact ⟨rfl, List.mem_cons_self w ws, hcw⟩
        · exact Or.inl e4
      · exact Or.inr ⟨e1, List.mem_cons_of_mem w e2, e3⟩
    · exact h4 r (mem_set_insert_of_mem _ _ _ hr)
    · rcases List.mem_cons.1 hw1 with e | e
      · subst e
        rw [hcw] at hc1
        injection hc1 with hc2
        subst hc2
        obtain ⟨y, hy, hxy⟩ := set_insert_holds (⟨v, w1, c⟩ : WEdge Vertex K) ans
        exact ⟨y, h4 y hy, hxy⟩
      · exact h5 w1 e c1 hc1

theorem E_loop_spec (g : wgraph Vertex K) (vs : List Vertex) (ans : List (WEdge Vertex K))
    (hc : ∀ v ∈ vs, ∀ w ∈ g.Adj v, ∃ c, g.cost v w = .ok c)
    (hs : ans.Pairwise (fun a b => a < b)) :
    ∃ ans1, E_loop g vs ans = .ok ans1 ∧ ans1.Pairwise (fun a b => a < b) ∧
      (∀ r ∈ ans1, r ∈ ans ∨ (r.v ∈ vs ∧ r.w ∈ g.Adj r.v ∧ g.cost r.v r.w = .ok r.c)) ∧
      (∀ r ∈ ans, r ∈ ans1) ∧
      (∀ v ∈ vs, ∀ w ∈ g.Adj v, ∀ c, g.cost v w = .ok c →
        ∃ r ∈ ans1, ¬ (⟨v, w, c⟩ : WEdge Vertex K) < r ∧ ¬ r < ⟨v, w, c⟩) := by
  induction vs generalizing ans with
  | nil =>
    refine ⟨ans, rfl, hs, fun r hr => Or.inl hr, fun r hr => hr, fun v hv => ?_⟩
    cases hv
  | cons v vs ih =>
    obtain ⟨a1, h1, h2, h3, h4, h5⟩ := E_row_spec g v (g.Adj v) ans
      (hc v (List.mem_cons_self v vs)) hs
    obtain ⟨a2, k1, k2, k3, k4, k5⟩ := ih a1
      (fun x hx => hc x (List.mem_cons_of_mem v hx)) h2
    refine ⟨a2, ?_, k2, fun r hr => ?_, fun r hr => k4 r (h4 r hr),
      fun v1 hv1 w hw c hcw => ?_⟩
    · simp only [E_loop, h1]
      exact k1
    · rcases k3 r hr with e | ⟨e1, e2, e3⟩
      · rcases h3 r e with e4 | ⟨e4, e5, e6⟩
        · exact Or.inl e4
        · right
          rw [e4]
          exact ⟨List.mem_cons_self v vs, e5, e6⟩
      · exact Or.inr ⟨List.mem_cons_of_mem v e1, e2, e3⟩
    · rcases List.mem_cons.1 hv1 with e | e
      · subst e
        obtain ⟨r, hr, hxy⟩ := h5 w hw c hcw
        exact ⟨r, k4 r hr, hxy⟩
      · exact k5 v1 e w hw c hcw

omit [LinearOrder K] in
theorem find_of_edge (g : wgraph Vertex K) (hinv : g.Inv) (v w : Vertex)
    (h : (v, w) ∈ g.adj) : ∃ c, Map.find g._c ⟨v, w⟩ = some c ∧ Map.find g._c ⟨w, v⟩ = some c := by
  have hi := hinv v w
  have he : g.isEdge v w = true := by simpa [graph.isEdge] using h
  obtain ⟨h1, h2⟩ := hi.1.1 he
  obtain ⟨c1, hc1⟩ := (Map.count_ne_zero _ _).1 h1
  obtain ⟨c2, hc2⟩ := (Map.count_ne_zero _ _).1 h2
  have := hi.2 c1 c2 hc1 hc2
  subst this
  exact ⟨c1, hc1, hc2⟩

/-- On a well-formed graph satisfying the cost-table invariant `E()` returns a
strictly ascending list in which every record `(v, w, c)` is an adjacency pair
`(v, w)` with its stored cost `c`, and every adjacency pair is represented by a
record in one of its two directions. -/
theorem E_spec (g : wgraph Vertex K) (hwf : g.WF) (hinv : g.Inv) :
    ∃ es, g.E = .ok es ∧ es.Pairwise (fun a b => a < b) ∧
      (∀ r ∈ es, (r.v, r.w) ∈ g.adj ∧ Map.find g._c ⟨r.v, r.w⟩ = some r.c) ∧
      (∀ v w, (v, w) ∈ g.adj → ∃ r ∈ es, (r.v = v ∧ r.w = w) ∨ (r.v = w ∧ r.w = v)) := by
  obtain ⟨es, h1, h2, h3, -, h5⟩ := E_loop_spec g g.V [] (fun v _ w hw => by
    have hvw := (mem_Adj g v w).1 hw
    obtain ⟨c, hc, _⟩ := find_of_edge g hinv v w hvw
    have hm := hwf.mem_vs (v, w) hvw
    exact ⟨c, (cost_eq_ok_iff g v w c).2 ⟨hm.1, hm.2, hc⟩⟩) List.Pairwise.nil
  refine ⟨es, h1, h2, fun r hr => ?_, fun v w hvw => ?_⟩
  · rcases h3 r hr with e | ⟨_, e2, e3⟩
    · cases e
    · exact ⟨(mem_Adj g r.v r.w).1 e2, ((cost_eq_ok_iff g r.v r.w r.c).1 e3).2.2⟩
  · obtain ⟨c, hc, _⟩ := find_of_edge g hinv v w hvw
    have hm := hwf.mem_vs (v, w) hvw
    obtain ⟨r, hr, hxy⟩ := h5 v hm.1 w ((mem_Adj g v w).2 hvw) c
      ((cost_eq_ok_iff g v w c).2 ⟨hm.1, hm.2, hc⟩)
    refine ⟨r, hr, ?_⟩
    have := ((WEdge.equiv_iff (⟨v, w, c⟩ : WEdge Vertex K) r).1 hxy).2
    rcases this with ⟨e1, e2⟩ | ⟨e1, e2⟩
    · exact Or.inl ⟨e1.symm, e2.symm⟩
    · exact Or.inr ⟨e2.symm, e1.symm⟩

end wgraph

/-! ## Building the result graph -/

namespace wgraph

variable {Vertex K : Type} [LinearOrder Vertex]

theorem MST_init_fst [LinearOrderedAddCommMonoidWithTop K] (vs : List Vertex)
    (t : wgraph Vertex K) (d : ds Vertex) (h : (t.vs ++ vs).Nodup) :
    (MST_init vs (t, d)).1 = ⟨⟨t.vs ++ vs, t.adj⟩, t._c⟩ := by
  induction vs generalizing t d with
  | nil => simp [MST_init]
  | cons v vs ih =>
    have hv : v ∉ t.vs := by
      intro hv
      have := List.nodup_append.1 h
      exact this.2.2 hv (List.mem_cons_self v vs) 
    have e : t.addVertex v = ⟨⟨t.vs ++ [v], t.adj⟩, t._c⟩ := by
      simp only [addVertex, graph.addVertex, if_neg hv]
    simp only [MST_init]
    rw [ih (t.addVertex v) (d.make_set v) (by rw [e]; simpa using h), e]
    simp

theorem MST_init_snd [LinearOrderedAddCommMonoidWithTop K] (vs : List Vertex)
    (t : wgraph Vertex K) (d : ds Vertex) (h : ∀ x, d.rep x = x) :
    ∀ x, (MST_init vs (t, d)).2.rep x = x := by
  induction vs generalizing t d with
  | nil => exact h
  | cons v vs ih =>
    simp only [MST_init]
    refine ih _ _ (fun x => ?_)
    simp only [ds.make_set]
    by_cases hx : x = v
    · rw [if_pos hx, hx]
    · rw [if_neg hx, h x]

omit [LinearOrder Vertex] in
theorem Agree.of_id {d : ds Vertex} (h : ∀ x, d.rep x = x) : Agree d [] := by
  intro a b
  rw [Conn.nil_iff, h a, h b]

theorem Kruskal_loop_eq [LinearOrderedAddCommMonoidWithTop K] (es : List (WEdge Vertex K))
    (t : wgraph Vertex K) (d : ds Vertex) :
    Kruskal_loop es (t, d) =
      (addAll (accepted WEdge.ends d es) t, runDs WEdge.ends d es) := by
  induction es generalizing t d with
  | nil => rfl
  | cons e es ih =>
    by_cases h : d.rep e.v = d.rep e.w
    · have h1 : (d.join_sets e.v e.w).1 = false := by
        rw [ds.join_sets_fst]
        simp [h]
      have h2 := ds.join_sets_of_eq d _ _ h
      simp only [Kruskal_loop, accepted, runDs, WEdge.ends, if_pos h, h1, h2,
        Bool.false_eq_true, if_false]
      exact ih t d
    · have h1 : (d.join_sets e.v e.w).1 = true := by
        rw [ds.join_sets_fst]
        simp [h]
      simp only [Kruskal_loop, h1, accepted, runDs, WEdge.ends, if_neg h, if_true]
      rw [ih]
      rfl

theorem Built.init (X : List Vertex) (hX : X.Nodup) :
    Built X ([] : List (WEdge Vertex K)) ⟨⟨X, []⟩, []⟩ where
  vs_eq := rfl
  wf := ⟨hX, List.nodup_nil, fun p hp => (by cases hp), fun p hp => (by cases hp)⟩
  inv := by
    intro v w
    constructor
    · simp [graph.isEdge, Map.count, Map.find]
    · intro c1 c2 h
      simp [Map.find] at h
  adj_iff := by
    intro a b
    simp
  cost_of := by
    intro a b c h
    simp [Map.find] at h

theorem graph.nodup_link (p : Vertex × Vertex) (l : List (Vertex × Vertex)) (h : l.Nodup) :
    (graph.link p l).Nodup := by
  unfold graph.link
  by_cases hp : p ∈ l
  · rw [if_pos hp]
    exact h
  · rw [if_neg hp]
    refine List.Nodup.append h (List.nodup_singleton p) ?_
    intro x hx hx1
    rw [List.mem_singleton] at hx1
    exact hp (hx1 ▸ hx)

theorem Built.of_mem_iff {X : List Vertex} {L L1 : List (WEdge Vertex K)} {t : wgraph Vertex K}
    (h : Built X L t) (hs : ∀ e, e ∈ L ↔ e ∈ L1) : Built X L1 t where
  vs_eq := h.vs_eq
  wf := h.wf
  inv := h.inv
  adj_iff := by
    intro a b
    rw [h.adj_iff]
    constructor
    · rintro ⟨e, he, h1⟩
      exact ⟨e, (hs e).1 he, h1⟩
    · rintro ⟨e, he, h1⟩
      exact ⟨e, (hs e).2 he, h1⟩
  cost_of := by
    intro a b c hc
    obtain ⟨e, he, h1⟩ := h.cost_of a b c hc
    exact ⟨e, (hs e).1 he, h1⟩

theorem Built.step {X : List Vertex} {L : List (WEdge Vertex K)} {t : wgraph Vertex K}
    (h : Built X L t) (e : WEdge Vertex K) (hv : e.v ∈ X) (hw : e.w ∈ X) :
    Built X (L ++ [e]) (t.addEdge_we e).2 := by
  unfold addEdge_we
  rcases addEdge_cases t e.v e.w e.c with ⟨he, hr⟩ | ⟨he, _, _, hne⟩
  · rw [he]
    have hedge : (e.v, e.w) ∈ t.adj := by
      rcases hr with h1 | h1 | h1
      · rw [← h.vs_eq] at hv
        simp [graph.isVertex, hv] at h1
      · rw [← h.vs_eq] at hw
        simp [graph.isVertex, hw] at h1
      · simpa [graph.isEdge] using h1
    refine ⟨h.vs_eq, h.wf, h.inv, fun a b => ?_, fun a b c hc => ?_⟩
    · rw [h.adj_iff]
      constructor
      · rintro ⟨x, hx, h1⟩
        exact ⟨x, List.mem_append_left _ hx, h1⟩
      · rintro ⟨x, hx, h1⟩
        rcases List.mem_append.1 hx with h2 | h2
        · exact ⟨x, h2, h1⟩
        · rw [List.mem_singleton] at h2
          subst h2
          rw [← h.adj_iff]
          rcases h1 with ⟨e1, e2⟩ | ⟨e1, e2⟩
          · rw [← e1, ← e2]
            exact hedge
          · rw [← e1, ← e2]
            exact h.wf.symm _ hedge
    · obtain ⟨x, hx, h1⟩ := h.cost_of a b c hc
      exact ⟨x, List.mem_append_left _ hx, h1⟩
  · rw [he]
    have hadj : ∀ a b, (a, b) ∈ (t.tograph.addEdge e.v e.w).adj ↔
        ((a, b) ∈ t.adj ∨ (a = e.v ∧ b = e.w) ∨ (a = e.w ∧ b = e.v)) := by
      intro a b
      have := graph.isEdge_addEdge t.tograph e.v e.w a b
      simpa [graph.isEdge] using this
    refine ⟨h.vs_eq, ⟨h.wf.nodup_vs, ?_, ?_, ?_⟩, ?_, fun a b => ?_, fun a b c hc => ?_⟩
    · exact graph.nodup_link _ _ (graph.nodup_link _ _ h.wf.nodup_adj)
    · rintro ⟨a, b⟩ hp
      rcases (hadj a b).1 hp with h1 | ⟨h1, h2⟩ | ⟨h1, h2⟩
      · exact h.wf.mem_vs _ h1
      · show a ∈ t.vs ∧ b ∈ t.vs
        rw [h.vs_eq, h1, h2]
        exact ⟨hv, hw⟩
      · show a ∈ t.vs ∧ b ∈ t.vs
        rw [h.vs_eq, h1, h2]
        exact ⟨hw, hv⟩
    · rintro ⟨a, b⟩ hp
      apply (hadj b a).2
      rcases (hadj a b).1 hp with h1 | h1 | h1
      · exact Or.inl (h.wf.symm _ h1)
      · exact Or.inr (Or.inr ⟨h1.2, h1.1⟩)
      · exact Or.inr (Or.inl ⟨h1.2, h1.1⟩)
    · have := Inv_addEdge t e.v e.w e.c h.inv
      rw [he] at this
      exact this
    · rw [hadj, h.adj_iff]
      constructor
      · rintro (⟨x, hx, h1⟩ | h1 | h1)
        · exact ⟨x, List.mem_append_left _ hx, h1⟩
        · exact ⟨e, by simp, Or.inl ⟨h1.1.symm, h1.2.symm⟩⟩
        · exact ⟨e, by simp, Or.inr ⟨h1.2.symm, h1.1.symm⟩⟩
      · rintro ⟨x, hx, h1⟩
        rcases List.mem_append.1 hx with h2 | h2
        · exact Or.inl ⟨x, h2, h1⟩
        · rw [List.mem_singleton] at h2
          subst h2
          rcases h1 with ⟨e1, e2⟩ | ⟨e1, e2⟩
          · exact Or.inr (Or.inl ⟨e1.symm, e2.symm⟩)
          · exact Or.inr (Or.inr ⟨e2.symm, e1.symm⟩)
    · have hf := find_addEdge t e.v e.w a b e.c
      simp only at hc
      rw [hf] at hc
      by_cases hm : (a = e.v ∧ b = e.w) ∨ (a = e.w ∧ b = e.v)
      · rw [if_pos hm] at hc
        refine ⟨e, by simp, ?_, Option.some.inj hc⟩
        rcases hm with h1 | h1
        · exact Or.inl ⟨h1.1.symm, h1.2.symm⟩
        · exact Or.inr ⟨h1.2.symm, h1.1.symm⟩
      · rw [if_neg hm] at hc
        obtain ⟨x, hx, h1⟩ := h.cost_of a b c hc
        exact ⟨x, List.mem_append_left _ hx, h1⟩

theorem Built.addAll {X : List Vertex} {L0 : List (WEdge Vertex K)} {t : wgraph Vertex K}
    (h : Built X L0 t) (L : List (WEdge Vertex K)) (hL : ∀ e ∈ L, e.v ∈ X ∧ e.w ∈ X) :
    Built X (L0 ++ L) (addAll L t) := by
  induction L generalizing L0 t with
  | nil => simpa [wgraph.addAll] using h
  | cons e L ih =>
    have h1 := h.step e (hL e (List.mem_cons_self e L)).1 (hL e (List.mem_cons_self e L)).2
    have h2 := ih h1 (fun x hx => hL x (List.mem_cons_of_mem e hx))
    simpa [wgraph.addAll] using h2

end wgraph

/-! ## The connectivity test and the component count -/

namespace graph

variable {Vertex : Type} [LinearOrder Vertex]

theorem foldl_make_set_rep (vs : List Vertex) (d : ds Vertex) (h : ∀ x, d.rep x = x) :
    ∀ x, (vs.foldl ds.make_set d).rep x = x := by
  induction vs generalizing d with
  | nil => exact h
  | cons v vs ih =>
    refine ih _ (fun x => ?_)
    simp only [ds.make_set]
    by_cases hx : x = v
    · rw [if_pos hx, hx]
    · rw [if_neg hx, h x]

theorem foldl_join_eq_runDs (L : List (Vertex × Vertex)) (d : ds Vertex) :
    L.foldl (fun d p => (d.join_sets p.1 p.2).2) d = runDs id d L := by
  induction L generalizing d with
  | nil => rfl
  | cons p L ih => exact ih _

theorem components_agree (g : graph Vertex) : Agree g.components g.adj := by
  unfold components
  rw [foldl_join_eq_runDs]
  have h0 : Agree (g.vs.foldl ds.make_set ds.empty) [] := by
    intro a b
    rw [Conn.nil_iff, foldl_make_set_rep g.vs ds.empty (fun _ => rfl) a,
      foldl_make_set_rep g.vs ds.empty (fun _ => rfl) b]
  exact (runDs_agree id h0 g.adj).congr (fun p => by simp)

theorem ncc_eq (g : graph Vertex) (d : ds Vertex) (h : Agree d g.adj) :
    g.ncc = nlabels g.vs d.rep := by
  have h1 : g.ncc = nlabels g.vs g.components.rep := rfl
  rw [h1]
  exact nlabels_congr _ _ _ (fun a _ b _ => by rw [h a b, components_agree g a b])

/-- The connectivity test of the substrate holds exactly when the graph has a
vertex and its adjacency pairs connect every two of its vertices. -/
theorem isConnected_iff (g : graph Vertex) :
    g.isConnected = true ↔ (g.vs ≠ [] ∧ ∀ a ∈ g.vs, ∀ b ∈ g.vs, Conn g.adj a b) := by
  have h1 : g.ncc = nlabels g.vs g.components.rep := rfl
  unfold isConnected
  rw [beq_iff_eq, h1]
  by_cases hX : g.vs = []
  · rw [hX, nlabels_nil]
    simp
  · rw [nlabels_eq_one_iff _ _ hX]
    constructor
    · intro h
      exact ⟨hX, fun a ha b hb => (components_agree g a b).1 (h a ha b hb)⟩
    · rintro ⟨_, h⟩ a ha b hb
      exact (components_agree g a b).2 (h a ha b hb)

end graph

/-! ## The ascending edge list and the edges Kruskal accepts -/

section AcceptedSplit

variable {Vertex : Type} [DecidableEq Vertex] {β : Type} (ends : β → Vertex × Vertex)

theorem mem_accepted_split (d : ds Vertex) (xs : List β) (x : β) (h : x ∈ accepted ends d xs) :
    ∃ l1 l2, xs = l1 ++ x :: l2 ∧
      (runDs ends d l1).rep (ends x).1 ≠ (runDs ends d l1).rep (ends x).2 := by
  induction xs generalizing d with
  | nil => cases h
  | cons y ys ih =>
    by_cases hy : d.rep (ends y).1 = d.rep (ends y).2
    · simp only [accepted, if_pos hy] at h
      obtain ⟨l1, l2, e1, e2⟩ := ih d h
      refine ⟨y :: l1, l2, by rw [e1]; rfl, ?_⟩
      simp only [runDs, ds.join_sets_of_eq d _ _ hy]
      exact e2
    · simp only [accepted, if_neg hy] at h
      rcases List.mem_cons.1 h with e | e
      · subst e
        exact ⟨[], ys, rfl, hy⟩
      · obtain ⟨l1, l2, e1, e2⟩ := ih _ e
        exact ⟨y :: l1, l2, by rw [e1]; rfl, e2⟩

theorem mem_accepted_of_split (d : ds Vertex) (l1 l2 : List β) (x : β)
    (h : (runDs ends d l1).rep (ends x).1 ≠ (runDs ends d l1).rep (ends x).2) :
    x ∈ accepted ends d (l1 ++ x :: l2) := by
  rw [accepted_append]
  apply List.mem_append_right
  simp only [accepted, if_neg h]
  exact List.mem_cons_self _ _

end AcceptedSplit

namespace wgraph

variable {Vertex K : Type} [LinearOrder Vertex] [LinearOrder K]

theorem EdgesOf.of_E (g : wgraph Vertex K) (hwf : g.WF) (hinv : g.Inv) :
    ∃ es, g.E = .ok es ∧ EdgesOf g es := by
  obtain ⟨es, h1, h2, h3, h4⟩ := E_spec g hwf hinv
  exact ⟨es, h1, hwf, hinv, h2, h3, h4⟩

variable {g : wgraph Vertex K} {es : List (WEdge Vertex K)}

theorem EdgesOf.mem_vs (h : EdgesOf g es) {e : WEdge Vertex K} (he : e ∈ es) :
    e.v ∈ g.vs ∧ e.w ∈ g.vs :=
  h.wf.mem_vs _ (h.sound e he).1

/-- A record of `E()` carries the cost stored for its edge in either direction. -/
theorem EdgesOf.find_of_match (hE : EdgesOf g es) {e : WEdge Vertex K} (he : e ∈ es)
    {a b : Vertex} (hm : (e.v = a ∧ e.w = b) ∨ (e.v = b ∧ e.w = a)) :
    (a, b) ∈ g.adj ∧ Map.find g._c ⟨a, b⟩ = some e.c := by
  rcases hm with ⟨rfl, rfl⟩ | ⟨rfl, rfl⟩
  · exact hE.sound e he
  · obtain ⟨h1, h2⟩ := hE.sound e he
    obtain ⟨c, hc1, hc2⟩ := find_of_edge g hE.inv e.v e.w h1
    rw [h2] at hc1
    injection hc1 with hc3
    exact ⟨hE.wf.symm _ h1, by rw [hc3]; exact hc2⟩

/-- The list `E()` holds one record for each undirected edge. -/
theorem EdgesOf.unique (h : EdgesOf g es) {e1 e2 : WEdge Vertex K} (h1 : e1 ∈ es)
    (h2 : e2 ∈ es) (hm : (e1.v = e2.v ∧ e1.w = e2.w) ∨ (e1.v = e2.w ∧ e1.w = e2.v)) :
    e1 = e2 := by
  have hc1 := (h.find_of_match h1 hm).2
  have hc2 := (h.sound e2 h2).2
  rw [hc2] at hc1
  injection hc1 with hc
  have heq := (WEdge.equiv_iff e1 e2).2 ⟨hc.symm, hm⟩
  exact eq_of_sorted_of_equiv es h.sorted e1 e2 h1 h2 heq.1 heq.2

theorem EdgesOf.ends_inj (h : EdgesOf g es) {e1 e2 : WEdge Vertex K} (h1 : e1 ∈ es)
    (h2 : e2 ∈ es) (he : e1.ends = e2.ends) : e1 = e2 := by
  simp only [WEdge.ends, Prod.mk.injEq] at he
  exact h.unique h1 h2 (Or.inl he)

theorem EdgesOf.nodup (h : EdgesOf g es) : es.Nodup :=
  h.sorted.imp (fun hab => ne_of_lt hab)

theorem EdgesOf.nodup_ends (h : EdgesOf g es) : (es.map WEdge.ends).Nodup :=
  List.Nodup.map_on (fun _ h1 _ h2 he => h.ends_inj h1 h2 he) h.nodup

theorem EdgesOf.cost_sorted (h : EdgesOf g es) : es.Pairwise (fun a b => a.c ≤ b.c) :=
  h.sorted.imp (fun hab => WEdge.cost_le_of_lt hab)

theorem EdgesOf.conn_iff (h : EdgesOf g es) (a b : Vertex) :
    Conn (es.map WEdge.ends) a b ↔ Conn g.adj a b := by
  constructor
  · refine Conn.mono (fun p hp => ?_)
    obtain ⟨e, he, rfl⟩ := List.mem_map.1 hp
    exact (h.sound e he).1
  · refine Conn.lift (fun p hp => ?_)
    obtain ⟨r, hr, hm⟩ := h.complete p.1 p.2 hp
    have hmem : r.ends ∈ es.map WEdge.ends := List.mem_map_of_mem _ hr
    rcases hm with ⟨h1, h2⟩ | ⟨h1, h2⟩
    · have : r.ends = (p.1, p.2) := by simp [WEdge.ends, h1, h2]
      rw [this] at hmem
      exact Conn.of_mem hmem
    · have : r.ends = (p.2, p.1) := by simp [WEdge.ends, h1, h2]
      rw [this] at hmem
      exact (Conn.of_mem hmem).symm_

omit [LinearOrder K] in
theorem kruskalEdges_sublist (es : List (WEdge Vertex K)) :
    (kruskalEdges es).Sublist es :=
  accepted_sublist _ _ _

omit [LinearOrder K] in
theorem kruskalEdges_forest (es : List (WEdge Vertex K)) :
    IsForest ((kruskalEdges es).map WEdge.ends) :=
  accepted_forest _ _

omit [LinearOrder K] in
theorem kruskalEdges_conn (es : List (WEdge Vertex K)) (a b : Vertex) :
    Conn ((kruskalEdges es).map WEdge.ends) a b ↔ Conn (es.map WEdge.ends) a b := by
  unfold kruskalEdges
  rw [← accepted_agree_nil WEdge.ends es a b, ← runDs_agree_nil WEdge.ends es a b]

/-- An element of the ascending list is accepted exactly when the smaller
elements do not connect its endpoints. -/
theorem EdgesOf.mem_kruskalEdges_iff (h : EdgesOf g es) (e : WEdge Vertex K) :
    e ∈ kruskalEdges es ↔
      (e ∈ es ∧ ¬ Conn ((es.filter (fun x => decide (x < e))).map WEdge.ends) e.v e.w) := by
  have key : ∀ l1 l2, es = l1 ++ e :: l2 → es.filter (fun x => decide (x < e)) = l1 := by
    intro l1 l2 heq
    have hs := h.sorted
    rw [heq] at hs ⊢
    have hs1 := List.pairwise_append.1 hs
    have hs2 := List.pairwise_cons.1 hs1.2.1
    rw [List.filter_append, List.filter_cons_of_neg (by simp)]
    have f1 : l1.filter (fun x => decide (x < e)) = l1 :=
      List.filter_eq_self.2 (fun x hx => by
        simpa using hs1.2.2 x hx e (List.mem_cons_self e l2))
    have f2 : l2.filter (fun x => decide (x < e)) = [] :=
      List.filter_eq_nil_iff.2 (fun x hx => by
        simpa using lt_asymm (hs2.1 x hx))
    rw [f1, f2, List.append_nil]
  constructor
  · intro he
    obtain ⟨l1, l2, heq, hne⟩ := mem_accepted_split WEdge.ends ds.empty es e he
    refine ⟨(kruskalEdges_sublist es).subset he, ?_⟩
    rw [key l1 l2 heq]
    intro hc
    exact hne ((runDs_agree_nil WEdge.ends l1 _ _).2 hc)
  · rintro ⟨he, hc⟩
    obtain ⟨l1, l2, heq⟩ := List.append_of_mem he
    rw [key l1 l2 heq] at hc
    unfold kruskalEdges
    rw [heq]
    exact mem_accepted_of_split WEdge.ends ds.empty l1 l2 e
      (fun e1 => hc ((runDs_agree_nil WEdge.ends l1 _ _).1 e1))

end wgraph

/-! ## Spanning trees of the input and their cost -/

namespace wgraph

variable {Vertex K : Type} [LinearOrder Vertex] [LinearOrderedAddCommMonoidWithTop K]

theorem records_ends (t : wgraph Vertex K) :
    t.records.map WEdge.ends = t.adj.filter (fun p => decide (p.1 ≤ p.2)) := by
  unfold records
  rw [List.map_map]
  conv_rhs => rw [← List.map_id (t.adj.filter (fun p => decide (p.1 ≤ p.2)))]
  exact List.map_congr_left (fun p _ => rfl)

theorem records_length (t : wgraph Vertex K) : t.records.length = t.m := by
  unfold records graph.m
  rw [List.length_map]

theorem totalCost_eq (t : wgraph Vertex K) : t.totalCost = (t.records.map WEdge.c).sum := by
  unfold totalCost records
  rw [List.map_map]
  rfl

theorem records_nodup (t : wgraph Vertex K) (hwf : t.WF) : t.records.Nodup := by
  apply List.Nodup.of_map WEdge.ends
  rw [records_ends]
  exact hwf.nodup_adj.filter _

theorem records_conn (t : wgraph Vertex K) (hwf : t.WF) (a b : Vertex) :
    Conn (t.records.map WEdge.ends) a b ↔ Conn t.adj a b := by
  rw [records_ends]
  constructor
  · exact Conn.mono (fun p hp => (List.mem_filter.1 hp).1)
  · refine Conn.lift (fun p hp => ?_)
    by_cases h : p.1 ≤ p.2
    · exact Conn.of_mem (List.mem_filter.2 ⟨hp, by simpa using h⟩)
    · have h1 : p.2 ≤ p.1 := le_of_lt (not_le.1 h)
      have h2 : (p.2, p.1) ∈ t.adj := hwf.symm p hp
      exact (Conn.of_mem (List.mem_filter.2 ⟨h2, by simpa using h1⟩)).symm_

theorem mem_records_iff (t : wgraph Vertex K) (r : WEdge Vertex K) :
    r ∈ t.records ↔ ((r.v, r.w) ∈ t.adj ∧ r.v ≤ r.w ∧
      r.c = (Map.find t._c ⟨r.v, r.w⟩).getD 0) := by
  unfold records
  simp only [List.mem_map, List.mem_filter, decide_eq_true_eq]
  constructor
  · rintro ⟨p, ⟨h1, h2⟩, rfl⟩
    exact ⟨h1, h2, rfl⟩
  · rintro ⟨h1, h2, h3⟩
    refine ⟨(r.v, r.w), ⟨h1, h2⟩, ?_⟩
    cases r
    simp only at h3
    simp only [h3]

variable {g t : wgraph Vertex K} {es : List (WEdge Vertex K)}

omit [LinearOrderedAddCommMonoidWithTop K] in
theorem SpanningTreeOf.mem_vs_iff (h : SpanningTreeOf g t) (v : Vertex) :
    v ∈ t.vs ↔ v ∈ g.vs := by
  have := h.verts v
  simpa [graph.isVertex] using this

theorem SpanningTreeOf.forest (h : SpanningTreeOf g t) :
    IsForest (t.records.map WEdge.ends) := by
  rw [records_ends]
  refine ⟨h.wf.nodup_adj.filter _, fun p hp hc => ?_⟩
  obtain ⟨hp1, hp2⟩ := List.mem_filter.1 hp
  have hp3 : p.1 ≤ p.2 := by simpa using hp2
  have he : t.isEdge p.1 p.2 = true := by simpa [graph.isEdge] using hp1
  apply h.acyclic p.1 p.2 he
  refine Conn.mono (fun q hq => ?_) hc
  have hq1 := List.mem_of_mem_erase hq
  obtain ⟨hq2, hq3⟩ := List.mem_filter.1 hq1
  have hq4 : q.1 ≤ q.2 := by simpa using hq3
  have hne : q ≠ p := fun e => by
    rw [e] at hq
    exact (List.Nodup.not_mem_erase (h.wf.nodup_adj.filter _)) hq
  show q ∈ (t.tograph.removeEdge p.1 p.2).adj
  simp only [graph.removeEdge, List.mem_filter, Bool.not_eq_true', Bool.or_eq_false_iff,
    decide_eq_false_iff_not]
  refine ⟨hq2, hne, fun e => hne ?_⟩
  rw [e] at hq4
  have : p.1 = p.2 := le_antisymm hp3 hq4
  rw [e]
  exact Prod.ext this.symm this

theorem SpanningTreeOf.card (h : SpanningTreeOf g t) (hg : g.WF) (hne : g.vs ≠ []) :
    t.records.length + 1 = g.vs.length := by
  have hL : ∀ p ∈ t.records.map WEdge.ends, p.1 ∈ g.vs ∧ p.2 ∈ g.vs := by
    intro p hp
    rw [records_ends] at hp
    have := h.wf.mem_vs p (List.mem_filter.1 hp).1
    exact ⟨(h.mem_vs_iff _).1 this.1, (h.mem_vs_iff _).1 this.2⟩
  have hagree : Agree (runDs id ds.empty (t.records.map WEdge.ends))
      (t.records.map WEdge.ends) := by
    simpa using runDs_agree_nil id (t.records.map WEdge.ends)
  have h1 := h.forest.length_add g.vs hg.nodup_vs _ hL _ hagree
  have h2 : nlabels g.vs (runDs id ds.empty (t.records.map WEdge.ends)).rep = 1 := by
    rw [nlabels_eq_one_iff _ _ hne]
    intro a ha b hb
    rw [hagree a b, records_conn t h.wf]
    exact h.connected a b ((h.mem_vs_iff a).2 ha) ((h.mem_vs_iff b).2 hb)
  rw [List.length_map] at h1
  omega

/-- The records of `E()` that are edges of a spanning tree `s`, each taken in the
direction with the smaller endpoint first, are the edges of `s`. -/
theorem SpanningTreeOf.sel_perm {s : wgraph Vertex K} (hs : SpanningTreeOf g s)
    (hE : EdgesOf g es) :
    ((es.filter (fun e => s.isEdge e.v e.w)).map
      (fun e => (⟨min e.v e.w, max e.v e.w, e.c⟩ : WEdge Vertex K))).Perm s.records := by
  have hadj : ∀ e : WEdge Vertex K, s.isEdge e.v e.w = true →
      (min e.v e.w, max e.v e.w) ∈ s.adj := by
    intro e he
    have h1 : (e.v, e.w) ∈ s.adj := by simpa [graph.isEdge] using he
    rcases le_total e.v e.w with h | h
    · rw [min_eq_left h, max_eq_right h]
      exact h1
    · rw [min_eq_right h, max_eq_left h]
      exact hs.wf.symm _ h1
  have hmatch : ∀ e : WEdge Vertex K,
      (e.v = min e.v e.w ∧ e.w = max e.v e.w) ∨ (e.v = max e.v e.w ∧ e.w = min e.v e.w) := by
    intro e
    rcases le_total e.v e.w with h | h
    · rw [min_eq_left h, max_eq_right h]
      exact Or.inl ⟨rfl, rfl⟩
    · rw [min_eq_right h, max_eq_left h]
      exact Or.inr ⟨rfl, rfl⟩
  refine (List.perm_ext_iff_of_nodup ?_ (records_nodup s hs.wf)).2 (fun r => ?_)
  · refine List.Nodup.map_on (fun e1 h1 e2 h2 heq => ?_) (hE.nodup.filter _)
    simp only [WEdge.mk.injEq] at heq
    exact hE.unique (List.mem_filter.1 h1).1 (List.mem_filter.1 h2).1
      ((min_max_eq_iff _ _ _ _).1 ⟨heq.1, heq.2.1⟩)
  · rw [mem_records_iff]
    constructor
    · intro hr
      obtain ⟨e, he, rfl⟩ := List.mem_map.1 hr
      obtain ⟨he1, he2⟩ := List.mem_filter.1 he
      have ha := hadj e he2
      refine ⟨ha, min_le_max, ?_⟩
      have hedge : s.isEdge (min e.v e.w) (max e.v e.w) = true := by
        simpa [graph.isEdge] using ha
      rw [(hs.edges _ _ hedge).2, (hE.find_of_match he1 (hmatch e)).2]
      rfl
    · rintro ⟨h1, h2, h3⟩
      have hedge : s.isEdge r.v r.w = true := by simpa [graph.isEdge] using h1
      obtain ⟨hg, hc⟩ := hs.edges r.v r.w hedge
      have hg1 : (r.v, r.w) ∈ g.adj := by simpa [graph.isEdge] using hg
      obtain ⟨e, he, hm⟩ := hE.complete r.v r.w hg1
      have hcost := (hE.find_of_match he hm).2
      rw [hc, hcost] at h3
      simp only [Option.getD_some] at h3
      refine List.mem_map.2 ⟨e, List.mem_filter.2 ⟨he, ?_⟩, ?_⟩
      · rcases hm with ⟨a1, a2⟩ | ⟨a1, a2⟩
        · rw [a1, a2]
          exact hedge
        · rw [a1, a2]
          simpa [graph.isEdge] using hs.wf.symm _ h1
      · cases r
        simp only at h2 h3 hm
        simp only [WEdge.mk.injEq]
        rcases hm with ⟨a1, a2⟩ | ⟨a1, a2⟩
        · rw [a1, a2, min_eq_left h2, max_eq_right h2]
          exact ⟨rfl, rfl, h3.symm⟩
        · rw [a1, a2, min_eq_right h2, max_eq_left h2]
          exact ⟨rfl, rfl, h3.symm⟩

theorem SpanningTreeOf.sel_sum {s : wgraph Vertex K} (hs : SpanningTreeOf g s)
    (hE : EdgesOf g es) :
    s.totalCost = ((es.filter (fun e => s.isEdge e.v e.w)).map WEdge.c).sum := by
  rw [totalCost_eq, ← ((hs.sel_perm hE).map WEdge.c).sum_eq, List.map_map]
  rfl

theorem SpanningTreeOf.sel_length {s : wgraph Vertex K} (hs : SpanningTreeOf g s)
    (hE : EdgesOf g es) :
    (es.filter (fun e => s.isEdge e.v e.w)).length = s.records.length := by
  rw [← (hs.sel_perm hE).length_eq, List.length_map]

/-- Records of `E()` that are edges of a spanning tree form a forest. -/
theorem SpanningTreeOf.forest_of_sublist {s : wgraph Vertex K} (hs : SpanningTreeOf g s)
    (hE : EdgesOf g es) (L : List (WEdge Vertex K)) (hsub : L.Sublist es)
    (hL : ∀ e ∈ L, s.isEdge e.v e.w = true) : IsForest (L.map WEdge.ends) := by
  have hnd : (L.map WEdge.ends).Nodup := (hsub.map WEdge.ends).nodup hE.nodup_ends
  refine ⟨hnd, fun p hp hc => ?_⟩
  obtain ⟨e, he, rfl⟩ := List.mem_map.1 hp
  apply hs.acyclic e.v e.w (hL e he)
  refine Conn.mono (fun q hq => ?_) hc
  have hq1 := List.mem_of_mem_erase hq
  have hne : q ≠ e.ends := fun h => by
    rw [h] at hq
    exact (List.Nodup.not_mem_erase hnd) hq
  obtain ⟨e1, he1, rfl⟩ := List.mem_map.1 hq1
  have hin : (e1.v, e1.w) ∈ s.adj := by simpa [graph.isEdge] using hL e1 he1
  show e1.ends ∈ (s.tograph.removeEdge e.v e.w).adj
  simp only [graph.removeEdge, List.mem_filter, Bool.not_eq_true', Bool.or_eq_false_iff,
    decide_eq_false_iff_not]
  refine ⟨hin, hne, fun h => hne ?_⟩
  simp only [WEdge.ends, Prod.mk.injEq] at h
  have := hE.unique (hsub.subset he1) (hsub.subset he) (Or.inr h)
  rw [this]

/-- A spanning tree of `g` all of whose edges are among those that Kruskal
accepts costs no more than any spanning tree of `g`. -/
theorem SpanningTreeOf.totalCost_le {t1 : wgraph Vertex K} (hE : EdgesOf g es)
    (hne : g.vs ≠ []) (ht : SpanningTreeOf g t)
    (hK : ∀ v w, t.isEdge v w = true →
      ∃ e ∈ kruskalEdges es, (e.v = v ∧ e.w = w) ∨ (e.v = w ∧ e.w = v))
    (ht1 : SpanningTreeOf g t1) :
    t.totalCost ≤ t1.totalCost := by
  have hsubK : ∀ e ∈ kruskalEdges es, e ∈ es := fun e he => (kruskalEdges_sublist es).subset he
  -- every accepted edge is an edge of `t`
  have hKR : ∀ e ∈ kruskalEdges es, t.isEdge e.v e.w = true := by
    intro e he
    by_contra hn
    have hf := kruskalEdges_forest es
    apply hf.2 e.ends (List.mem_map_of_mem _ he)
    have hv := hE.mem_vs (hsubK e he)
    have hc : Conn t.adj e.v e.w :=
      ht.connected _ _ ((ht.mem_vs_iff _).2 hv.1) ((ht.mem_vs_iff _).2 hv.2)
    refine Conn.lift (fun q hq => ?_) hc
    have hq1 : t.isEdge q.1 q.2 = true := by simpa [graph.isEdge] using hq
    obtain ⟨r, hr, hm⟩ := hK q.1 q.2 hq1
    have hne1 : r.ends ≠ e.ends := by
      intro e1
      have := hE.ends_inj (hsubK r hr) (hsubK e he) e1
      apply hn
      rw [← this]
      rcases hm with ⟨a1, a2⟩ | ⟨a1, a2⟩
      · rw [a1, a2]
        exact hq1
      · rw [a1, a2]
        simpa [graph.isEdge] using ht.wf.symm _ hq
    have hmem : r.ends ∈ ((kruskalEdges es).map WEdge.ends).erase e.ends :=
      (List.mem_erase_of_ne hne1).2 (List.mem_map_of_mem _ hr)
    rcases hm with ⟨a1, a2⟩ | ⟨a1, a2⟩
    · have : r.ends = (q.1, q.2) := by simp [WEdge.ends, a1, a2]
      rw [this] at hmem
      exact Conn.of_mem hmem
    · have : r.ends = (q.2, q.1) := by simp [WEdge.ends, a1, a2]
      rw [this] at hmem
      exact (Conn.of_mem hmem).symm_
  rw [ht.sel_sum hE, ht1.sel_sum hE]
  refine sum_le_of_prefix_counts WEdge.c _ _ es hE.cost_sorted ?_ ?_
  · intro l1 l2 heq
    rw [List.countP_eq_length_filter, List.countP_eq_length_filter]
    have hl1 : ∀ x ∈ l1, x ∈ es := fun x hx => by
      rw [heq]
      exact List.mem_append_left _ hx
    have hsub1 : l1.Sublist es := by
      rw [heq]
      exact List.sublist_append_left l1 l2
    -- the edges of `t1` in the initial segment form a forest inside it
    have hfor : IsForest ((l1.filter (fun e => t1.isEdge e.v e.w)).map WEdge.ends) :=
      ht1.forest_of_sublist hE _ ((List.filter_sublist l1).trans hsub1)
        (fun e he => (List.mem_filter.1 he).2)
    have hagree : Agree (runDs WEdge.ends ds.empty l1) (l1.map WEdge.ends) :=
      runDs_agree_nil WEdge.ends l1
    have hle := hfor.length_le g.vs hE.wf.nodup_vs _ (l1.map WEdge.ends)
      (fun p hp => by
        obtain ⟨r, hr, rfl⟩ := List.mem_map.1 hp
        exact hE.mem_vs (hl1 r (List.mem_filter.1 hr).1))
      (fun p hp => by
        obtain ⟨r, hr, rfl⟩ := List.mem_map.1 hp
        exact List.mem_map_of_mem _ (List.mem_filter.1 hr).1)
      _ hagree
    have hcount := accepted_count WEdge.ends g.vs ds.empty l1 (fun x hx => hE.mem_vs (hl1 x hx))
    rw [nlabels_id g.vs ds.empty.rep hE.wf.nodup_vs (fun _ => rfl)] at hcount
    -- the accepted edges of the initial segment are edges of `t`
    have hacc : (accepted WEdge.ends ds.empty l1).length ≤
        (l1.filter (fun e => t.isEdge e.v e.w)).length := by
      have hall : (accepted WEdge.ends ds.empty l1).filter (fun e => t.isEdge e.v e.w) =
          accepted WEdge.ends ds.empty l1 := by
        rw [List.filter_eq_self]
        intro x hx
        have : x ∈ kruskalEdges es := by
          unfold kruskalEdges
          rw [heq, accepted_append]
          exact List.mem_append_left _ hx
        exact hKR x this
      rw [← hall]
      exact ((accepted_sublist WEdge.ends ds.empty l1).filter _).length_le
    rw [List.length_map] at hle
    omega
  · rw [List.countP_eq_length_filter, List.countP_eq_length_filter, ht.sel_length hE,
      ht1.sel_length hE]
    have h1 := ht.card hE.wf hne
    have h2 := ht1.card hE.wf hne
    omega

end wgraph

/-! ## Result graphs built from accepted edges -/

namespace wgraph

variable {Vertex K : Type} [LinearOrder Vertex] [LinearOrderedAddCommMonoidWithTop K]
variable {g : wgraph Vertex K} {es : List (WEdge Vertex K)}

omit [LinearOrder Vertex] [LinearOrderedAddCommMonoidWithTop K] in
theorem ds_eq_empty_of_rep (d : ds Vertex) (h : ∀ x, d.rep x = x) : d = ds.empty := by
  cases d with
  | mk rep =>
    have : rep = fun x => x := funext h
    subst this
    rfl

/-- A result graph on the vertices of `g`, built from edges that Kruskal accepts
and connecting all vertices, is a spanning tree of `g` whose edges are all
accepted edges, in one direction or the other. -/
theorem Built.spanningTree (hE : EdgesOf g es) {F : List (WEdge Vertex K)}
    {t : wgraph Vertex K} (hb : Built g.vs F t) (hF : ∀ e ∈ F, e ∈ kruskalEdges es)
    (hconn : ∀ a ∈ g.vs, ∀ b ∈ g.vs, Conn t.adj a b) :
    SpanningTreeOf g t ∧ ∀ v w, t.isEdge v w = true →
      ∃ e ∈ kruskalEdges es, (e.v = v ∧ e.w = w) ∨ (e.v = w ∧ e.w = v) := by
  have hsub : ∀ e ∈ F, e ∈ es := fun e he => (kruskalEdges_sublist es).subset (hF e he)
  have hedges : ∀ v w, t.isEdge v w = true →
      g.isEdge v w = true ∧ Map.find t._c ⟨v, w⟩ = Map.find g._c ⟨v, w⟩ := by
    intro v w he
    have hvw : (v, w) ∈ t.adj := by simpa [graph.isEdge] using he
    obtain ⟨e, heF, hm⟩ := (hb.adj_iff v w).1 hvw
    have h1 := hE.find_of_match (hsub e heF) hm
    refine ⟨by simpa [graph.isEdge] using h1.1, ?_⟩
    obtain ⟨c, hc, _⟩ := find_of_edge t hb.inv v w hvw
    obtain ⟨e1, he1, hm1, hc1⟩ := hb.cost_of v w c hc
    have h2 := hE.find_of_match (hsub e1 he1) hm1
    rw [hc, h2.2, hc1]
  refine ⟨⟨hb.wf, hb.inv, ?_, hedges, ?_, ?_⟩, ?_⟩
  · intro v
    simp only [graph.isVertex, hb.vs_eq]
  · intro a b ha hb1
    rw [hb.vs_eq] at ha hb1
    exact hconn a ha b hb1
  · intro v w he hc
    have hvw : (v, w) ∈ t.adj := by simpa [graph.isEdge] using he
    obtain ⟨e, heF, hm⟩ := (hb.adj_iff v w).1 hvw
    have hf := kruskalEdges_forest es
    have hlift : Conn (((kruskalEdges es).map WEdge.ends).erase e.ends) v w := by
      refine Conn.lift (fun q hq => ?_) hc
      have hq0 : q ∈ (t.tograph.removeEdge v w).adj := hq
      simp only [graph.removeEdge, List.mem_filter, Bool.not_eq_true', Bool.or_eq_false_iff,
        decide_eq_false_iff_not] at hq0
      obtain ⟨hq1, hq2, hq3⟩ := hq0
      obtain ⟨e1, he1, hm1⟩ := (hb.adj_iff q.1 q.2).1 hq1
      have hne : e1.ends ≠ e.ends := by
        intro heq
        simp only [WEdge.ends, Prod.mk.injEq] at heq
        rcases hm with ⟨a1, a2⟩ | ⟨a1, a2⟩ <;> rcases hm1 with ⟨b1, b2⟩ | ⟨b1, b2⟩
        · exact hq2 (Prod.ext (by rw [← b1, heq.1, a1]) (by rw [← b2, heq.2, a2]))
        · exact hq3 (Prod.ext (by rw [← b2, heq.2, a2]) (by rw [← b1, heq.1, a1]))
        · exact hq3 (Prod.ext (by rw [← b1, heq.1, a1]) (by rw [← b2, heq.2, a2]))
        · exact hq2 (Prod.ext (by rw [← b2, heq.2, a2]) (by rw [← b1, heq.1, a1]))
      have hmem : e1.ends ∈ ((kruskalEdges es).map WEdge.ends).erase e.ends :=
        (List.mem_erase_of_ne hne).2 (List.mem_map_of_mem _ (hF e1 he1))
      rcases hm1 with ⟨b1, b2⟩ | ⟨b1, b2⟩
      · have : e1.ends = (q.1, q.2) := by simp [WEdge.ends, b1, b2]
        rw [this] at hmem
        exact Conn.of_mem hmem
      · have : e1.ends = (q.2, q.1) := by simp [WEdge.ends, b1, b2]
        rw [this] at hmem
        exact (Conn.of_mem hmem).symm_
    have hno := hf.2 e.ends (List.mem_map_of_mem _ (hF e heF))
    rcases hm with ⟨a1, a2⟩ | ⟨a1, a2⟩
    · apply hno
      simp only [WEdge.ends, a1, a2]
      simpa [WEdge.ends, a1, a2] using hlift
    · apply hno
      simp only [WEdge.ends, a1, a2]
      simpa [WEdge.ends, a1, a2] using hlift.symm_
  · intro v w he
    have hvw : (v, w) ∈ t.adj := by simpa [graph.isEdge] using he
    obtain ⟨e, heF, hm⟩ := (hb.adj_iff v w).1 hvw
    exact ⟨e, hF e heF, hm⟩

end wgraph

/-! ## Reachable graphs are well formed -/

namespace wgraph

variable {Vertex K : Type} [LinearOrder Vertex]

omit [LinearOrder Vertex] in
theorem WF_empty : (wgraph.empty : wgraph Vertex K).WF :=
  ⟨List.nodup_nil, List.nodup_nil, fun p hp => (by cases hp), fun p hp => (by cases hp)⟩

theorem WF_addVertex (g : wgraph Vertex K) (x : Vertex) (h : g.WF) : (g.addVertex x).WF := by
  by_cases hx : x ∈ g.vs
  · have e : g.addVertex x = g := by
      simp only [addVertex, graph.addVertex, if_pos hx]
    rw [e]
    exact h
  · have e : g.addVertex x = ⟨⟨g.vs ++ [x], g.adj⟩, g._c⟩ := by
      simp only [addVertex, graph.addVertex, if_neg hx]
    rw [e]
    refine ⟨?_, h.nodup_adj, fun p hp => ?_, h.symm⟩
    · refine List.Nodup.append h.nodup_vs (List.nodup_singleton x) ?_
      intro y hy hy1
      rw [List.mem_singleton] at hy1
      exact hx (hy1 ▸ hy)
    · have := h.mem_vs p hp
      exact ⟨List.mem_append_left _ this.1, List.mem_append_left _ this.2⟩

theorem WF_addEdge (g : wgraph Vertex K) (v w : Vertex) (c : K) (h : g.WF) :
    (g.addEdge v w c).2.WF := by
  rcases addEdge_cases g v w c with ⟨e, _⟩ | ⟨e, hv, hw, _⟩
  · rw [e]
    exact h
  · rw [e]
    have hv1 : v ∈ g.vs := by simpa [graph.isVertex] using hv
    have hw1 : w ∈ g.vs := by simpa [graph.isVertex] using hw
    have hadj : ∀ a b, (a, b) ∈ (g.tograph.addEdge v w).adj ↔
        ((a, b) ∈ g.adj ∨ (a = v ∧ b = w) ∨ (a = w ∧ b = v)) := by
      intro a b
      have := graph.isEdge_addEdge g.tograph v w a b
      simpa [graph.isEdge] using this
    refine ⟨h.nodup_vs, ?_, ?_, ?_⟩
    · exact graph.nodup_link _ _ (graph.nodup_link _ _ h.nodup_adj)
    · rintro ⟨a, b⟩ hp
      rcases (hadj a b).1 hp with h1 | ⟨h1, h2⟩ | ⟨h1, h2⟩
      · exact h.mem_vs _ h1
      · show a ∈ g.vs ∧ b ∈ g.vs
        rw [h1, h2]
        exact ⟨hv1, hw1⟩
      · show a ∈ g.vs ∧ b ∈ g.vs
        rw [h1, h2]
        exact ⟨hw1, hv1⟩
    · rintro ⟨a, b⟩ hp
      apply (hadj b a).2
      rcases (hadj a b).1 hp with h1 | h1 | h1
      · exact Or.inl (h.symm _ h1)
      · exact Or.inr (Or.inr ⟨h1.2, h1.1⟩)
      · exact Or.inr (Or.inl ⟨h1.2, h1.1⟩)

theorem WF_removeEdge (g : wgraph Vertex K) (v w : Vertex) (h : g.WF) :
    (g.removeEdge v w).WF := by
  have hadj : ∀ p, p ∈ (g.removeEdge v w).adj ↔ (p ∈ g.adj ∧ p ≠ (v, w) ∧ p ≠ (w, v)) := by
    intro p
    show p ∈ (g.tograph.removeEdge v w).adj ↔ _
    simp only [graph.removeEdge, List.mem_filter, Bool.not_eq_true', Bool.or_eq_false_iff,
      decide_eq_false_iff_not]
  refine ⟨h.nodup_vs, h.nodup_adj.filter _, fun p hp => h.mem_vs p ((hadj p).1 hp).1, ?_⟩
  intro p hp
  obtain ⟨h1, h2, h3⟩ := (hadj p).1 hp
  refine (hadj _).2 ⟨h.symm p h1, fun e => h3 ?_, fun e => h2 ?_⟩
  · injection e with e1 e2
    exact Prod.ext e2 e1
  · injection e with e1 e2
    exact Prod.ext e2 e1

theorem WF_of_reachable (g : wgraph Vertex K) (h : Reachable g) : g.WF := by
  induction h with
  | empty => exact WF_empty
  | addVertex g v _ ih => exact WF_addVertex g v ih
  | addEdge g v w c _ ih => exact WF_addEdge g v w c ih
  | removeEdge g v w _ ih => exact WF_removeEdge g v w ih

theorem Examples.scenario_reachable : Reachable Examples.scenario :=
  Reachable.addEdge _ 1 3 3 (Reachable.addEdge _ 1 4 4 (Reachable.addEdge _ 3 4 1
    (Reachable.addEdge _ 2 3 2 (Reachable.addEdge _ 1 2 1 (Reachable.addVertex _ 4
      (Reachable.addVertex _ 3 (Reachable.addVertex _ 2
        (Reachable.addVertex _ 1 Reachable.empty))))))))

theorem Examples.triangle_reachable : Reachable Examples.triangle :=
  Reachable.addEdge _ 1 3 1 (Reachable.addEdge _ 2 3 1 (Reachable.addEdge _ 1 2 1
    (Reachable.addVertex _ 3 (Reachable.addVertex _ 2
      (Reachable.addVertex _ 1 Reachable.empty)))))

end wgraph

/-! ## `Kruskal_MST` -/

namespace wgraph

variable {Vertex K : Type} [LinearOrder Vertex] [LinearOrderedAddCommMonoidWithTop K]

theorem MST_init_eq (g : wgraph Vertex K) (hwf : g.WF) :
    MST_init g.V ((wgraph.empty : wgraph Vertex K), ds.empty) =
      (⟨⟨g.vs, []⟩, []⟩, ds.empty) := by
  have h1 := MST_init_fst g.V (wgraph.empty : wgraph Vertex K) ds.empty
    (by simpa [wgraph.empty, graph.empty, graph.V] using hwf.nodup_vs)
  have h2 := ds_eq_empty_of_rep _ (MST_init_snd g.V (wgraph.empty : wgraph Vertex K) ds.empty
    (fun _ => rfl))
  refine Prod.ext ?_ h2
  rw [h1]
  simp [wgraph.empty, graph.empty, graph.V]

/-- What `Kruskal_MST` returns on a connected well-formed graph: the graph built
from the accepted edges, which is a spanning tree of the input. -/
theorem Kruskal_MST_eq (g : wgraph Vertex K) (hwf : g.WF) (hinv : g.Inv)
    (hconn : g.isConnected = true) :
    ∃ es, g.E = .ok es ∧ EdgesOf g es ∧
      Kruskal_MST g = .ok (addAll (kruskalEdges es) ⟨⟨g.vs, []⟩, []⟩) ∧
      Built g.vs (kruskalEdges es) (addAll (kruskalEdges es) ⟨⟨g.vs, []⟩, []⟩) ∧
      SpanningTreeOf g (addAll (kruskalEdges es) ⟨⟨g.vs, []⟩, []⟩) ∧
      ∀ v w, (addAll (kruskalEdges es) ⟨⟨g.vs, []⟩, []⟩).isEdge v w = true →
        ∃ e ∈ kruskalEdges es, (e.v = v ∧ e.w = w) ∨ (e.v = w ∧ e.w = v) := by
  obtain ⟨es, hEok, hE⟩ := EdgesOf.of_E g hwf hinv
  have hb : Built g.vs (kruskalEdges es) (addAll (kruskalEdges es) ⟨⟨g.vs, []⟩, []⟩) := by
    have := (Built.init (K := K) g.vs hwf.nodup_vs).addAll (kruskalEdges es)
      (fun e he => hE.mem_vs ((kruskalEdges_sublist es).subset he))
    simpa using this
  have hc : ∀ a ∈ g.vs, ∀ b ∈ g.vs,
      Conn (addAll (kruskalEdges es) ⟨⟨g.vs, []⟩, []⟩).adj a b := by
    intro a ha b hb1
    have h1 := ((graph.isConnected_iff g.tograph).1 hconn).2 a ha b hb1
    have h2 := (kruskalEdges_conn es a b).2 ((hE.conn_iff a b).2 h1)
    refine Conn.mono (fun p hp => ?_) h2
    obtain ⟨e, he, rfl⟩ := List.mem_map.1 hp
    exact (hb.adj_iff e.v e.w).2 ⟨e, he, Or.inl ⟨rfl, rfl⟩⟩
  obtain ⟨h1, h2⟩ := hb.spanningTree hE (fun e he => he) hc
  refine ⟨es, hEok, hE, ?_, hb, h1, h2⟩
  unfold Kruskal_MST
  rw [if_pos hconn, hEok]
  simp only [MST_init_eq g hwf, Kruskal_loop_eq]
  rfl

omit [LinearOrderedAddCommMonoidWithTop K] in
theorem isConnected_of_spanningTree {g t : wgraph Vertex K} (h : SpanningTreeOf g t)
    (hne : g.vs ≠ []) : t.isConnected = true := by
  rw [graph.isConnected_iff]
  refine ⟨fun e => ?_, fun a ha b hb => h.connected a b ha hb⟩
  obtain ⟨x, hx⟩ := List.exists_mem_of_ne_nil _ hne
  have := (h.mem_vs_iff x).2 hx
  rw [e] at this
  cases this

end wgraph

/-! ## Spanning trees are trees in the sense of `SimpleGraph` -/

namespace wgraph

variable {Vertex K : Type} [LinearOrder Vertex]

omit [LinearOrder Vertex] in
theorem mem_vs_of_conn (t : wgraph Vertex K) (hwf : t.WF) {a b : Vertex} (h : Conn t.adj a b)
    (ha : a ∈ t.vs) : b ∈ t.vs :=
  (Conn.cut t.adj (fun x => x ∈ t.vs) (fun p hp =>
    ⟨fun _ => (hwf.mem_vs p hp).2, fun _ => (hwf.mem_vs p hp).1⟩) h).1 ha

theorem reachable_of_conn (t : wgraph Vertex K) (hwf : t.WF) {a b : Vertex}
    (h : Conn t.adj a b) :
    ∀ (ha : a ∈ t.vs) (hb : b ∈ t.vs), t.toSimpleGraph.Reachable ⟨a, ha⟩ ⟨b, hb⟩ := by
  induction h with
  | rel x y hxy =>
    intro ha hb
    by_cases e : x = y
    · subst e
      exact SimpleGraph.Reachable.refl _
    · exact SimpleGraph.Adj.reachable ⟨fun h => e (congrArg Subtype.val h), Or.inl hxy⟩
  | refl x =>
    intro ha hb
    exact SimpleGraph.Reachable.refl _
  | symm x y _ ih =>
    intro ha hb
    exact (ih hb ha).symm
  | trans x y z hxy _ ih1 ih2 =>
    intro ha hb
    have hy : y ∈ t.vs := mem_vs_of_conn t hwf hxy ha
    exact (ih1 ha hy).trans (ih2 hy hb)

theorem conn_of_reachable_delete (t : wgraph Vertex K) (a b : {v : Vertex // v ∈ t.vs})
    {x y : {v : Vertex // v ∈ t.vs}}
    (h : (t.toSimpleGraph \ SimpleGraph.fromEdgeSet {s(a, b)}).Reachable x y) :
    Conn (t.removeEdge a.1 b.1).adj x.1 y.1 := by
  rw [SimpleGraph.reachable_iff_reflTransGen] at h
  induction h with
  | refl => exact Conn.rfl_ _ _
  | @tail u w _ hstep ih =>
    refine ih.trans_ ?_
    rw [SimpleGraph.sdiff_adj, SimpleGraph.fromEdgeSet_adj] at hstep
    obtain ⟨⟨hne, hadj⟩, hnot⟩ := hstep
    have hs : s(u, w) ≠ s(a, b) := by
      intro e
      exact hnot ⟨by rw [e]; exact Set.mem_singleton _, hne⟩
    have h1 : ¬ (u.1 = a.1 ∧ w.1 = b.1) := by
      rintro ⟨e1, e2⟩
      exact hs (by rw [Subtype.ext e1, Subtype.ext e2])
    have h2 : ¬ (u.1 = b.1 ∧ w.1 = a.1) := by
      rintro ⟨e1, e2⟩
      exact hs (by rw [Subtype.ext e1, Subtype.ext e2, Sym2.eq_swap])
    have hmem : ∀ p q : Vertex, (p, q) ∈ t.adj → ¬ (p = a.1 ∧ q = b.1) →
        ¬ (p = b.1 ∧ q = a.1) → (p, q) ∈ (t.removeEdge a.1 b.1).adj := by
      intro p q hpq k1 k2
      show (p, q) ∈ (t.tograph.removeEdge a.1 b.1).adj
      simp only [graph.removeEdge, List.mem_filter, Bool.not_eq_true', Bool.or_eq_false_iff,
        decide_eq_false_iff_not, Prod.mk.injEq]
      exact ⟨hpq, k1, k2⟩
    rcases hadj with h3 | h3
    · exact Conn.of_mem (hmem _ _ h3 h1 h2)
    · exact (Conn.of_mem (hmem _ _ h3 (fun k => h2 ⟨k.2, k.1⟩)
        (fun k => h1 ⟨k.2, k.1⟩))).symm_

/-- A spanning tree in the sense of this development is a tree in the sense of
Mathlib's `SimpleGraph.IsTree`: connected and without cycle. -/
theorem SpanningTreeOf.isTree {g t : wgraph Vertex K} (h : SpanningTreeOf g t)
    (hne : g.vs ≠ []) : t.toSimpleGraph.IsTree := by
  have hnonempty : Nonempty {v : Vertex // v ∈ t.vs} := by
    obtain ⟨x, hx⟩ := List.exists_mem_of_ne_nil _ hne
    exact ⟨⟨x, (h.mem_vs_iff x).2 hx⟩⟩
  have hpre : t.toSimpleGraph.Preconnected := fun a b =>
    reachable_of_conn t h.wf (h.connected a.1 b.1 a.2 b.2) a.2 b.2
  have hcon : t.toSimpleGraph.Connected := { preconnected := hpre, nonempty := hnonempty }
  refine ⟨hcon, ?_⟩
  · rw [SimpleGraph.isAcyclic_iff_forall_adj_isBridge]
    intro a b hab
    rw [SimpleGraph.isBridge_iff]
    refine ⟨hab, fun hr => ?_⟩
    have hc := conn_of_reachable_delete t a b hr
    rcases hab.2 with h1 | h1
    · exact h.acyclic a.1 b.1 (by simpa [graph.isEdge] using h1) hc
    · have he : t.isEdge b.1 a.1 = true := by simpa [graph.isEdge] using h1
      apply h.acyclic b.1 a.1 he
      refine Conn.mono (fun p hp => ?_) hc.symm_
      have hp0 : p ∈ (t.tograph.removeEdge a.1 b.1).adj := hp
      show p ∈ (t.tograph.removeEdge b.1 a.1).adj
      simp only [graph.removeEdge, List.mem_filter, Bool.not_eq_true', Bool.or_eq_false_iff,
        decide_eq_false_iff_not] at hp0 ⊢
      exact ⟨hp0.1, hp0.2.2, hp0.2.1⟩

end wgraph

/-! ## Claim on `Kruskal_MST` -/

namespace wgraph

variable {Vertex K : Type} [LinearOrder Vertex] [LinearOrderedAddCommMonoidWithTop K]

/-- C1: on every connected weighted graph (well formed and satisfying the
cost-table invariant, as every graph built through the public mutators is),
`Kruskal_MST` returns a graph that is a spanning tree of the input: it has the
input's vertices, exactly `n - 1` edges, it is connected and has no cycle, its
edges are edges of the input with their costs, and its total edge cost is at most
that of every spanning tree of the input. -/
theorem Kruskal_MST_minimum_spanning_tree (g : wgraph Vertex K) (hwf : g.WF) (hinv : g.Inv)
    (hconn : g.isConnected = true) :
    ∃ t, Kruskal_MST g = .ok t ∧ SpanningTreeOf g t ∧ t.vs = g.vs ∧ t.m + 1 = g.n ∧
      t.isConnected = true ∧ t.toSimpleGraph.IsTree ∧
      ∀ t1, SpanningTreeOf g t1 → t.totalCost ≤ t1.totalCost := by
  obtain ⟨es, _, hE, hok, hb, hst, hK⟩ := Kruskal_MST_eq g hwf hinv hconn
  have hne : g.vs ≠ [] := ((graph.isConnected_iff g.tograph).1 hconn).1
  refine ⟨_, hok, hst, hb.vs_eq, ?_, isConnected_of_spanningTree hst hne, hst.isTree hne, ?_⟩
  · rw [← records_length]
    exact hst.card hwf hne
  · intro t1 ht1
    exact hst.totalCost_le hE hne hK ht1

set_option maxRecDepth 100000 in
/-- Witness of C1 on the scenario of the specification. -/
theorem Kruskal_MST_minimum_spanning_tree_witness :
    ∃ t, Kruskal_MST Examples.scenario = .ok t ∧ SpanningTreeOf Examples.scenario t ∧
      t.vs = Examples.scenario.vs ∧ t.m + 1 = Examples.scenario.n ∧
      t.isConnected = true ∧ t.toSimpleGraph.IsTree ∧
      ∀ t1, SpanningTreeOf Examples.scenario t1 → t.totalCost ≤ t1.totalCost :=
  Kruskal_MST_minimum_spanning_tree Examples.scenario
    (WF_of_reachable _ Examples.scenario_reachable)
    (Inv_of_reachable _ Examples.scenario_reachable) (by decide!)

end wgraph

/-! ## One round of `Boruvka_MST`: the scan -/

section MapMem

variable {κ α : Type}

theorem Map.mem_set [LinearOrder κ] (m : Map κ α) (k : κ) (x : α) (p : κ × α)
    (h : p ∈ Map.set m k x) : p = (k, x) ∨ p ∈ m := by
  induction m with
  | nil =>
    simp only [Map.set, List.mem_singleton] at h
    exact Or.inl h
  | cons q rest ih =>
    obtain ⟨k0, x0⟩ := q
    unfold Map.set at h
    by_cases h1 : k < k0
    · rw [if_pos h1] at h
      rcases List.mem_cons.1 h with e | e
      · exact Or.inl e
      · exact Or.inr e
    · rw [if_neg h1] at h
      by_cases h2 : k0 < k
      · rw [if_pos h2] at h
        rcases List.mem_cons.1 h with e | e
        · exact Or.inr (e ▸ List.mem_cons_self _ _)
        · rcases ih e with e1 | e1
          · exact Or.inl e1
          · exact Or.inr (List.mem_cons_of_mem _ e1)
      · rw [if_neg h2] at h
        rcases List.mem_cons.1 h with e | e
        · exact Or.inl e
        · exact Or.inr (List.mem_cons_of_mem _ e)

theorem Map.mem_of_find [DecidableEq κ] (m : Map κ α) (k : κ) (x : α)
    (h : Map.find m k = some x) : (k, x) ∈ m := by
  induction m with
  | nil => cases h
  | cons q rest ih =>
    obtain ⟨k0, x0⟩ := q
    unfold Map.find at h
    by_cases h1 : k0 = k
    · rw [if_pos h1] at h
      injection h with h2
      rw [h1, h2]
      exact List.mem_cons_self _ _
    · rw [if_neg h1] at h
      exact List.mem_cons_of_mem _ (ih h)

theorem Map.find_of_mem [DecidableEq κ] (m : Map κ α) (p : κ × α) (h : p ∈ m) :
    Map.find m p.1 ≠ none := by
  induction m with
  | nil => cases h
  | cons q rest ih =>
    obtain ⟨k0, x0⟩ := q
    unfold Map.find
    by_cases h1 : k0 = p.1
    · rw [if_pos h1]
      exact Option.some_ne_none _
    · rw [if_neg h1]
      rcases List.mem_cons.1 h with e | e
      · exact absurd (by rw [e]) h1
      · exact ih e

end MapMem

namespace wgraph

variable {Vertex K : Type} [LinearOrder Vertex] [LinearOrderedAddCommMonoidWithTop K]

theorem lightest_update_mem (l : Map Vertex (WEdge Vertex K)) (r : Vertex) (e : WEdge Vertex K)
    (p : Vertex × WEdge Vertex K) (h : p ∈ lightest_update l r e) : p = (r, e) ∨ p ∈ l := by
  unfold lightest_update at h
  cases hf : Map.find l r with
  | none =>
    rw [hf] at h
    exact Map.mem_set l r e p h
  | some x =>
    rw [hf] at h
    by_cases hc : x.c > e.c
    · simp only [hc, if_true] at h
      exact Map.mem_set l r e p h
    · simp only [hc, if_false] at h
      exact Or.inr h

theorem lightest_update_find (l : Map Vertex (WEdge Vertex K)) (r : Vertex)
    (e : WEdge Vertex K) (k : Vertex) (h : Map.find l k ≠ none ∨ k = r) :
    Map.find (lightest_update l r e) k ≠ none := by
  unfold lightest_update
  cases hf : Map.find l r with
  | none =>
    simp only
    rw [Map.find_set_eq]
    by_cases hk : r = k
    · rw [if_pos hk]
      exact Option.some_ne_none _
    · rw [if_neg hk]
      rcases h with h1 | h1
      · exact h1
      · exact absurd h1.symm hk
  | some x =>
    simp only
    by_cases hc : x.c > e.c
    · simp only [hc, if_true]
      rw [Map.find_set_eq]
      by_cases hk : r = k
      · rw [if_pos hk]
        exact Option.some_ne_none _
      · rw [if_neg hk]
        rcases h with h1 | h1
        · exact h1
        · exact absurd h1.symm hk
    · simp only [hc, if_false]
      rcases h with h1 | h1
      · exact h1
      · rw [h1, hf]
        exact Option.some_ne_none _

/-- Entries of `lightest` after one update, when every edge scanned so far is
smaller than the edge `e` being scanned. -/
theorem lightest_update_sound (d : ds Vertex) (S : List (WEdge Vertex K))
    (l : Map Vertex (WEdge Vertex K)) (r : Vertex) (e : WEdge Vertex K)
    (hS : ∀ x ∈ S, x < e) (he : Crosses d e) (hr : Touches d r e)
    (hcomp : ∀ f ∈ S, Crosses d f → ∀ k, Touches d k f → Map.find l k ≠ none)
    (hsound : ∀ p ∈ l, p.2 ∈ S ++ [e] ∧ Crosses d p.2 ∧ Touches d p.1 p.2 ∧
      ∀ f ∈ S ++ [e], Crosses d f → Touches d p.1 f → p.2 ≤ f) :
    ∀ p ∈ lightest_update l r e, p.2 ∈ S ++ [e] ∧ Crosses d p.2 ∧ Touches d p.1 p.2 ∧
      ∀ f ∈ S ++ [e], Crosses d f → Touches d p.1 f → p.2 ≤ f := by
  have hnew : Map.find l r = none → ∀ f ∈ S ++ [e], Crosses d f → Touches d r f → e ≤ f := by
    intro hn f hf hc ht
    rcases List.mem_append.1 hf with h1 | h1
    · exact absurd hn (hcomp f h1 hc r ht)
    · rw [List.mem_singleton] at h1
      rw [h1]
  intro p hp
  unfold lightest_update at hp
  cases hf : Map.find l r with
  | none =>
    rw [hf] at hp
    rcases Map.mem_set l r e p hp with h1 | h1
    · rw [h1]
      exact ⟨by simp, he, hr, hnew hf⟩
    · exact hsound p h1
  | some x =>
    rw [hf] at hp
    have hx := hsound (r, x) (Map.mem_of_find l r x hf)
    have hle : x.c ≤ e.c := by
      rcases List.mem_append.1 hx.1 with h1 | h1
      · exact WEdge.cost_le_of_lt (hS x h1)
      · rw [List.mem_singleton] at h1
        simp only at h1
        rw [h1]
    have hc : ¬ x.c > e.c := not_lt.2 hle
    simp only [hc, if_false] at hp
    exact hsound p hp

theorem lightest_scan_spec (d : ds Vertex) (l2 l1 : List (WEdge Vertex K))
    (l : Map Vertex (WEdge Vertex K)) (hs : (l1 ++ l2).Pairwise (fun a b => a < b))
    (h : LightestOf d l1 l) : LightestOf d (l1 ++ l2) (lightest_scan d l2 l) := by
  induction l2 generalizing l1 l with
  | nil => simpa [lightest_scan] using h
  | cons e l2 ih =>
    have hs1 : ((l1 ++ [e]) ++ l2).Pairwise (fun a b => a < b) := by
      simpa using hs
    have hlt : ∀ x ∈ l1, x < e := by
      intro x hx
      exact (List.pairwise_append.1 hs).2.2 x hx e (List.mem_cons_self e l2)
    have hgoal : ∀ l3, LightestOf d (l1 ++ [e]) l3 →
        LightestOf d (l1 ++ e :: l2) (lightest_scan d l2 l3) := by
      intro l3 h3
      have := ih (l1 ++ [e]) l3 hs1 h3
      simpa using this
    unfold lightest_scan
    by_cases hc : d.find_set e.v ≠ d.find_set e.w
    · rw [if_pos hc]
      apply hgoal
      have hcr : Crosses d e := hc
      have h0 : ∀ p ∈ l, p.2 ∈ l1 ++ [e] ∧ Crosses d p.2 ∧ Touches d p.1 p.2 ∧
          ∀ f ∈ l1 ++ [e], Crosses d f → Touches d p.1 f → p.2 ≤ f := by
        intro p hp
        obtain ⟨a1, a2, a3, a4⟩ := h.sound p hp
        refine ⟨List.mem_append_left _ a1, a2, a3, fun f hf hcf htf => ?_⟩
        rcases List.mem_append.1 hf with h1 | h1
        · exact a4 f h1 hcf htf
        · rw [List.mem_singleton] at h1
          rw [h1]
          exact le_of_lt (hlt _ a1)
      have h1 := lightest_update_sound d l1 l (d.root_key e.v) e hlt hcr (Or.inl rfl)
        h.complete h0
      have hcomp1 : ∀ f ∈ l1, Crosses d f → ∀ k, Touches d k f →
          Map.find (lightest_update l (d.root_key e.v) e) k ≠ none :=
        fun f hf hcf k hk => lightest_update_find _ _ _ _ (Or.inl (h.complete f hf hcf k hk))
      have h2 := lightest_update_sound d l1 _ (d.root_key e.w) e hlt hcr (Or.inr rfl)
        hcomp1 h1
      refine ⟨h2, fun f hf hcf k hk => ?_⟩
      rcases List.mem_append.1 hf with h3 | h3
      · exact lightest_update_find _ _ _ _ (Or.inl (hcomp1 f h3 hcf k hk))
      · rw [List.mem_singleton] at h3
        rw [h3] at hk
        rcases hk with h4 | h4
        · exact lightest_update_find _ _ _ _
            (Or.inl (lightest_update_find _ _ _ _ (Or.inr h4.symm)))
        · exact lightest_update_find _ _ _ _ (Or.inr h4.symm)
    · rw [if_neg hc]
      apply hgoal
      have hnc : ¬ Crosses d e := hc
      refine ⟨fun p hp => ?_, fun f hf hcf k hk => ?_⟩
      · obtain ⟨a1, a2, a3, a4⟩ := h.sound p hp
        refine ⟨List.mem_append_left _ a1, a2, a3, fun f hf hcf htf => ?_⟩
        rcases List.mem_append.1 hf with h1 | h1
        · exact a4 f h1 hcf htf
        · rw [List.mem_singleton] at h1
          rw [h1] at hcf
          exact absurd hcf hnc
      · rcases List.mem_append.1 hf with h1 | h1
        · exact h.complete f h1 hcf k hk
        · rw [List.mem_singleton] at h1
          rw [h1] at hcf
          exact absurd hcf hnc

theorem lightest_scan_nil (d : ds Vertex) (es : List (WEdge Vertex K))
    (hs : es.Pairwise (fun a b => a < b)) : LightestOf d es (lightest_scan d es []) := by
  have h0 : LightestOf d ([] : List (WEdge Vertex K)) [] :=
    ⟨fun p hp => (by cases hp), fun f hf => (by cases hf)⟩
  simpa using lightest_scan_spec d es [] [] (by simpa using hs) h0

end wgraph

/-! ## One round of `Boruvka_MST`: the merge, and the loop -/

namespace wgraph

variable {Vertex K : Type} [LinearOrder Vertex] [LinearOrderedAddCommMonoidWithTop K]

omit [LinearOrderedAddCommMonoidWithTop K] in
theorem Boruvka_merge_eq (ps : List (Vertex × WEdge Vertex K)) (t : wgraph Vertex K)
    (d : ds Vertex) :
    Boruvka_merge ps (t, d) =
      (addAll (ps.map Prod.snd) t, runDs WEdge.ends d (ps.map Prod.snd)) := by
  induction ps generalizing t d with
  | nil => rfl
  | cons p ps ih =>
    simp only [Boruvka_merge, List.map_cons, runDs, WEdge.ends]
    rw [ih]
    rfl

omit [LinearOrderedAddCommMonoidWithTop K] in
theorem Built.conn_adj_iff {X : List Vertex} {F : List (WEdge Vertex K)} {t : wgraph Vertex K}
    (hb : Built X F t) (a b : Vertex) : Conn t.adj a b ↔ Conn (F.map WEdge.ends) a b := by
  constructor
  · refine Conn.lift (fun p hp => ?_)
    obtain ⟨e, he, hm⟩ := (hb.adj_iff p.1 p.2).1 hp
    have hmem : e.ends ∈ F.map WEdge.ends := List.mem_map_of_mem _ he
    rcases hm with ⟨h1, h2⟩ | ⟨h1, h2⟩
    · have : e.ends = (p.1, p.2) := by simp [WEdge.ends, h1, h2]
      rw [this] at hmem
      exact Conn.of_mem hmem
    · have : e.ends = (p.2, p.1) := by simp [WEdge.ends, h1, h2]
      rw [this] at hmem
      exact (Conn.of_mem hmem).symm_
  · refine Conn.mono (fun p hp => ?_)
    obtain ⟨e, he, rfl⟩ := List.mem_map.1 hp
    exact (hb.adj_iff e.v e.w).2 ⟨e, he, Or.inl ⟨rfl, rfl⟩⟩

omit [LinearOrder Vertex] in
theorem Agree.of_conn_iff {d : ds Vertex} {L L1 : List (Vertex × Vertex)} (h : Agree d L)
    (h1 : ∀ a b, Conn L a b ↔ Conn L1 a b) : Agree d L1 :=
  fun a b => (h a b).trans (h1 a b)

omit [LinearOrderedAddCommMonoidWithTop K] in
theorem Built.ncc_eq_nlabels {X : List Vertex} {F : List (WEdge Vertex K)} {t : wgraph Vertex K}
    (hb : Built X F t) (d : ds Vertex) (hd : Agree d (F.map WEdge.ends)) :
    t.ncc = nlabels X d.rep := by
  have := graph.ncc_eq t.tograph d (Agree.of_conn_iff hd (fun a b => (hb.conn_adj_iff a b).symm))
  rw [this, hb.vs_eq]

variable {g : wgraph Vertex K} {es : List (WEdge Vertex K)}

/-- Cut property at work: the edge that a component selects is one of the edges
Kruskal accepts. -/
theorem LightestOf.mem_kruskalEdges (hE : EdgesOf g es) {d : ds Vertex}
    {l : Map Vertex (WEdge Vertex K)} (hl : LightestOf d es l)
    (p : Vertex × WEdge Vertex K) (hp : p ∈ l) : p.2 ∈ kruskalEdges es := by
  obtain ⟨h1, h2, h3, h4⟩ := hl.sound p hp
  refine (hE.mem_kruskalEdges_iff p.2).2 ⟨h1, fun hc => ?_⟩
  have hcut : ¬ (d.rep p.2.v = p.1 ↔ d.rep p.2.w = p.1) := by
    intro hiff
    rcases h3 with h5 | h5
    · exact h2 (h5.trans (hiff.1 h5).symm)
    · exact h2 ((hiff.2 h5).trans h5.symm)
  apply hcut
  refine Conn.cut _ (fun x => d.rep x = p.1) (fun q hq => ?_) hc
  obtain ⟨f, hf, rfl⟩ := List.mem_map.1 hq
  obtain ⟨hf1, hf2⟩ := List.mem_filter.1 hf
  have hlt : f < p.2 := by simpa using hf2
  by_contra hn
  have hcr : Crosses d f := by
    intro e
    apply hn
    simp only [WEdge.ends]
    rw [e]
  have hto : Touches d p.1 f := by
    by_contra hnt
    apply hn
    simp only [WEdge.ends]
    constructor
    · intro e
      exact absurd (Or.inl e) hnt
    · intro e
      exact absurd (Or.inr e) hnt
  exact lt_irrefl _ (lt_of_lt_of_le hlt (h4 f hf1 hcr hto))

theorem EdgesOf.exists_crossing (hE : EdgesOf g es)
    (hconn : ∀ a ∈ g.vs, ∀ b ∈ g.vs, Conn g.adj a b) (d : ds Vertex) (a b : Vertex)
    (ha : a ∈ g.vs) (hb : b ∈ g.vs) (hab : d.rep a ≠ d.rep b) :
    ∃ f ∈ es, Crosses d f := by
  by_contra hn
  apply hab
  have hc := (hE.conn_iff a b).2 (hconn a ha b hb)
  have := Conn.cut _ (fun x => d.rep x = d.rep a) (fun q hq => ?_) hc
  · exact (this.1 rfl).symm
  · obtain ⟨f, hf, rfl⟩ := List.mem_map.1 hq
    have : d.rep f.v = d.rep f.w := by
      by_contra hne
      exact hn ⟨f, hf, hne⟩
    simp only [WEdge.ends]
    rw [this]

/-- One round of the while loop of `Boruvka_MST` keeps the result graph built from
accepted edges and lowers the number of components. -/
theorem Boruvka_round (hE : EdgesOf g es)
    (hconn : ∀ a ∈ g.vs, ∀ b ∈ g.vs, Conn g.adj a b)
    {F : List (WEdge Vertex K)} {ans : wgraph Vertex K} {d : ds Vertex}
    (hb : Built g.vs F ans) (hd : Agree d (F.map WEdge.ends))
    (hF : ∀ e ∈ F, e ∈ kruskalEdges es) (hncc : ans.ncc > 1) :
    ∃ F1, Built g.vs F1 (Boruvka_merge (lightest_scan d es []) (ans, d)).1 ∧
      Agree (Boruvka_merge (lightest_scan d es []) (ans, d)).2 (F1.map WEdge.ends) ∧
      (∀ e ∈ F1, e ∈ kruskalEdges es) ∧
      (Boruvka_merge (lightest_scan d es []) (ans, d)).1.ncc < ans.ncc := by
  have hl := lightest_scan_nil d es hE.sorted
  have hS : ∀ e ∈ (lightest_scan d es []).map Prod.snd, e ∈ kruskalEdges es := by
    intro e he
    obtain ⟨p, hp, rfl⟩ := List.mem_map.1 he
    exact hl.mem_kruskalEdges hE p hp
  have hSes : ∀ e ∈ (lightest_scan d es []).map Prod.snd, e ∈ es :=
    fun e he => (kruskalEdges_sublist es).subset (hS e he)
  rw [Boruvka_merge_eq]
  have hb1 := hb.addAll ((lightest_scan d es []).map Prod.snd)
    (fun e he => hE.mem_vs (hSes e he))
  have hd1 : Agree (runDs WEdge.ends d ((lightest_scan d es []).map Prod.snd))
      ((F ++ (lightest_scan d es []).map Prod.snd).map WEdge.ends) :=
    (runDs_agree WEdge.ends hd _).congr (fun p => by
      simp only [List.mem_append, List.mem_reverse, List.map_append]
      exact or_comm)
  refine ⟨F ++ (lightest_scan d es []).map Prod.snd, hb1, hd1, ?_, ?_⟩
  · intro e he
    rcases List.mem_append.1 he with h1 | h1
    · exact hF e h1
    · exact hS e h1
  · show (addAll ((lightest_scan d es []).map Prod.snd) ans).ncc < ans.ncc
    rw [hb1.ncc_eq_nlabels _ hd1, hb.ncc_eq_nlabels d hd]
    rw [hb.ncc_eq_nlabels d hd] at hncc
    have hne : g.vs ≠ [] := by
      intro e
      rw [e, nlabels_nil] at hncc
      omega
    -- two vertices in different components, hence a crossing edge
    have hex : ∃ a ∈ g.vs, ∃ b ∈ g.vs, d.rep a ≠ d.rep b := by
      by_contra hn
      have : nlabels g.vs d.rep = 1 := by
        rw [nlabels_eq_one_iff _ _ hne]
        intro a ha b hb2
        by_contra hne1
        exact hn ⟨a, ha, b, hb2, hne1⟩
      omega
    obtain ⟨a, ha, b, hb2, hab⟩ := hex
    obtain ⟨f, hf, hcf⟩ := hE.exists_crossing hconn d a b ha hb2 hab
    have hkey := hl.complete f hf hcf (d.rep f.v) (Or.inl rfl)
    have hcount := accepted_count WEdge.ends g.vs d ((lightest_scan d es []).map Prod.snd)
      (fun e he => hE.mem_vs (hSes e he))
    cases hls : lightest_scan d es [] with
    | nil =>
      rw [hls] at hkey
      exact absurd rfl hkey
    | cons p rest =>
      rw [hls] at hcount
      have hp := (hl.sound p (by rw [hls]; exact List.mem_cons_self _ _)).2.1
      have hp1 : ¬ d.rep (WEdge.ends p.2).1 = d.rep (WEdge.ends p.2).2 := hp
      simp only [List.map_cons, accepted, if_neg hp1, List.length_cons] at hcount
      simp only [List.map_cons]
      omega

/-- The while loop of `Boruvka_MST` ends, with enough fuel, in a result graph
built from accepted edges that has at most one component. -/
theorem Boruvka_while_spec (hE : EdgesOf g es) (hEok : g.E = .ok es)
    (hconn : ∀ a ∈ g.vs, ∀ b ∈ g.vs, Conn g.adj a b) (fuel : Nat)
    {F : List (WEdge Vertex K)} {ans : wgraph Vertex K} {d : ds Vertex}
    (hb : Built g.vs F ans) (hd : Agree d (F.map WEdge.ends))
    (hF : ∀ e ∈ F, e ∈ kruskalEdges es) (hfuel : ans.ncc ≤ fuel + 1) :
    ∃ t F1, Boruvka_while g fuel (ans, d) = .ok t ∧ Built g.vs F1 t ∧
      (∀ e ∈ F1, e ∈ kruskalEdges es) ∧ t.ncc ≤ 1 := by
  induction fuel generalizing F ans d with
  | zero =>
    have hn : ¬ ans.ncc > 1 := by omega
    refine ⟨ans, F, ?_, hb, hF, by omega⟩
    rw [Boruvka_while, if_neg hn]
  | succ fuel ih =>
    by_cases hn : ans.ncc > 1
    · obtain ⟨F1, h1, h2, h3, h4⟩ := Boruvka_round hE hconn hb hd hF hn
      obtain ⟨t, F2, k1, k2, k3, k4⟩ := ih h1 h2 h3 (by omega)
      refine ⟨t, F2, ?_, k2, k3, k4⟩
      rw [Boruvka_while, if_pos hn]
      simp only [hEok]
      exact k1
    · refine ⟨ans, F, ?_, hb, hF, by omega⟩
      rw [Boruvka_while, if_neg hn]

end wgraph

/-! ## Claim on `Boruvka_MST` -/

namespace wgraph

variable {Vertex K : Type} [LinearOrder Vertex] [LinearOrderedAddCommMonoidWithTop K]

/-- More fuel does not change what the while loop of `Boruvka_MST` returns. -/
theorem Boruvka_while_mono (g : wgraph Vertex K) (fuel k : Nat)
    (st : wgraph Vertex K × ds Vertex) (t : wgraph Vertex K)
    (h : Boruvka_while g fuel st = .ok t) : Boruvka_while g (fuel + k) st = .ok t := by
  induction fuel generalizing st with
  | zero =>
    obtain ⟨ans, d⟩ := st
    rw [Boruvka_while] at h
    rw [Nat.zero_add, Boruvka_while.eq_def]
    by_cases hn : ans.ncc > 1
    · rw [if_pos hn] at h
      cases h
    · rw [if_neg hn] at h
      simp only [if_neg hn]
      exact h
  | succ fuel ih =>
    obtain ⟨ans, d⟩ := st
    have e : fuel + 1 + k = (fuel + k) + 1 := by omega
    rw [Boruvka_while] at h
    rw [e, Boruvka_while]
    by_cases hn : ans.ncc > 1
    · rw [if_pos hn] at h ⊢
      cases hE : g.E with
      | error f =>
        rw [hE] at h
        cases h
      | ok es =>
        rw [hE] at h
        exact ih _ h
    · rw [if_neg hn] at h ⊢
      exact h

/-- What `Boruvka_MST` returns on a connected well-formed graph, given fuel for
at least `n` rounds: one and the same spanning tree of the input, whose edges are
edges that Kruskal accepts. -/
theorem Boruvka_MST_eq (g : wgraph Vertex K) (hwf : g.WF) (hinv : g.Inv)
    (hconn : g.isConnected = true) :
    ∃ es t, g.E = .ok es ∧ EdgesOf g es ∧
      (∀ fuel, g.n ≤ fuel → Boruvka_MST fuel g = .ok t) ∧ t.vs = g.vs ∧
      SpanningTreeOf g t ∧ ∀ v w, t.isEdge v w = true →
        ∃ e ∈ kruskalEdges es, (e.v = v ∧ e.w = w) ∨ (e.v = w ∧ e.w = v) := by
  obtain ⟨es, hEok, hE⟩ := EdgesOf.of_E g hwf hinv
  obtain ⟨hne, hc⟩ := (graph.isConnected_iff g.tograph).1 hconn
  have hb0 : Built g.vs ([] : List (WEdge Vertex K)) ⟨⟨g.vs, []⟩, []⟩ :=
    Built.init g.vs hwf.nodup_vs
  have hd0 : Agree (ds.empty : ds Vertex) (([] : List (WEdge Vertex K)).map WEdge.ends) :=
    Agree.empty
  have hn0 : (⟨⟨g.vs, []⟩, []⟩ : wgraph Vertex K).ncc ≤ g.n + 1 := by
    rw [hb0.ncc_eq_nlabels ds.empty hd0]
    have := nlabels_le_length g.vs (ds.empty : ds Vertex).rep
    have h1 : g.vs.length = g.n := rfl
    omega
  obtain ⟨t, F, h1, h2, h3, h4⟩ := Boruvka_while_spec hE hEok hc g.n hb0 hd0
    (fun e he => by cases he) hn0
  have hd : Agree (runDs WEdge.ends ds.empty F) (F.map WEdge.ends) :=
    runDs_agree_nil WEdge.ends F
  have hct : ∀ a ∈ g.vs, ∀ b ∈ g.vs, Conn t.adj a b := by
    have h5 : nlabels g.vs (runDs WEdge.ends ds.empty F).rep = 1 := by
      have h6 := h2.ncc_eq_nlabels _ hd
      have h7 := nlabels_pos g.vs (runDs WEdge.ends ds.empty F).rep hne
      omega
    intro a ha b hb
    rw [h2.conn_adj_iff, ← hd a b]
    exact (nlabels_eq_one_iff _ _ hne).1 h5 a ha b hb
  obtain ⟨hst, hK⟩ := h2.spanningTree hE h3 hct
  refine ⟨es, t, hEok, hE, ?_, h2.vs_eq, hst, hK⟩
  intro fuel hfuel
  obtain ⟨k, rfl⟩ := Nat.exists_eq_add_of_le hfuel
  unfold Boruvka_MST
  rw [if_pos hconn, MST_init_eq g hwf]
  exact Boruvka_while_mono g g.n k _ t h1

/-- On every connected input `Kruskal_MST` and `Boruvka_MST` return graphs of the
same total edge cost. -/
theorem Kruskal_Boruvka_totalCost_eq (g : wgraph Vertex K) (hwf : g.WF) (hinv : g.Inv)
    (hconn : g.isConnected = true) :
    ∃ t1 t2, Kruskal_MST g = .ok t1 ∧ (∀ fuel, g.n ≤ fuel → Boruvka_MST fuel g = .ok t2) ∧
      t1.totalCost = t2.totalCost := by
  obtain ⟨es, h0, hE, hok, _, hst, hK⟩ := Kruskal_MST_eq g hwf hinv hconn
  obtain ⟨es2, t2, k0, _, kok, _, kst, kK⟩ := Boruvka_MST_eq g hwf hinv hconn
  have hne : g.vs ≠ [] := ((graph.isConnected_iff g.tograph).1 hconn).1
  have hes : es2 = es := by
    rw [h0] at k0
    injection k0 with k1
    exact k1.symm
  subst hes
  exact ⟨_, t2, hok, kok, le_antisymm (hst.totalCost_le hE hne hK kst)
    (kst.totalCost_le hE hne kK hst)⟩

set_option maxRecDepth 100000 in
/-- Witness of the equality of the total costs of `Kruskal_MST` and `Boruvka_MST`,
on the triangle whose three edges have the same cost. -/
theorem Kruskal_Boruvka_totalCost_eq_witness :
    ∃ t1 t2, Kruskal_MST Examples.triangle = .ok t1 ∧
      (∀ fuel, Examples.triangle.n ≤ fuel → Boruvka_MST fuel Examples.triangle = .ok t2) ∧
      t1.totalCost = t2.totalCost :=
  Kruskal_Boruvka_totalCost_eq Examples.triangle
    (WF_of_reachable _ Examples.triangle_reachable)
    (Inv_of_reachable _ Examples.triangle_reachable) (by decide!)

/-- C2: on every connected weighted graph (well formed and satisfying the
cost-table invariant), whether or not several edges have equal cost,
`Boruvka_MST` returns, whenever its while loop is given fuel for at least `n`
rounds, one and the same graph, and that graph is a spanning tree of the input:
it has the input's vertices, exactly `n - 1` edges, it is connected and has no
cycle (so no `ans.addEdge(e)` ever closed one), its edges are edges of the input
with their costs, and its total edge cost is at most that of every spanning tree
of the input. -/
theorem Boruvka_MST_minimum_spanning_tree (g : wgraph Vertex K) (hwf : g.WF) (hinv : g.Inv)
    (hconn : g.isConnected = true) :
    ∃ t, (∀ fuel, g.n ≤ fuel → Boruvka_MST fuel g = .ok t) ∧ SpanningTreeOf g t ∧
      t.vs = g.vs ∧ t.m + 1 = g.n ∧ t.isConnected = true ∧ t.toSimpleGraph.IsTree ∧
      ∀ t1, SpanningTreeOf g t1 → t.totalCost ≤ t1.totalCost := by
  obtain ⟨es, t, _, hE, hok, hvs, hst, hK⟩ := Boruvka_MST_eq g hwf hinv hconn
  have hne : g.vs ≠ [] := ((graph.isConnected_iff g.tograph).1 hconn).1
  refine ⟨t, hok, hst, hvs, ?_, isConnected_of_spanningTree hst hne, hst.isTree hne, ?_⟩
  · rw [← records_length]
    exact hst.card hwf hne
  · intro t1 ht1
    exact hst.totalCost_le hE hne hK ht1

set_option maxRecDepth 100000 in
/-- Witness of C2 on the triangle whose three edges have the same cost. -/
theorem Boruvka_MST_minimum_spanning_tree_witness :
    ∃ t, (∀ fuel, Examples.triangle.n ≤ fuel → Boruvka_MST fuel Examples.triangle = .ok t) ∧
      SpanningTreeOf Examples.triangle t ∧
      t.vs = Examples.triangle.vs ∧ t.m + 1 = Examples.triangle.n ∧
      t.isConnected = true ∧ t.toSimpleGraph.IsTree ∧
      ∀ t1, SpanningTreeOf Examples.triangle t1 → t.totalCost ≤ t1.totalCost :=
  Boruvka_MST_minimum_spanning_tree Examples.triangle
    (WF_of_reachable _ Examples.triangle_reachable)
    (Inv_of_reachable _ Examples.triangle_reachable) (by decide!)

end wgraph

/-! ## Claim on `cost` -/

namespace wgraph

variable {Vertex K : Type} [LinearOrder Vertex]

/-- C11, as stated, fails: `1` and `2` are vertices of `twoVertices` and the edge
`(1,2)` does not exist, yet `cost(1, 2)` does not end in a failed assertion: the
assertion on the endpoints passes and `_c.at` throws `std::out_of_range`. -/
theorem cost_absent_edge_is_out_of_range :
    Examples.twoVertices.isVertex 1 = true ∧ Examples.twoVertices.isVertex 2 = true ∧
    Examples.twoVertices.isEdge 1 2 = false ∧
    Examples.twoVertices.cost 1 2 = .error .out_of_range ∧
    Examples.twoVertices.cost 1 2 ≠ .error .assertion := by
  have h : Examples.twoVertices.cost 1 2 = .error .out_of_range := rfl
  refine ⟨by decide, by decide, by decide, h, ?_⟩
  rw [h]
  intro h1
  cases h1

/-- C11, amended: `cost(v, w)` returns the recorded cost when `v` and `w` are both
vertices and the cost table has the entry `(v,w)`, as it has for every existing
edge under the cost-table invariant; it fails with a fatal assertion when `v` or
`w` is not a vertex; and when both are vertices but the entry `(v,w)` is missing,
which in a reachable state is exactly when the edge `(v,w)` does not exist, it
fails with the exception `std::out_of_range` of `_c.at`, not with an assertion. -/
theorem cost_outcomes (g : wgraph Vertex K) (v w : Vertex) :
    (∀ c, g.isVertex v = true → g.isVertex w = true → Map.find g._c ⟨v, w⟩ = some c →
      g.cost v w = .ok c) ∧
    (g.isVertex v = false ∨ g.isVertex w = false → g.cost v w = .error .assertion) ∧
    (g.isVertex v = true → g.isVertex w = true → Map.count g._c ⟨v, w⟩ = 0 →
      g.cost v w = .error .out_of_range) ∧
    (g.Inv → g.isVertex v = true → g.isVertex w = true → g.isEdge v w = true →
      ∃ c, Map.find g._c ⟨v, w⟩ = some c ∧ g.cost v w = .ok c ∧ g.cost w v = .ok c) ∧
    (g.Reachable → g.isVertex v = true → g.isVertex w = true → g.isEdge v w = false →
      g.cost v w = .error .out_of_range) := by
  have hmiss : g.isVertex v = true → g.isVertex w = true → Map.count g._c ⟨v, w⟩ = 0 →
      g.cost v w = .error .out_of_range := by
    intro hv hw hc
    have hf : Map.find g._c ⟨v, w⟩ = none := by
      cases hfind : Map.find g._c ⟨v, w⟩ with
      | none => rfl
      | some x =>
        exact absurd hc ((Map.count_ne_zero _ _).2 ⟨x, hfind⟩)
    simp only [cost, hv, hw, hf, Bool.and_self, if_true]
  refine ⟨?_, ?_, hmiss, ?_, ?_⟩
  · intro c hv hw hf
    simp only [cost, hv, hw, hf, Bool.and_self, if_true]
  · rintro (h | h)
    · simp [cost, h]
    · simp [cost, h]
  · intro hinv hv hw he
    have hadj : (v, w) ∈ g.adj := by simpa [graph.isEdge] using he
    obtain ⟨c, h1, h2⟩ := find_of_edge g hinv v w hadj
    refine ⟨c, h1, ?_, ?_⟩
    · simp only [cost, hv, hw, h1, Bool.and_self, if_true]
    · simp only [cost, hv, hw, h2, Bool.and_self, if_true]
  · intro hr hv hw he
    refine hmiss hv hw ?_
    by_contra hc
    have := NoStray_of_reachable g hr v w hc
    rw [he] at this
    cases this

end wgraph

/-! ## Claim on `E()` -/

namespace wgraph

variable {Vertex K : Type} [LinearOrder Vertex] [LinearOrder K]

/-- C12: on a well-formed graph satisfying the cost-table invariant `E()` returns a
set, listed in strictly ascending order, in which every record `(v, w, c)` is an
edge `(v, w)` of the graph with `c` its stored cost (so there is no record for a
pair that is not an edge), and which holds for each undirected edge `{v, w}`
exactly one record, in one of the two directions, not one per direction. -/
theorem E_one_record_per_edge (g : wgraph Vertex K) (hwf : g.WF) (hinv : g.Inv) :
    ∃ es, g.E = .ok es ∧ es.Pairwise (fun a b => a < b) ∧
      (∀ r ∈ es, g.isEdge r.v r.w = true ∧ g.cost r.v r.w = .ok r.c ∧
        g.cost r.w r.v = .ok r.c) ∧
      (∀ v w, g.isEdge v w = true →
        (es.filter
          (fun r => decide ((r.v = v ∧ r.w = w) ∨ (r.v = w ∧ r.w = v)))).length = 1) := by
  obtain ⟨es, hEok, hE⟩ := EdgesOf.of_E g hwf hinv
  refine ⟨es, hEok, hE.sorted, fun r hr => ?_, fun v w he => ?_⟩
  · have h1 := hE.find_of_match hr (Or.inl ⟨rfl, rfl⟩)
    have h2 := hE.find_of_match hr (Or.inr ⟨rfl, rfl⟩)
    have hv := hE.mem_vs hr
    exact ⟨by simpa [graph.isEdge] using h1.1,
      (cost_eq_ok_iff g r.v r.w r.c).2 ⟨hv.1, hv.2, h1.2⟩,
      (cost_eq_ok_iff g r.w r.v r.c).2 ⟨hv.2, hv.1, h2.2⟩⟩
  · have hadj : (v, w) ∈ g.adj := by simpa [graph.isEdge] using he
    obtain ⟨r, hr, hm⟩ := hE.complete v w hadj
    have hnd : (es.filter
        (fun r => decide ((r.v = v ∧ r.w = w) ∨ (r.v = w ∧ r.w = v)))).Nodup :=
      hE.nodup.filter _
    have hall : ∀ x ∈ es.filter
        (fun r => decide ((r.v = v ∧ r.w = w) ∨ (r.v = w ∧ r.w = v))), x = r := by
      intro x hx
      obtain ⟨hx1, hx2⟩ := List.mem_filter.1 hx
      rw [decide_eq_true_eq] at hx2
      refine hE.unique hx1 hr ?_
      rcases hx2 with ⟨a1, a2⟩ | ⟨a1, a2⟩ <;> rcases hm with ⟨b1, b2⟩ | ⟨b1, b2⟩
      · exact Or.inl ⟨a1.trans b1.symm, a2.trans b2.symm⟩
      · exact Or.inr ⟨a1.trans b2.symm, a2.trans b1.symm⟩
      · exact Or.inr ⟨a1.trans b2.symm, a2.trans b1.symm⟩
      · exact Or.inl ⟨a1.trans b1.symm, a2.trans b2.symm⟩
    have hmem : r ∈ es.filter
        (fun r => decide ((r.v = v ∧ r.w = w) ∨ (r.v = w ∧ r.w = v))) :=
      List.mem_filter.2 ⟨hr, by rw [decide_eq_true_eq]; exact hm⟩
    cases hL : es.filter
        (fun r => decide ((r.v = v ∧ r.w = w) ∨ (r.v = w ∧ r.w = v))) with
    | nil =>
      rw [hL] at hmem
      cases hmem
    | cons a t =>
      cases t with
      | nil => rfl
      | cons b t1 =>
        exfalso
        rw [hL] at hnd hall
        have ha := hall a (List.mem_cons_self _ _)
        have hb := hall b (List.mem_cons_of_mem _ (List.mem_cons_self _ _))
        rw [ha, hb] at hnd
        exact (List.nodup_cons.1 hnd).1 (List.mem_cons_self _ _)

set_option maxRecDepth 100000 in
/-- Witness of C12 on the scenario of the specification, whose five edges give
five records, and on the graph with the single edge `(1,2)` of cost 5, which gives
the single record `(1,2,5)`. -/
theorem E_one_record_per_edge_witness :
    (Examples.oneEdge.E = .ok [⟨1, 2, 5⟩] ∧
      Examples.scenario.E =
        .ok [⟨1, 2, 1⟩, ⟨3, 4, 1⟩, ⟨2, 3, 2⟩, ⟨1, 3, 3⟩, ⟨1, 4, 4⟩]) ∧
    ∃ es, Examples.scenario.E = .ok es ∧ es.Pairwise (fun a b => a < b) ∧
      (∀ r ∈ es, Examples.scenario.isEdge r.v r.w = true ∧
        Examples.scenario.cost r.v r.w = .ok r.c ∧ Examples.scenario.cost r.w r.v = .ok r.c) ∧
      (∀ v w, Examples.scenario.isEdge v w = true →
        (es.filter
          (fun r => decide ((r.v = v ∧ r.w = w) ∨ (r.v = w ∧ r.w = v)))).length = 1) :=
  ⟨⟨rfl, rfl⟩,
    E_one_record_per_edge Examples.scenario
      (WF_of_reachable _ Examples.scenario_reachable)
      (Inv_of_reachable _ Examples.scenario_reachable)⟩

end wgraph

/-! ## Claim on the connectivity assertion of `Kruskal_MST` and `Boruvka_MST` -/

namespace wgraph

variable {Vertex K : Type} [LinearOrder Vertex] [LinearOrderedAddCommMonoidWithTop K]

theorem Boruvka_while_ne_assertion (g : wgraph Vertex K) (es : List (WEdge Vertex K))
    (hE : g.E = .ok es) (fuel : Nat) (st : wgraph Vertex K × ds Vertex) :
    Boruvka_while g fuel st ≠ .error .assertion := by
  induction fuel generalizing st with
  | zero =>
    rw [Boruvka_while.eq_def]
    by_cases hn : st.1.ncc > 1
    · simp only [if_pos hn]
      intro h
      cases h
    · simp only [if_neg hn]
      intro h
      cases h
  | succ k ih =>
    rw [Boruvka_while.eq_def]
    by_cases hn : st.1.ncc > 1
    · simp only [if_pos hn, hE]
      exact ih _
    · simp only [if_neg hn]
      intro h
      cases h

/-- C13: on a well-formed graph satisfying the cost-table invariant, `Kruskal_MST`
ends in a failed assertion exactly when the graph is not connected, and so does
`Boruvka_MST`, whatever the bound on its rounds; the assertion is the first
statement, so nothing is built before it fails; and on a connected graph both
methods return a graph (`Boruvka_MST` within `n` rounds). -/
theorem MST_assertion_iff_not_connected (g : wgraph Vertex K) (hwf : g.WF) (hinv : g.Inv) :
    (Kruskal_MST g = .error .assertion ↔ g.isConnected = false) ∧
    (∀ fuel, Boruvka_MST fuel g = .error .assertion ↔ g.isConnected = false) ∧
    (g.isConnected = true →
      (∃ t, Kruskal_MST g = .ok t) ∧ ∃ t, ∀ fuel, g.n ≤ fuel → Boruvka_MST fuel g = .ok t) := by
  obtain ⟨es, hE, -⟩ := EdgesOf.of_E g hwf hinv
  refine ⟨?_, ?_, ?_⟩
  · constructor
    · intro h
      by_contra hc
      have hc1 : g.isConnected = true := by simpa using hc
      obtain ⟨_, _, _, hk, _⟩ := Kruskal_MST_eq g hwf hinv hc1
      rw [hk] at h
      cases h
    · intro h
      simp [Kruskal_MST, h]
  · intro fuel
    constructor
    · intro h
      by_contra hc
      have hc1 : g.isConnected = true := by simpa using hc
      simp only [Boruvka_MST, hc1, if_true] at h
      exact Boruvka_while_ne_assertion g es hE fuel _ h
    · intro h
      simp [Boruvka_MST, h]
  · intro hc
    obtain ⟨_, _, _, hk, _⟩ := Kruskal_MST_eq g hwf hinv hc
    obtain ⟨_, t, _, _, hb, _⟩ := Boruvka_MST_eq g hwf hinv hc
    exact ⟨⟨_, hk⟩, t, hb⟩

set_option maxRecDepth 100000 in
/-- Witness of C13 on two vertices without an edge, a graph that is not
connected. -/
theorem MST_assertion_iff_not_connected_witness :
    Examples.twoVertices.isConnected = false ∧
    (Kruskal_MST Examples.twoVertices = .error .assertion ↔
      Examples.twoVertices.isConnected = false) ∧
    (∀ fuel, Boruvka_MST fuel Examples.twoVertices = .error .assertion ↔
      Examples.twoVertices.isConnected = false) ∧
    (Examples.twoVertices.isConnected = true →
      (∃ t, Kruskal_MST Examples.twoVertices = .ok t) ∧
        ∃ t, ∀ fuel, Examples.twoVertices.n ≤ fuel →
          Boruvka_MST fuel Examples.twoVertices = .ok t) :=
  ⟨by decide!,
    MST_assertion_iff_not_connected Examples.twoVertices
      (WF_of_reachable _ (Reachable.addVertex _ 2 (Reachable.addVertex _ 1 Reachable.empty)))
      (Inv_of_reachable _ (Reachable.addVertex _ 2 (Reachable.addVertex _ 1 Reachable.empty)))⟩

end wgraph

/-! ## The two initial loops of `Prim_MST` -/

theorem Map.size_set_ne_zero {κ α : Type} [LinearOrder κ] (d : Map κ α) (v : κ) (x : α) :
    (Map.size (Map.set d v x) == 0) = false := by
  cases d with
  | nil => rfl
  | cons p rest =>
    obtain ⟨k1, x1⟩ := p
    unfold Map.set
    by_cases h1 : v < k1
    · simp [h1, Map.size]
    · by_cases h2 : k1 < v
      · simp [h1, h2, Map.size]
      · simp [h1, h2, Map.size]

namespace wgraph

variable {Vertex K : Type} [LinearOrder Vertex] [LinearOrderedAddCommMonoidWithTop K]

theorem Prim_init_snd (vs : List Vertex) (d : Map Vertex K) (s : Vertex) :
    (Prim_init vs (d, s)).2 = s := by
  induction vs generalizing d with
  | nil => rfl
  | cons v vs ih =>
    rw [Prim_init, Map.size_set_ne_zero]
    exact ih _

theorem Prim_init_rd (vs : List Vertex) (d : Map Vertex K) (s y : Vertex) :
    rd (Prim_init vs (d, s)).1 y = if y ∈ vs then ⊤ else rd d y := by
  induction vs generalizing d with
  | nil => simp [Prim_init]
  | cons v vs ih =>
    rw [Prim_init, Map.size_set_ne_zero]
    simp only [Bool.false_eq_true, if_false]
    rw [ih]
    by_cases h1 : y ∈ vs
    · simp [h1]
    · by_cases h2 : y = v
      · subst h2
        simp [h1, rd, Map.find_set_eq]
      · have h3 : ¬ v = y := fun h => h2 h.symm
        simp [h1, h2, rd, Map.find_set_eq, h3]

theorem Prim_seed_arity (d : Map Vertex K) (vs : List Vertex) (H : dary_heap Vertex K)
    (parent : Map Vertex Vertex) : (Prim_seed d vs (H, parent)).1.d = H.d := by
  induction vs generalizing H parent with
  | nil => rfl
  | cons v vs ih =>
    rw [Prim_seed, ih]
    rfl

theorem Prim_seed_items (d : Map Vertex K) (vs : List Vertex) (H : dary_heap Vertex K)
    (parent : Map Vertex Vertex) :
    (Prim_seed d vs (H, parent)).1.items.Perm
      (H.items ++ vs.map (fun v => (⟨v, v, rd d v⟩ : WEdge Vertex K))) := by
  induction vs generalizing H parent with
  | nil => simp [Prim_seed]
  | cons v vs ih =>
    rw [Prim_seed]
    refine (ih _ _).trans ?_
    simp only [dary_heap.push, List.map_cons]
    refine ((List.perm_orderedInsert _ _ _).append_right _).trans ?_
    exact (List.perm_middle).symm

theorem Prim_seed_parent (d : Map Vertex K) (vs : List Vertex) (H : dary_heap Vertex K)
    (parent : Map Vertex Vertex) (y : Vertex) :
    Map.find (Prim_seed d vs (H, parent)).2 y =
      if y ∈ vs then some y else Map.find parent y := by
  induction vs generalizing H parent with
  | nil => simp [Prim_seed]
  | cons v vs ih =>
    rw [Prim_seed, ih, Map.find_set_eq]
    by_cases h1 : y ∈ vs
    · simp [h1]
    · by_cases h2 : v = y
      · subst h2
        simp [h1]
      · have h3 : ¬ y = v := fun h => h2 h.symm
        simp [h1, h2, h3]

theorem mem_items_start (s0 : Vertex) (g : wgraph Vertex K) (z : WEdge Vertex K) :
    z ∈ (Prim_start s0 g).H.items ↔ ∃ v ∈ g.vs, z = ⟨v, v, ⊤⟩ := by
  simp only [Prim_start]
  rw [(Prim_seed_items _ _ _ _).mem_iff]
  simp only [dary_heap.new, List.nil_append, List.mem_map, graph.V]
  constructor
  · rintro ⟨v, hv, rfl⟩
    refine ⟨v, hv, ?_⟩
    rw [Prim_init_rd]
    simp [graph.V, hv]
  · rintro ⟨v, hv, rfl⟩
    refine ⟨v, hv, ?_⟩
    rw [Prim_init_rd]
    simp [graph.V, hv]

theorem PrimInv_start (s0 : Vertex) (g : wgraph Vertex K) : PrimInv g (Prim_start s0 g) where
  perm := by
    have h := (Prim_seed_items (Prim_init g.V (([] : Map Vertex K), s0)).1 g.V
      (dary_heap.new (max 2 (g.m / g.n))) []).map (fun z => z.w)
    simp only [dary_heap.new, List.nil_append, List.map_map] at h
    have h2 : (Prim_start s0 g).ans.vs = [] := rfl
    rw [h2, List.append_nil]
    refine h.trans ?_
    have : ((fun z : WEdge Vertex K => z.w) ∘
        fun v => (⟨v, v, rd (Prim_init g.V (([] : Map Vertex K), s0)).1 v⟩ : WEdge Vertex K)) =
        id := rfl
    rw [this, List.map_id]
    exact List.Perm.refl _
  entry := by
    intro z hz
    obtain ⟨v, hv, rfl⟩ := (mem_items_start s0 g z).1 hz
    constructor
    · simp only [Prim_start]
      rw [Prim_seed_parent]
      simp [graph.V, hv]
    · simp only [Prim_start]
      rw [Prim_init_rd]
      simp [graph.V, hv]
  arity := by
    simp only [Prim_start]
    rw [Prim_seed_arity]
    rfl

end wgraph

/-! ## Claim on the initialisation of `Prim_MST` -/

namespace wgraph

variable {Vertex K : Type} [LinearOrder Vertex] [LinearOrderedAddCommMonoidWithTop K]

/-- C15, evaluated: the first loop of `Prim_MST` never assigns the start vertex and
gives no vertex the distance 0.  Whatever the graph, after the loop `s` still holds
the value `s0` it had before, and `d[v]` is infinity for every vertex `v`, the first
one enumerated included; so every heap entry is `(v, v, ∞)` and the first entry
extracted is `(x, x, ∞)` for a vertex `x`.  On the graph with the single vertex `1`,
with `s` initially `0`: `s` is `0` and not the vertex `1`, `d[1]` is infinity, and
the first entry extracted is `(1, 1, ∞)`, not `(1, 1, 0)`. -/
theorem Prim_init_assigns_no_start :
    (∀ (g : wgraph Vertex K) (s0 : Vertex),
      (Prim_init g.V (([] : Map Vertex K), s0)).2 = s0 ∧
      (∀ v ∈ g.V, rd (Prim_init g.V (([] : Map Vertex K), s0)).1 v = ⊤) ∧
      (∀ z ∈ (Prim_start s0 g).H.items, ∃ v ∈ g.V, z = ⟨v, v, ⊤⟩) ∧
      (g.V ≠ [] → ∃ x ∈ g.V, (Prim_start s0 g).H.min = .ok ⟨x, x, ⊤⟩)) ∧
    Examples.single.V = [1] ∧
    Prim_init Examples.single.V (([] : Map ℕ (WithTop ℕ)), 0) = ([(1, ⊤)], 0) ∧
    (Prim_start 0 Examples.single).H.min = .ok ⟨1, 1, ⊤⟩ ∧
    (⊤ : WithTop ℕ) ≠ 0 := by
  refine ⟨?_, rfl, rfl, rfl, by decide⟩
  intro g s0
  refine ⟨Prim_init_snd _ _ _, ?_, ?_, ?_⟩
  · intro v hv
    rw [Prim_init_rd, if_pos hv]
  · intro z hz
    exact (mem_items_start s0 g z).1 hz
  · intro hne
    cases hit : (Prim_start s0 g).H.items with
    | nil =>
      exfalso
      obtain ⟨v, hv⟩ := List.exists_mem_of_ne_nil _ hne
      have := (mem_items_start s0 g ⟨v, v, ⊤⟩).2 ⟨v, hv, rfl⟩
      rw [hit] at this
      cases this
    | cons z rest =>
      have hz : z ∈ (Prim_start s0 g).H.items := by
        rw [hit]
        exact List.mem_cons_self _ _
      obtain ⟨x, hx, rfl⟩ := (mem_items_start s0 g z).1 hz
      refine ⟨x, hx, ?_⟩
      simp only [dary_heap.min, hit]

end wgraph

/-! ## The heap operation `decrease_key` -/

namespace dary_heap

variable {Vertex K : Type} [LinearOrder Vertex] [LinearOrder K]

omit [LinearOrder Vertex] in
theorem eq_singleton_of_nodup {y : Vertex} (l : List Vertex) (hnd : l.Nodup)
    (hall : ∀ a ∈ l, a = y) (hne : l ≠ []) : l = [y] := by
  cases l with
  | nil => exact absurd rfl hne
  | cons a t =>
    have ha : a = y := hall a (List.mem_cons_self _ _)
    subst ha
    cases t with
    | nil => rfl
    | cons b t1 =>
      exfalso
      have hb : b = a := hall b (List.mem_cons_of_mem _ (List.mem_cons_self _ _))
      subst hb
      exact (List.nodup_cons.1 hnd).1 (List.mem_cons_self _ _)

omit [LinearOrder K] in
theorem find_by_w (H : dary_heap Vertex K) (y : Vertex)
    (hnd : (H.items.map (fun u => u.w)).Nodup) (z : WEdge Vertex K) (hz : z ∈ H.items)
    (hzw : z.w = y) : H.items.find? (fun x => decide (x.w = y)) = some z := by
  cases hf : H.items.find? (fun x => decide (x.w = y)) with
  | none =>
    exfalso
    have := List.find?_eq_none.1 hf z hz
    simp [hzw] at this
  | some z1 =>
    have h1 : z1.w = y := by simpa using List.find?_some hf
    have h2 : z1 ∈ H.items := List.mem_of_find?_eq_some hf
    have := List.inj_on_of_nodup_map hnd h2 hz (h1.trans hzw.symm)
    rw [this]

theorem decrease_key_spec (H : dary_heap Vertex K) (oldItem newItem : WEdge Vertex K)
    (hnd : (H.items.map (fun u => u.w)).Nodup) (z : WEdge Vertex K) (hz : z ∈ H.items)
    (hzw : z.w = oldItem.w) (hc : newItem.c ≤ z.c) (hw : newItem.w = oldItem.w) :
    ∃ H1, H.decrease_key oldItem newItem = .ok H1 ∧ H1.d = H.d ∧
      (H1.items.map (fun u => u.w)).Perm (H.items.map (fun u => u.w)) ∧
      ∀ u, u ∈ H1.items ↔ (u = newItem ∨ (u ∈ H.items ∧ u.w ≠ oldItem.w)) := by
  have hf := find_by_w H oldItem.w hnd z hz hzw
  refine ⟨⟨H.d, (H.items.filter (fun y => !decide (y.w = oldItem.w))).orderedInsert
    (fun a b => a ≤ b) newItem⟩, ?_, rfl, ?_, ?_⟩
  · simp only [decrease_key, hf, if_pos hc]
  · simp only
    refine ((List.perm_orderedInsert _ _ _).map _).trans ?_
    rw [List.map_cons, hw]
    have hsplit := (List.filter_append_perm (fun u : WEdge Vertex K => decide (u.w = oldItem.w))
      H.items).map (fun u => u.w)
    rw [List.map_append] at hsplit
    have hone : (H.items.filter (fun u => decide (u.w = oldItem.w))).map (fun u => u.w) =
        [oldItem.w] := by
      apply eq_singleton_of_nodup
      · exact (((List.filter_sublist _).map _).nodup hnd)
      · intro a ha
        obtain ⟨u, hu, rfl⟩ := List.mem_map.1 ha
        simpa using (List.mem_filter.1 hu).2
      · intro h
        have hm : z.w ∈ (H.items.filter (fun u => decide (u.w = oldItem.w))).map
            (fun u => u.w) :=
          List.mem_map.2 ⟨z, List.mem_filter.2 ⟨hz, by simpa using hzw⟩, rfl⟩
        rw [h] at hm
        cases hm
    rw [hone] at hsplit
    have hcongr : (H.items.filter (fun y => !decide (y.w = oldItem.w))) =
        (H.items.filter (fun u => !(fun u : WEdge Vertex K => decide (u.w = oldItem.w)) u)) :=
      rfl
    rw [hcongr]
    exact hsplit
  · intro u
    simp only [List.mem_orderedInsert, List.mem_filter, Bool.not_eq_true', decide_eq_false_iff_not,
      ne_eq]

end dary_heap

/-! ## What the while loop of `Prim_MST` maintains -/

namespace wgraph

variable {Vertex K : Type} [LinearOrder Vertex] [LinearOrderedAddCommMonoidWithTop K]

theorem Prim_MST_eq_start (s0 : Vertex) (fuel : Nat) (g : wgraph Vertex K) (h : g.n ≠ 0) :
    Prim_MST s0 fuel g = Prim_while g (Prim_init g.V (([] : Map Vertex K), s0)).2 fuel (Prim_start s0 g) := by
  simp only [Prim_MST, if_neg h, Prim_start]

theorem Prim_while_succ (g : wgraph Vertex K) (s : Vertex) (fuel : Nat)
    (st : PrimState Vertex K) (x : WEdge Vertex K) (he : st.H.empty = false)
    (hx : st.H.min = .ok x) :
    Prim_while g s (fuel + 1) st =
      match Prim_relax g x.w (g.Adj x.w) (Prim_extract s st x) with
      | .error f => .error f
      | .ok st1 => Prim_while g s fuel st1 := by
  rw [Prim_while]
  simp only [he, hx, Prim_extract]
  rfl

omit [LinearOrderedAddCommMonoidWithTop K] in
theorem addEdge_vs (g : wgraph Vertex K) (v w : Vertex) (c : K) :
    (g.addEdge v w c).2.vs = g.vs := by
  rcases addEdge_cases g v w c with ⟨e, _⟩ | ⟨e, _⟩
  · rw [e]
  · rw [e]
    rfl

omit [LinearOrderedAddCommMonoidWithTop K] in
theorem addVertex_vs (g : wgraph Vertex K) (v : Vertex) (h : v ∉ g.vs) :
    (g.addVertex v).vs = g.vs ++ [v] := by
  simp only [addVertex, graph.addVertex, if_neg h]

theorem PrimInv.nodup_vertices {g : wgraph Vertex K} {st : PrimState Vertex K}
    (h : PrimInv g st) (hwf : g.WF) : (st.H.items.map (fun z => z.w) ++ st.ans.vs).Nodup :=
  h.perm.nodup_iff.2 hwf.nodup_vs

theorem PrimInv.length {g : wgraph Vertex K} {st : PrimState Vertex K} (h : PrimInv g st) :
    st.H.items.length + st.ans.vs.length = g.n := by
  have := h.perm.length_eq
  simpa [graph.n] using this

theorem PrimInv.live {g : wgraph Vertex K} {st : PrimState Vertex K} (h : PrimInv g st)
    (hwf : g.WF) (y : Vertex) (hy : y ∈ g.vs) (hans : st.ans.isVertex y = false) :
    ∃ z ∈ st.H.items, z.w = y ∧ Map.find st.parent y = some z.v ∧ rd st.d y = z.c ∧
      z = ⟨z.v, y, rd st.d y⟩ ∧ ∀ u ∈ st.H.items, u.w = y → u = z := by
  have hmem : y ∈ st.H.items.map (fun z => z.w) ++ st.ans.vs := h.perm.mem_iff.2 hy
  have hnot : y ∉ st.ans.vs := by simpa [graph.isVertex] using hans
  rcases List.mem_append.1 hmem with h1 | h1
  · obtain ⟨z, hz, hzw⟩ := List.mem_map.1 h1
    have he := h.entry z hz
    rw [hzw] at he
    refine ⟨z, hz, hzw, he.1, he.2, ?_, ?_⟩
    · cases z
      simp only at hzw he
      simp only [WEdge.mk.injEq, true_and]
      exact ⟨hzw, he.2.symm⟩
    · intro u hu huw
      have hnd := (List.nodup_append.1 (h.nodup_vertices hwf)).1
      exact List.inj_on_of_nodup_map hnd hu hz (huw.trans hzw.symm)
  · exact absurd h1 hnot

theorem PrimInv.extract {g : wgraph Vertex K} {st : PrimState Vertex K} (h : PrimInv g st)
    (hwf : g.WF) (s : Vertex) (x : WEdge Vertex K) (hx : st.H.min = .ok x) :
    PrimInv g (Prim_extract s st x) ∧ x.w ∈ g.vs ∧ st.H.items = x :: (Prim_extract s st x).H.items ∧
      (Prim_extract s st x).ans.vs = st.ans.vs ++ [x.w] := by
  have hit : st.H.items = x :: st.H.items.tail := by
    cases hi : st.H.items with
    | nil => simp [dary_heap.min, hi] at hx
    | cons a rest =>
      simp only [dary_heap.min, hi] at hx
      cases hx
      rfl
  have hnd := h.nodup_vertices hwf
  rw [hit, List.map_cons, List.cons_append, List.nodup_cons] at hnd
  have hxn : x.w ∉ st.ans.vs := fun hc => hnd.1 (List.mem_append_right _ hc)
  have hxg : x.w ∈ g.vs := by
    apply h.perm.mem_iff.1
    rw [hit]
    simp
  have hvs : (Prim_extract s st x).ans.vs = st.ans.vs ++ [x.w] := by
    simp only [Prim_extract]
    split
    · rw [addEdge_vs, addVertex_vs _ _ hxn]
    · rw [addVertex_vs _ _ hxn]
  refine ⟨⟨?_, ?_, ?_⟩, hxg, hit, hvs⟩
  · rw [hvs]
    have hp := h.perm
    rw [hit, List.map_cons, List.cons_append] at hp
    refine List.Perm.trans ?_ hp
    have e : (Prim_extract s st x).H.items = st.H.items.tail := rfl
    rw [e, ← List.append_assoc]
    exact List.perm_append_singleton _ _
  · intro z hz
    have e : (Prim_extract s st x).H.items = st.H.items.tail := rfl
    rw [e] at hz
    exact h.entry z (List.mem_of_mem_tail hz)
  · exact h.arity

theorem Prim_relax_spec (g : wgraph Vertex K) (hwf : g.WF) (hinv : g.Inv) (xw : Vertex)
    (hxw : xw ∈ g.vs) (ys : List Vertex) (st : PrimState Vertex K) (h : PrimInv g st)
    (hys : ∀ y ∈ ys, (xw, y) ∈ g.adj) :
    ∃ st1, Prim_relax g xw ys st = .ok st1 ∧ PrimInv g st1 ∧ st1.ans = st.ans := by
  induction ys generalizing st with
  | nil => exact ⟨st, rfl, h, rfl⟩
  | cons y ys ih =>
    have hadj : (xw, y) ∈ g.adj := hys y (List.mem_cons_self _ _)
    have hyg : y ∈ g.vs := (hwf.mem_vs _ hadj).2
    obtain ⟨c, hc, -⟩ := find_of_edge g hinv xw y hadj
    have hcost : g.cost xw y = .ok c := (cost_eq_ok_iff g xw y c).2 ⟨hxw, hyg, hc⟩
    have hys1 : ∀ y ∈ ys, (xw, y) ∈ g.adj := fun a ha => hys a (List.mem_cons_of_mem _ ha)
    rw [Prim_relax]
    simp only [hcost]
    by_cases hcond : (!st.ans.isVertex y && decide (c < rd st.d y)) = true
    · rw [if_pos hcond]
      simp only [Bool.and_eq_true, Bool.not_eq_true', decide_eq_true_eq] at hcond
      obtain ⟨z, hz, hzw, hpar, hrd, -, -⟩ := h.live hwf y hyg hcond.1
      have hnd := (List.nodup_append.1 (h.nodup_vertices hwf)).1
      obtain ⟨H1, hdk, hd1, hperm, hmem⟩ := dary_heap.decrease_key_spec st.H
        ⟨z.v, y, rd st.d y⟩ ⟨xw, y, c⟩ hnd z hz hzw (by rw [← hrd]; exact le_of_lt hcond.2) rfl
      simp only [hpar, hdk]
      have hnew : PrimInv g
          { st with H := H1, d := Map.set st.d y c, parent := Map.set st.parent y xw } := by
        refine ⟨?_, ?_, ?_⟩
        · exact (hperm.append_right _).trans h.perm
        · intro u hu
          rcases (hmem u).1 hu with rfl | ⟨hu1, hu2⟩
          · simp [Map.find_set_eq, rd]
          · have hne : ¬ y = u.w := fun e => hu2 e.symm
            have := h.entry u hu1
            simpa [Map.find_set_eq, rd, hne] using this
        · exact hd1.trans h.arity
      exact ih _ hnew hys1
    · rw [if_neg hcond]
      exact ih st h hys1

theorem Prim_while_spec (g : wgraph Vertex K) (hwf : g.WF) (hinv : g.Inv) (s : Vertex)
    (fuel : Nat) (st : PrimState Vertex K) (h : PrimInv g st)
    (hfuel : st.H.items.length ≤ fuel) :
    ∃ t, Prim_while g s fuel st = .ok t ∧ t.vs.Perm g.vs := by
  induction fuel generalizing st with
  | zero =>
    have hnil : st.H.items = [] := List.length_eq_zero.1 (Nat.le_zero.1 hfuel)
    refine ⟨st.ans, ?_, ?_⟩
    · rw [Prim_while]
      simp [dary_heap.empty, hnil]
    · have := h.perm
      rw [hnil] at this
      simpa using this
  | succ k ih =>
    cases hit : st.H.items with
    | nil =>
      refine ⟨st.ans, ?_, ?_⟩
      · rw [Prim_while]
        simp [dary_heap.empty, hit]
      · have := h.perm
        rw [hit] at this
        simpa using this
    | cons x rest =>
      have he : st.H.empty = false := by simp [dary_heap.empty, hit]
      have hx : st.H.min = .ok x := by simp only [dary_heap.min, hit]
      obtain ⟨hinv1, hxg, hitems, hvs⟩ := h.extract hwf s x hx
      obtain ⟨st1, hr, hinv2, hans⟩ := Prim_relax_spec g hwf hinv x.w hxg (g.Adj x.w)
        (Prim_extract s st x) hinv1 (fun y hy => (mem_Adj g x.w y).1 hy)
      rw [Prim_while_succ g s k st x he hx, hr]
      apply ih st1 hinv2
      have l1 := h.length
      have l2 := hinv2.length
      rw [hans, hvs, List.length_append] at l2
      simp only [List.length_singleton] at l2
      rw [hit] at hfuel
      rw [hit] at l1
      simp only [List.length_cons] at hfuel l1
      omega

theorem Prim_while_mono (g : wgraph Vertex K) (s : Vertex) (fuel k : Nat)
    (st : PrimState Vertex K) (t : wgraph Vertex K)
    (h : Prim_while g s fuel st = .ok t) : Prim_while g s (fuel + k) st = .ok t := by
  induction fuel generalizing st with
  | zero =>
    rw [Prim_while] at h
    rw [Nat.zero_add, Prim_while.eq_def]
    by_cases he : st.H.empty = true
    · rw [if_pos he] at h
      simp only [if_pos he]
      exact h
    · rw [if_neg he] at h
      cases h
  | succ fuel ih =>
    have e : fuel + 1 + k = (fuel + k) + 1 := by omega
    rw [e]
    by_cases he : st.H.empty = true
    · rw [Prim_while, if_pos he] at h
      rw [Prim_while, if_pos he]
      exact h
    · have he1 : st.H.empty = false := by simpa using he
      cases hm : st.H.min with
      | error f =>
        rw [Prim_while, if_neg he] at h
        simp only [hm] at h
        cases h
      | ok x =>
        rw [Prim_while_succ g s fuel st x he1 hm] at h
        rw [Prim_while_succ g s (fuel + k) st x he1 hm]
        cases hr : Prim_relax g x.w (g.Adj x.w) (Prim_extract s st x) with
        | error f =>
          rw [hr] at h
          cases h
        | ok st1 =>
          rw [hr] at h
          exact ih _ h

end wgraph

/-! ## What `Prim_MST` returns -/

namespace wgraph

variable {Vertex K : Type} [LinearOrder Vertex] [LinearOrderedAddCommMonoidWithTop K]

theorem PrimInv_of_reach (g : wgraph Vertex K) (hwf : g.WF) (hinv : g.Inv) (s0 : Vertex)
    (st : PrimState Vertex K) (h : PrimReach s0 g st) : PrimInv g st := by
  induction h with
  | start => exact PrimInv_start s0 g
  | round st x st1 _ _ hx hr ih =>
    obtain ⟨hinv1, hxg, -, -⟩ := ih.extract hwf (Prim_init g.V (([] : Map Vertex K), s0)).2 x hx
    obtain ⟨st2, hr2, hinv2, -⟩ := Prim_relax_spec g hwf hinv x.w hxg (g.Adj x.w) _ hinv1
      (fun y hy => (mem_Adj g x.w y).1 hy)
    rw [hr] at hr2
    cases hr2
    exact hinv2

theorem Prim_MST_returns (g : wgraph Vertex K) (hwf : g.WF) (hinv : g.Inv) (hn : g.n ≠ 0)
    (s0 : Vertex) :
    ∃ t, (∀ fuel, g.n ≤ fuel → Prim_MST s0 fuel g = .ok t) ∧ t.vs.Perm g.vs := by
  have hlen : (Prim_start s0 g).H.items.length ≤ g.n := by
    have := (PrimInv_start s0 g).length
    omega
  obtain ⟨t, ht, hp⟩ := Prim_while_spec g hwf hinv (Prim_init g.V (([] : Map Vertex K), s0)).2
    g.n (Prim_start s0 g) (PrimInv_start s0 g) hlen
  refine ⟨t, ?_, hp⟩
  intro fuel hfuel
  obtain ⟨k, rfl⟩ := Nat.exists_eq_add_of_le hfuel
  rw [Prim_MST_eq_start s0 _ g hn]
  exact Prim_while_mono g _ g.n k _ t ht

theorem Prim_MST_vs (g : wgraph Vertex K) (hwf : g.WF) (hinv : g.Inv) (s0 : Vertex)
    (fuel : Nat) (t : wgraph Vertex K) (h : Prim_MST s0 fuel g = .ok t) : t.vs.Perm g.vs := by
  by_cases hn : g.n = 0
  · simp [Prim_MST, hn] at h
  · obtain ⟨t0, ht0, hp⟩ := Prim_MST_returns g hwf hinv hn s0
    have h1 := ht0 (fuel + g.n) (by omega)
    rw [Prim_MST_eq_start s0 _ g hn] at h h1
    have h2 := Prim_while_mono g _ fuel g.n _ t h
    rw [h1] at h2
    cases h2
    exact hp

theorem Boruvka_MST_vs (g : wgraph Vertex K) (hwf : g.WF) (hinv : g.Inv) (fuel : Nat)
    (t : wgraph Vertex K) (h : Boruvka_MST fuel g = .ok t) : t.vs = g.vs := by
  by_cases hc : g.isConnected = true
  · obtain ⟨_, t0, _, _, hb, hvs, _⟩ := Boruvka_MST_eq g hwf hinv hc
    have h1 := hb (fuel + g.n) (by omega)
    simp only [Boruvka_MST, hc, if_true] at h h1
    have h2 := Boruvka_while_mono g fuel g.n _ t h
    rw [h1] at h2
    cases h2
    exact hvs
  · simp [Boruvka_MST, hc] at h

theorem Kruskal_MST_vs (g : wgraph Vertex K) (hwf : g.WF) (hinv : g.Inv)
    (t : wgraph Vertex K) (h : Kruskal_MST g = .ok t) : t.vs = g.vs := by
  by_cases hc : g.isConnected = true
  · obtain ⟨_, _, _, hk, hb, _⟩ := Kruskal_MST_eq g hwf hinv hc
    rw [hk] at h
    cases h
    exact hb.vs_eq
  · simp [Kruskal_MST, hc] at h

end wgraph

/-! ## Claim on the vertices of the result -/

namespace wgraph

variable {Vertex K : Type} [LinearOrder Vertex] [LinearOrderedAddCommMonoidWithTop K]

/-- C14: on a well-formed graph satisfying the cost-table invariant, whenever
`Kruskal_MST` or `Boruvka_MST` returns a graph its vertices are the vertices of the
input, in the same order; and whenever `Prim_MST` returns a graph, connected input
or not, its vertices are the vertices of the input, each exactly once (in the
order of extraction from the heap).  `Prim_MST` does return on every such graph
with at least one vertex, within `n` rounds of its while loop. -/
theorem MST_result_has_input_vertices (g : wgraph Vertex K) (hwf : g.WF) (hinv : g.Inv) :
    (∀ t, Kruskal_MST g = .ok t → t.vs = g.vs) ∧
    (∀ fuel t, Boruvka_MST fuel g = .ok t → t.vs = g.vs) ∧
    (∀ s0 fuel t, Prim_MST s0 fuel g = .ok t →
      t.vs.Perm g.vs ∧ t.n = g.n ∧ ∀ v, t.isVertex v = g.isVertex v) ∧
    (g.n ≠ 0 → ∀ s0, ∃ t, ∀ fuel, g.n ≤ fuel → Prim_MST s0 fuel g = .ok t) := by
  refine ⟨Kruskal_MST_vs g hwf hinv, Boruvka_MST_vs g hwf hinv, ?_, ?_⟩
  · intro s0 fuel t h
    have hp := Prim_MST_vs g hwf hinv s0 fuel t h
    refine ⟨hp, hp.length_eq, ?_⟩
    intro v
    simp only [graph.isVertex, hp.mem_iff]
  · intro hn s0
    obtain ⟨t, ht, -⟩ := Prim_MST_returns g hwf hinv hn s0
    exact ⟨t, ht⟩

set_option maxRecDepth 100000 in
set_option synthInstance.maxSize 4000 in
/-- Witness of C14 on two vertices without an edge, a graph that is not connected
and on which `Prim_MST` returns the two vertices. -/
theorem MST_result_has_input_vertices_witness :
    ((Prim_MST 0 2 Examples.twoVertices).toOption.map (fun t => t.vs) = some [1, 2]) ∧
    (∀ t, Kruskal_MST Examples.twoVertices = .ok t → t.vs = Examples.twoVertices.vs) ∧
    (∀ fuel t, Boruvka_MST fuel Examples.twoVertices = .ok t →
      t.vs = Examples.twoVertices.vs) ∧
    (∀ s0 fuel t, Prim_MST s0 fuel Examples.twoVertices = .ok t →
      t.vs.Perm Examples.twoVertices.vs ∧ t.n = Examples.twoVertices.n ∧
        ∀ v, t.isVertex v = Examples.twoVertices.isVertex v) ∧
    (Examples.twoVertices.n ≠ 0 →
      ∀ s0, ∃ t, ∀ fuel, Examples.twoVertices.n ≤ fuel →
        Prim_MST s0 fuel Examples.twoVertices = .ok t) :=
  ⟨by decide!,
    MST_result_has_input_vertices Examples.twoVertices
      (WF_of_reachable _ (Reachable.addVertex _ 2 (Reachable.addVertex _ 1 Reachable.empty)))
      (Inv_of_reachable _ (Reachable.addVertex _ 2 (Reachable.addVertex _ 1 Reachable.empty)))⟩

end wgraph

/-! ## Claim on the calls of `decrease_key` in `Prim_MST` -/

namespace wgraph

variable {Vertex K : Type} [LinearOrder Vertex] [LinearOrderedAddCommMonoidWithTop K]

/-- C19: on a well-formed graph satisfying the cost-table invariant, in every
state in which `Prim_MST` tests its while loop each heap entry is
`(parent[y], y, d[y])` for its vertex `y`, and every vertex `y` that is not yet in
the result has that entry in the heap.  At every call of `H.decrease_key`, that
is for the neighbour `y` reached after the neighbours `ys1` of the extracted
vertex `x.w` have been handled, with `y` not in the result and
`newcost < d[y]`, the old item `WEdge(parent[y], y, d[y])` is in the heap, the new
cost is strictly lower than the cost of the old item, and the call succeeds.  So
`Prim_MST` returns on every such graph with at least one vertex. -/
theorem Prim_MST_decrease_key_precondition (g : wgraph Vertex K) (hwf : g.WF) (hinv : g.Inv)
    (s0 : Vertex) :
    (∀ st, PrimReach s0 g st →
      (∀ z ∈ st.H.items, Map.find st.parent z.w = some z.v ∧ rd st.d z.w = z.c) ∧
      (∀ y ∈ g.V, st.ans.isVertex y = false →
        ∃ p, Map.find st.parent y = some p ∧ (⟨p, y, rd st.d y⟩ : WEdge Vertex K) ∈ st.H.items)) ∧
    (∀ st x ys1 y ys2 st1 newcost,
      PrimReach s0 g st → st.H.min = .ok x → g.Adj x.w = ys1 ++ y :: ys2 →
      Prim_relax g x.w ys1 (Prim_extract (Prim_init g.V (([] : Map Vertex K), s0)).2 st x) =
        .ok st1 →
      g.cost x.w y = .ok newcost →
      (!st1.ans.isVertex y && decide (newcost < rd st1.d y)) = true →
      ∃ p H1, Map.find st1.parent y = some p ∧
        (⟨p, y, rd st1.d y⟩ : WEdge Vertex K) ∈ st1.H.items ∧
        newcost < (⟨p, y, rd st1.d y⟩ : WEdge Vertex K).c ∧
        st1.H.decrease_key ⟨p, y, rd st1.d y⟩ ⟨x.w, y, newcost⟩ = .ok H1) ∧
    (g.n ≠ 0 → ∃ t, ∀ fuel, g.n ≤ fuel → Prim_MST s0 fuel g = .ok t) := by
  refine ⟨?_, ?_, ?_⟩
  · intro st hst
    have hI := PrimInv_of_reach g hwf hinv s0 st hst
    refine ⟨hI.entry, ?_⟩
    intro y hy hans
    obtain ⟨z, hz, -, hpar, -, heq, -⟩ := hI.live hwf y hy hans
    refine ⟨z.v, hpar, ?_⟩
    rw [← heq]
    exact hz
  · intro st x ys1 y ys2 st1 newcost hst hx hsplit hr hcost hcond
    have hI := PrimInv_of_reach g hwf hinv s0 st hst
    obtain ⟨hI1, hxg, -, -⟩ := hI.extract hwf (Prim_init g.V (([] : Map Vertex K), s0)).2 x hx
    have hmemadj : ∀ a ∈ ys1 ++ y :: ys2, (x.w, a) ∈ g.adj := by
      intro a ha
      rw [← hsplit] at ha
      exact (mem_Adj g x.w a).1 ha
    obtain ⟨st2, hr2, hI2, -⟩ := Prim_relax_spec g hwf hinv x.w hxg ys1 _ hI1
      (fun a ha => hmemadj a (List.mem_append_left _ ha))
    rw [hr] at hr2
    cases hr2
    simp only [Bool.and_eq_true, Bool.not_eq_true', decide_eq_true_eq] at hcond
    have hyg : y ∈ g.vs :=
      (hwf.mem_vs _ (hmemadj y (List.mem_append_right _ (List.mem_cons_self _ _)))).2
    obtain ⟨z, hz, hzw, hpar, hrd, heq, -⟩ := hI2.live hwf y hyg hcond.1
    have hnd := (List.nodup_append.1 (hI2.nodup_vertices hwf)).1
    obtain ⟨H1, hdk, -⟩ := dary_heap.decrease_key_spec st1.H
      ⟨z.v, y, rd st1.d y⟩ ⟨x.w, y, newcost⟩ hnd z hz hzw
      (by rw [← hrd]; exact le_of_lt hcond.2) rfl
    refine ⟨z.v, H1, hpar, ?_, hcond.2, hdk⟩
    rw [← heq]
    exact hz
  · intro hn
    obtain ⟨t, ht, -⟩ := Prim_MST_returns g hwf hinv hn s0
    exact ⟨t, ht⟩

set_option maxRecDepth 100000 in
set_option synthInstance.maxSize 4000 in
/-- Witness of C19 on two vertices joined by one edge of cost 1: after `(1, 1, ∞)`
has been extracted, the entry `(2, 2, ∞)` of the neighbour `2` is replaced by
`(1, 2, 1)`. -/
theorem Prim_MST_decrease_key_precondition_witness :
    ((Prim_start 0 Examples.pair).H.items = [⟨1, 1, ⊤⟩, ⟨2, 2, ⊤⟩] ∧
      ((Prim_extract 0 (Prim_start 0 Examples.pair) ⟨1, 1, ⊤⟩).H.decrease_key
        ⟨2, 2, ⊤⟩ ⟨1, 2, 1⟩).toOption.map (fun H => H.items) = some [⟨1, 2, 1⟩]) ∧
    (∀ st, PrimReach 0 Examples.pair st →
      (∀ z ∈ st.H.items, Map.find st.parent z.w = some z.v ∧ rd st.d z.w = z.c) ∧
      (∀ y ∈ Examples.pair.V, st.ans.isVertex y = false →
        ∃ p, Map.find st.parent y = some p ∧
          (⟨p, y, rd st.d y⟩ : WEdge ℕ (WithTop ℕ)) ∈ st.H.items)) ∧
    (∀ st x ys1 y ys2 st1 newcost,
      PrimReach 0 Examples.pair st → st.H.min = .ok x →
      Examples.pair.Adj x.w = ys1 ++ y :: ys2 →
      Prim_relax Examples.pair x.w ys1
        (Prim_extract (Prim_init Examples.pair.V (([] : Map ℕ (WithTop ℕ)), 0)).2 st x) =
          .ok st1 →
      Examples.pair.cost x.w y = .ok newcost →
      (!st1.ans.isVertex y && decide (newcost < rd st1.d y)) = true →
      ∃ p H1, Map.find st1.parent y = some p ∧
        (⟨p, y, rd st1.d y⟩ : WEdge ℕ (WithTop ℕ)) ∈ st1.H.items ∧
        newcost < (⟨p, y, rd st1.d y⟩ : WEdge ℕ (WithTop ℕ)).c ∧
        st1.H.decrease_key ⟨p, y, rd st1.d y⟩ ⟨x.w, y, newcost⟩ = .ok H1) ∧
    (Examples.pair.n ≠ 0 →
      ∃ t, ∀ fuel, Examples.pair.n ≤ fuel → Prim_MST 0 fuel Examples.pair = .ok t) :=
  ⟨by decide!,
    Prim_MST_decrease_key_precondition Examples.pair
      (WF_of_reachable _ (Reachable.addEdge _ 1 2 1
        (Reachable.addVertex _ 2 (Reachable.addVertex _ 1 Reachable.empty))))
      (Inv_of_reachable _ (Reachable.addEdge _ 1 2 1
        (Reachable.addVertex _ 2 (Reachable.addVertex _ 1 Reachable.empty)))) 0⟩

end wgraph

/-! ## The branching factor of the heap of `Prim_MST` -/

namespace dary_heap

variable {Vertex K : Type} [LinearOrder Vertex] [LinearOrder K]

theorem decrease_key_arity (H H1 : dary_heap Vertex K) (a b : WEdge Vertex K)
    (h : H.decrease_key a b = .ok H1) : H1.d = H.d := by
  unfold decrease_key at h
  split at h
  · cases h
  · split at h
    · cases h
      rfl
    · cases h

theorem decrease_key_fault (H : dary_heap Vertex K) (a b : WEdge Vertex K) (f : Fault)
    (h : H.decrease_key a b = .error f) : f = .heap_misuse := by
  unfold decrease_key at h
  split at h
  · cases h
    rfl
  · split at h
    · cases h
    · cases h
      rfl

end dary_heap

namespace wgraph

variable {Vertex K : Type} [LinearOrder Vertex] [LinearOrderedAddCommMonoidWithTop K]

omit [LinearOrderedAddCommMonoidWithTop K] in
theorem cost_fault (g : wgraph Vertex K) (v w : Vertex) (f : Fault)
    (h : g.cost v w = .error f) : f = .assertion ∨ f = .out_of_range := by
  unfold cost at h
  split at h
  · split at h
    · cases h
    · cases h
      exact Or.inr rfl
  · cases h
    exact Or.inl rfl

theorem Prim_relax_fault (g : wgraph Vertex K) (xw : Vertex) (ys : List Vertex)
    (st : PrimState Vertex K) (f : Fault) (h : Prim_relax g xw ys st = .error f) :
    f = .assertion ∨ f = .out_of_range ∨ f = .heap_misuse := by
  induction ys generalizing st with
  | nil => cases h
  | cons y ys ih =>
    rw [Prim_relax] at h
    cases hc : g.cost xw y with
    | error f1 =>
      rw [hc] at h
      cases h
      rcases cost_fault g xw y _ hc with h1 | h1
      · exact Or.inl h1
      · exact Or.inr (Or.inl h1)
    | ok c =>
      rw [hc] at h
      simp only at h
      split at h
      · cases hp : Map.find st.parent y with
        | none =>
          rw [hp] at h
          cases h
          exact Or.inr (Or.inl rfl)
        | some p =>
          rw [hp] at h
          simp only at h
          cases hd : st.H.decrease_key ⟨p, y, rd st.d y⟩ ⟨xw, y, c⟩ with
          | error f1 =>
            rw [hd] at h
            cases h
            exact Or.inr (Or.inr (dary_heap.decrease_key_fault _ _ _ _ hd))
          | ok H1 =>
            rw [hd] at h
            exact ih _ h
      · exact ih _ h

theorem Prim_relax_arity (g : wgraph Vertex K) (xw : Vertex) (ys : List Vertex)
    (st st1 : PrimState Vertex K) (h : Prim_relax g xw ys st = .ok st1) : st1.H.d = st.H.d := by
  induction ys generalizing st with
  | nil =>
    cases h
    rfl
  | cons y ys ih =>
    rw [Prim_relax] at h
    cases hc : g.cost xw y with
    | error f1 =>
      rw [hc] at h
      cases h
    | ok c =>
      rw [hc] at h
      simp only at h
      split at h
      · cases hp : Map.find st.parent y with
        | none =>
          rw [hp] at h
          cases h
        | some p =>
          rw [hp] at h
          simp only at h
          cases hd : st.H.decrease_key ⟨p, y, rd st.d y⟩ ⟨xw, y, c⟩ with
          | error f1 =>
            rw [hd] at h
            cases h
          | ok H1 =>
            rw [hd] at h
            rw [ih _ h]
            exact dary_heap.decrease_key_arity _ _ _ _ hd
      · exact ih _ h

theorem Prim_while_fault (g : wgraph Vertex K) (s : Vertex) (fuel : Nat)
    (st : PrimState Vertex K) (f : Fault) (h : Prim_while g s fuel st = .error f) :
    f ≠ .division_by_zero := by
  induction fuel generalizing st with
  | zero =>
    rw [Prim_while] at h
    split at h
    · cases h
    · cases h
      intro h1
      cases h1
  | succ k ih =>
    by_cases he : st.H.empty = true
    · rw [Prim_while, if_pos he] at h
      cases h
    · have he1 : st.H.empty = false := by simpa using he
      cases hm : st.H.min with
      | error f1 =>
        rw [Prim_while, if_neg he] at h
        simp only [hm] at h
        cases h
        unfold dary_heap.min at hm
        split at hm
        · cases hm
          intro h1
          cases h1
        · cases hm
      | ok x =>
        rw [Prim_while_succ g s k st x he1 hm] at h
        cases hr : Prim_relax g x.w (g.Adj x.w) (Prim_extract s st x) with
        | error f1 =>
          rw [hr] at h
          cases h
          rcases Prim_relax_fault g _ _ _ _ hr with h1 | h1 | h1 <;>
          · rw [h1]
            intro h2
            cases h2
        | ok st1 =>
          rw [hr] at h
          exact ih _ h

theorem PrimReach_arity (s0 : Vertex) (g : wgraph Vertex K) (st : PrimState Vertex K)
    (h : PrimReach s0 g st) : st.H.d = max 2 (g.m / g.n) := by
  induction h with
  | start => exact (PrimInv_start s0 g).arity
  | round st x st1 _ _ _ hr ih =>
    rw [Prim_relax_arity g _ _ _ _ hr]
    exact ih

/-- The graph that the while loop of `Prim_MST` returns from a state in which it
tests its condition is the result graph of such a state, in which the heap is
empty. -/
theorem Prim_while_reach (s0 : Vertex) (g : wgraph Vertex K) (fuel : Nat)
    (st : PrimState Vertex K) (t : wgraph Vertex K) (hst : PrimReach s0 g st)
    (h : Prim_while g (Prim_init g.V (([] : Map Vertex K), s0)).2 fuel st = .ok t) :
    ∃ st1, PrimReach s0 g st1 ∧ st1.H.empty = true ∧ st1.ans = t := by
  induction fuel generalizing st with
  | zero =>
    rw [Prim_while] at h
    split at h
    · rename_i he
      cases h
      exact ⟨st, hst, he, rfl⟩
    · cases h
  | succ k ih =>
    by_cases he : st.H.empty = true
    · rw [Prim_while, if_pos he] at h
      cases h
      exact ⟨st, hst, he, rfl⟩
    · have he1 : st.H.empty = false := by simpa using he
      cases hm : st.H.min with
      | error f1 =>
        rw [Prim_while, if_neg he] at h
        simp only [hm] at h
        cases h
      | ok x =>
        rw [Prim_while_succ g _ k st x he1 hm] at h
        cases hr : Prim_relax g x.w (g.Adj x.w)
            (Prim_extract (Prim_init g.V (([] : Map Vertex K), s0)).2 st x) with
        | error f1 =>
          rw [hr] at h
          cases h
        | ok st1 =>
          rw [hr] at h
          exact ih st1 (PrimReach.round st x st1 hst he1 hm hr) h

/-- C20: on a graph with at least one vertex `Prim_MST` runs its while loop from
the state `Prim_start`, whose result graph is empty and whose heap is the heap
constructed with the branching factor `max(2, m / n)` after the pushes of the
second loop; the quotient is the floor of the division; the factor is at least 2
and is the factor of the heap in every state in which the loop is tested, the
state that yields the returned graph included; and the method ends in the division
by zero exactly when `n = 0`, that is for the graph without vertices only: with a
vertex the divisor is not zero and no other step of the method divides. -/
theorem Prim_MST_branching_factor (g : wgraph Vertex K) (s0 : Vertex) :
    (g.n ≠ 0 → ∀ fuel,
      Prim_MST s0 fuel g =
        Prim_while g (Prim_init g.V (([] : Map Vertex K), s0)).2 fuel (Prim_start s0 g)) ∧
    (Prim_start s0 g).H =
      (Prim_seed (Prim_init g.V (([] : Map Vertex K), s0)).1 g.V
        (dary_heap.new (max 2 (g.m / g.n)), [])).1 ∧
    (Prim_start s0 g).ans = wgraph.empty ∧
    2 ≤ max 2 (g.m / g.n) ∧
    (g.n ≠ 0 → (g.m / g.n) * g.n ≤ g.m ∧ g.m < (g.m / g.n + 1) * g.n) ∧
    (∀ fuel t, Prim_MST s0 fuel g = .ok t →
      ∃ st, PrimReach s0 g st ∧ st.H.empty = true ∧ st.ans = t ∧
        st.H.d = max 2 (g.m / g.n)) ∧
    (Prim_start s0 g).H.d = max 2 (g.m / g.n) ∧
    (∀ st, PrimReach s0 g st → st.H.d = max 2 (g.m / g.n) ∧ 2 ≤ st.H.d) ∧
    (∀ fuel, Prim_MST s0 fuel g = .error .division_by_zero ↔ g.n = 0) ∧
    (g.n = 0 ↔ g.V = []) := by
  have h0 := (PrimInv_start s0 g).arity
  refine ⟨?_, rfl, rfl, le_max_left _ _, ?_, ?_, h0, ?_, ?_, ?_⟩
  · intro hn fuel
    exact Prim_MST_eq_start s0 fuel g hn
  · intro hn
    have hpos : 0 < g.n := Nat.pos_of_ne_zero hn
    refine ⟨Nat.div_mul_le_self _ _, ?_⟩
    calc g.m = g.n * (g.m / g.n) + g.m % g.n := (Nat.div_add_mod _ _).symm
      _ < g.n * (g.m / g.n) + g.n := Nat.add_lt_add_left (Nat.mod_lt _ hpos) _
      _ = (g.m / g.n + 1) * g.n := by ring
  · intro fuel t h
    have hn : g.n ≠ 0 := by
      intro hn
      simp [Prim_MST, hn] at h
    rw [Prim_MST_eq_start s0 fuel g hn] at h
    obtain ⟨st, h1, h2, h3⟩ := Prim_while_reach s0 g fuel _ t PrimReach.start h
    exact ⟨st, h1, h2, h3, PrimReach_arity s0 g st h1⟩
  · intro st hst
    have := PrimReach_arity s0 g st hst
    refine ⟨this, ?_⟩
    rw [this]
    exact le_max_left _ _
  · intro fuel
    constructor
    · intro h
      by_contra hn
      rw [Prim_MST_eq_start s0 fuel g hn] at h
      exact Prim_while_fault g _ fuel _ _ h rfl
    · intro hn
      simp [Prim_MST, hn]
  · simp [graph.n, graph.V]

end wgraph

/-! ## The edge that `Prim_MST` adds for the first vertex it extracts -/

namespace wgraph

variable {Vertex K : Type} [LinearOrder Vertex] [LinearOrderedAddCommMonoidWithTop K]

omit [LinearOrderedAddCommMonoidWithTop K] in
theorem loop_addVertex (t : wgraph Vertex K) (x v : Vertex) (c : K)
    (h : t.isEdge x x = true ∧ Map.find t._c ⟨x, x⟩ = some c) :
    (t.addVertex v).isEdge x x = true ∧ Map.find (t.addVertex v)._c ⟨x, x⟩ = some c := by
  have hadj : (t.addVertex v).adj = t.adj := by
    simp only [addVertex, graph.addVertex]
    split <;> rfl
  have hc : (t.addVertex v)._c = t._c := rfl
  simpa [graph.isEdge, hadj, hc] using h

omit [LinearOrderedAddCommMonoidWithTop K] in
theorem loop_addEdge (t : wgraph Vertex K) (x v w : Vertex) (c c1 : K)
    (h : t.isEdge x x = true ∧ Map.find t._c ⟨x, x⟩ = some c) :
    (t.addEdge v w c1).2.isEdge x x = true ∧
      Map.find (t.addEdge v w c1).2._c ⟨x, x⟩ = some c := by
  rcases addEdge_cases t v w c1 with ⟨e, _⟩ | ⟨e, _, _, he⟩
  · rw [e]
    exact h
  · rw [e]
    have hne : ¬ ((x = v ∧ x = w) ∨ (x = w ∧ x = v)) := by
      rintro (⟨rfl, rfl⟩ | ⟨rfl, rfl⟩)
      · rw [h.1] at he
        cases he
      · rw [h.1] at he
        cases he
    constructor
    · exact (graph.isEdge_addEdge t.tograph v w x x).2 (Or.inl h.1)
    · simp only
      rw [find_addEdge, if_neg hne]
      exact h.2

theorem Prim_relax_ans (g : wgraph Vertex K) (xw : Vertex) (ys : List Vertex)
    (st st1 : PrimState Vertex K) (h : Prim_relax g xw ys st = .ok st1) : st1.ans = st.ans := by
  induction ys generalizing st with
  | nil =>
    cases h
    rfl
  | cons y ys ih =>
    rw [Prim_relax] at h
    cases hc : g.cost xw y with
    | error f1 =>
      rw [hc] at h
      cases h
    | ok c =>
      rw [hc] at h
      simp only at h
      split at h
      · cases hp : Map.find st.parent y with
        | none =>
          rw [hp] at h
          cases h
        | some p =>
          rw [hp] at h
          simp only at h
          cases hd : st.H.decrease_key ⟨p, y, rd st.d y⟩ ⟨xw, y, c⟩ with
          | error f1 =>
            rw [hd] at h
            cases h
          | ok H1 =>
            rw [hd] at h
            rw [ih _ h]
      · exact ih _ h

omit [LinearOrderedAddCommMonoidWithTop K] in
theorem loop_extract (s : Vertex) (st : PrimState Vertex K) (z : WEdge Vertex K) (x : Vertex)
    (c : K) (h : st.ans.isEdge x x = true ∧ Map.find st.ans._c ⟨x, x⟩ = some c) :
    (Prim_extract s st z).ans.isEdge x x = true ∧
      Map.find (Prim_extract s st z).ans._c ⟨x, x⟩ = some c := by
  simp only [Prim_extract]
  split
  · exact loop_addEdge _ _ _ _ _ _ (loop_addVertex _ _ _ _ h)
  · exact loop_addVertex _ _ _ _ h

theorem Prim_while_loop (g : wgraph Vertex K) (s : Vertex) (fuel : Nat)
    (st : PrimState Vertex K) (t : wgraph Vertex K) (x : Vertex) (c : K)
    (h : Prim_while g s fuel st = .ok t)
    (hl : st.ans.isEdge x x = true ∧ Map.find st.ans._c ⟨x, x⟩ = some c) :
    t.isEdge x x = true ∧ Map.find t._c ⟨x, x⟩ = some c := by
  induction fuel generalizing st with
  | zero =>
    rw [Prim_while] at h
    split at h
    · cases h
      exact hl
    · cases h
  | succ k ih =>
    by_cases he : st.H.empty = true
    · rw [Prim_while, if_pos he] at h
      cases h
      exact hl
    · have he1 : st.H.empty = false := by simpa using he
      cases hm : st.H.min with
      | error f1 =>
        rw [Prim_while, if_neg he] at h
        simp only [hm] at h
        cases h
      | ok z =>
        rw [Prim_while_succ g s k st z he1 hm] at h
        cases hr : Prim_relax g z.w (g.Adj z.w) (Prim_extract s st z) with
        | error f1 =>
          rw [hr] at h
          cases h
        | ok st1 =>
          rw [hr] at h
          refine ih st1 h ?_
          rw [Prim_relax_ans g _ _ _ _ hr]
          exact loop_extract s st z x c hl

theorem Prim_start_min (s0 : Vertex) (g : wgraph Vertex K) (hne : g.V ≠ []) :
    ∃ x ∈ g.V, (Prim_start s0 g).H.min = .ok ⟨x, x, ⊤⟩ ∧ (Prim_start s0 g).H.empty = false := by
  cases hit : (Prim_start s0 g).H.items with
  | nil =>
    exfalso
    obtain ⟨v, hv⟩ := List.exists_mem_of_ne_nil _ hne
    have := (mem_items_start s0 g ⟨v, v, ⊤⟩).2 ⟨v, hv, rfl⟩
    rw [hit] at this
    cases this
  | cons z rest =>
    have hz : z ∈ (Prim_start s0 g).H.items := by
      rw [hit]
      exact List.mem_cons_self _ _
    obtain ⟨x, hx, rfl⟩ := (mem_items_start s0 g z).1 hz
    refine ⟨x, hx, ?_, ?_⟩
    · simp only [dary_heap.min, hit]
    · simp [dary_heap.empty, hit]

/-- C16, evaluated: on every well-formed graph with at least one vertex that
satisfies the cost-table invariant, when the value `s0` of the unassigned local `s`
is not a vertex of the graph (as the empty string is not), `Prim_MST` returns a
graph that contains, for the vertex `x` it extracts first, the self-loop `(x, x)`
recorded with infinite cost: the entry `(x, x, ∞)` passes the test `x.w != s` and
is added as an edge. -/
theorem Prim_MST_adds_self_loop (g : wgraph Vertex K) (hwf : g.WF) (hinv : g.Inv)
    (hn : g.n ≠ 0) (s0 : Vertex) (hs : s0 ∉ g.V) :
    ∃ x ∈ g.V, ∃ t, (∀ fuel, g.n ≤ fuel → Prim_MST s0 fuel g = .ok t) ∧
      (Prim_start s0 g).H.min = .ok ⟨x, x, ⊤⟩ ∧
      t.isEdge x x = true ∧ t.cost x x = .ok ⊤ := by
  have hne : g.V ≠ [] := by
    intro h
    apply hn
    simp only [graph.V] at h
    simp [graph.n, h]
  obtain ⟨x, hx, hmin, hemp⟩ := Prim_start_min s0 g hne
  obtain ⟨t, ht, hp⟩ := Prim_MST_returns g hwf hinv hn s0
  refine ⟨x, hx, t, ht, hmin, ?_⟩
  have hrun := ht g.n (le_refl _)
  rw [Prim_MST_eq_start s0 _ g hn, Prim_init_snd] at hrun
  obtain ⟨k, hk⟩ : ∃ k, g.n = k + 1 := ⟨g.n - 1, by omega⟩
  rw [hk, Prim_while_succ g s0 k _ _ hemp hmin] at hrun
  have hxs : x ≠ s0 := fun e => hs (e ▸ hx)
  have hloop : (Prim_extract s0 (Prim_start s0 g) ⟨x, x, ⊤⟩).ans.isEdge x x = true ∧
      Map.find (Prim_extract s0 (Prim_start s0 g) ⟨x, x, ⊤⟩).ans._c ⟨x, x⟩ = some ⊤ := by
    have e1 : (Prim_extract s0 (Prim_start s0 g) ⟨x, x, ⊤⟩).ans =
        (((wgraph.empty : wgraph Vertex K).addVertex x).addEdge x x ⊤).2 := by
      simp only [Prim_extract, Prim_start, ne_eq, hxs, not_false_eq_true, if_true]
    have hv : ((wgraph.empty : wgraph Vertex K).addVertex x).isVertex x = true := by
      simp [wgraph.empty, graph.empty, addVertex, graph.addVertex, graph.isVertex]
    have he : ((wgraph.empty : wgraph Vertex K).addVertex x).isEdge x x = false := by
      simp [wgraph.empty, graph.empty, addVertex, graph.addVertex, graph.isEdge]
    rw [e1, addEdge_accepted _ x x ⊤ hv hv he]
    constructor
    · exact (graph.isEdge_addEdge _ x x x x).2 (Or.inr (Or.inl ⟨rfl, rfl⟩))
    · simp only
      rw [find_addEdge, if_pos (Or.inl ⟨rfl, rfl⟩)]
  cases hr : Prim_relax g x (g.Adj x) (Prim_extract s0 (Prim_start s0 g) ⟨x, x, ⊤⟩) with
  | error f =>
    rw [hr] at hrun
    cases hrun
  | ok st1 =>
    rw [hr] at hrun
    have hl := Prim_while_loop g s0 k st1 t x ⊤ hrun (by
      rw [Prim_relax_ans g _ _ _ _ hr]
      exact hloop)
    refine ⟨hl.1, ?_⟩
    have hxt : x ∈ t.vs := hp.mem_iff.2 hx
    exact (cost_eq_ok_iff t x x ⊤).2 ⟨hxt, hxt, hl.2⟩

set_option maxRecDepth 100000 in
set_option synthInstance.maxSize 4000 in
/-- Witness of the evaluation of C16 on two vertices joined by one edge of cost 5,
a graph without self-loop, with `s` initially `0`. -/
theorem Prim_MST_adds_self_loop_witness :
    (Examples.oneEdge.isEdge 1 1 = false ∧ Examples.oneEdge.isEdge 2 2 = false ∧
      observe (Prim_MST 0 2 Examples.oneEdge) =
        some ([1, 2], [(1, 1), (1, 2), (2, 1)], [(1, 1, ⊤), (1, 2, 5), (2, 1, 5)])) ∧
    ∃ x ∈ Examples.oneEdge.V, ∃ t,
      (∀ fuel, Examples.oneEdge.n ≤ fuel → Prim_MST 0 fuel Examples.oneEdge = .ok t) ∧
      (Prim_start 0 Examples.oneEdge).H.min = .ok ⟨x, x, ⊤⟩ ∧
      t.isEdge x x = true ∧ t.cost x x = .ok ⊤ :=
  ⟨by decide!,
    Prim_MST_adds_self_loop Examples.oneEdge
      (WF_of_reachable _ (Reachable.addEdge _ 1 2 5
        (Reachable.addVertex _ 2 (Reachable.addVertex _ 1 Reachable.empty))))
      (Inv_of_reachable _ (Reachable.addEdge _ 1 2 5
        (Reachable.addVertex _ 2 (Reachable.addVertex _ 1 Reachable.empty))))
      (by decide) 0 (by decide)⟩

end wgraph

/-! ## Claim on the rounds of `Boruvka_MST` -/

namespace wgraph

variable {Vertex K : Type} [LinearOrder Vertex] [LinearOrderedAddCommMonoidWithTop K]
variable {g : wgraph Vertex K} {es : List (WEdge Vertex K)}

end wgraph

/-! ## Claim on the map `lightest` of `Boruvka_MST` -/

theorem indexOf_le_of_sorted {α : Type} [Preorder α] [DecidableEq α] (es : List α)
    (hs : es.Pairwise (fun a b => a < b)) (e f : α) (he : e ∈ es) (hf : f ∈ es)
    (hef : e ≤ f) : es.indexOf e ≤ es.indexOf f := by
  by_contra hlt
  have hlt1 : es.indexOf f < es.indexOf e := Nat.lt_of_not_le hlt
  have hi : es.indexOf e < es.length := List.indexOf_lt_length.2 he
  have hj : es.indexOf f < es.length := List.indexOf_lt_length.2 hf
  have := (List.pairwise_iff_getElem.1 hs) (es.indexOf f) (es.indexOf e) hj hi hlt1
  rw [List.getElem_indexOf, List.getElem_indexOf] at this
  exact lt_irrefl _ (lt_of_lt_of_le this hef)

namespace wgraph

variable {Vertex K : Type} [LinearOrder Vertex] [LinearOrderedAddCommMonoidWithTop K]

/-- C18: in a round of `Boruvka_MST` on a well-formed graph satisfying the
cost-table invariant, whatever the components `d` at its start, after the scan of
`E()` the map `lightest` has a key `r` exactly when some edge of `E()` has one
endpoint in the component represented by `r` and the other endpoint in a
different component; and `lightest[r]` is such an edge, of minimum cost among
them, and the first of them in the enumeration of `E()`, in particular the first
among those of equal cost. -/
theorem lightest_after_scan (g : wgraph Vertex K) (hwf : g.WF) (hinv : g.Inv)
    (d : ds Vertex) :
    ∃ es, g.E = .ok es ∧
      (∀ r, Map.count (lightest_scan d es []) r ≠ 0 ↔
        ∃ f ∈ es, d.find_set f.v ≠ d.find_set f.w ∧ (d.root_key f.v = r ∨ d.root_key f.w = r)) ∧
      (∀ r e, Map.find (lightest_scan d es []) r = some e →
        e ∈ es ∧ d.find_set e.v ≠ d.find_set e.w ∧ (d.root_key e.v = r ∨ d.root_key e.w = r) ∧
        ∀ f ∈ es, d.find_set f.v ≠ d.find_set f.w → (d.root_key f.v = r ∨ d.root_key f.w = r) →
          e.c ≤ f.c ∧ es.indexOf e ≤ es.indexOf f) := by
  obtain ⟨es, hEok, hE⟩ := EdgesOf.of_E g hwf hinv
  have hl := lightest_scan_nil d es hE.sorted
  refine ⟨es, hEok, ?_, ?_⟩
  · intro r
    rw [Map.count_ne_zero]
    constructor
    · rintro ⟨e, he⟩
      have := hl.sound (r, e) (Map.mem_of_find _ _ _ he)
      exact ⟨e, this.1, this.2.1, this.2.2.1⟩
    · rintro ⟨f, hf, hc, ht⟩
      have := hl.complete f hf hc r ht
      cases hfind : Map.find (lightest_scan d es []) r with
      | none => exact absurd hfind this
      | some e => exact ⟨e, rfl⟩
  · intro r e he
    have := hl.sound (r, e) (Map.mem_of_find _ _ _ he)
    refine ⟨this.1, this.2.1, this.2.2.1, ?_⟩
    intro f hf hc ht
    have hle : e ≤ f := this.2.2.2 f hf hc ht
    exact ⟨WEdge.cost_le_of_le hle, indexOf_le_of_sorted es hE.sorted e f this.1 hf hle⟩

set_option maxRecDepth 100000 in
set_option synthInstance.maxSize 4000 in
/-- Witness of C18 on the triangle whose three edges cost 1, in the first round,
where every vertex is its own component: the component of `1` and the component
of `2` keep the edge `(1,2,1)`, the first enumerated, and the component of `3`
keeps `(1,3,1)`. -/
theorem lightest_after_scan_witness :
    (Examples.triangle.E.toOption.map (fun es => lightest_scan ds.empty es []) =
      some [(1, ⟨1, 2, 1⟩), (2, ⟨1, 2, 1⟩), (3, ⟨1, 3, 1⟩)]) ∧
    ∃ es, Examples.triangle.E = .ok es ∧
      (∀ r, Map.count (lightest_scan ds.empty es []) r ≠ 0 ↔
        ∃ f ∈ es, (ds.empty : ds ℕ).find_set f.v ≠ (ds.empty : ds ℕ).find_set f.w ∧
          ((ds.empty : ds ℕ).root_key f.v = r ∨ (ds.empty : ds ℕ).root_key f.w = r)) ∧
      (∀ r e, Map.find (lightest_scan ds.empty es []) r = some e →
        e ∈ es ∧ (ds.empty : ds ℕ).find_set e.v ≠ (ds.empty : ds ℕ).find_set e.w ∧
        ((ds.empty : ds ℕ).root_key e.v = r ∨ (ds.empty : ds ℕ).root_key e.w = r) ∧
        ∀ f ∈ es, (ds.empty : ds ℕ).find_set f.v ≠ (ds.empty : ds ℕ).find_set f.w →
          ((ds.empty : ds ℕ).root_key f.v = r ∨ (ds.empty : ds ℕ).root_key f.w = r) →
          e.c ≤ f.c ∧ es.indexOf e ≤ es.indexOf f) :=
  ⟨by decide!,
    lightest_after_scan Examples.triangle
      (WF_of_reachable _ Examples.triangle_reachable)
      (Inv_of_reachable _ Examples.triangle_reachable) ds.empty⟩

end wgraph

end Csci164
